import Mathlib

set_option autoImplicit false

variable {T F : Type}

/-!
# AVL tree (`AVLtree.h`)

## The heap model

The C++ class `AVLtree<T, F>` manipulates `NodeMapTree<T, F>` objects through raw
pointers (left son, right son, parent).  The embedding keeps that shape: a memory maps
addresses to node records, a pointer is an optional address (`none` is `nullptr`), and
every method is a function from the state before the call to the state after it.

* a dereference of `nullptr` or of a freed address is the failure `NullDereference`;
* the loops and the recursion of the traversal run on fuel, the number of addresses
  ever allocated plus one; running out of it is the failure `OutOfFuel`;
* The field `int size` is an `Int` kept within 32 bits: `size++` and `size--` wrap around
  (`wrapInt`).  Heights are `Int`: the height of a tree stays far from the machine bounds.

## The tree of a heap

`Shape` is the tree the nodes of a heap form: every node with its address, key, value
and stored height.  `Models t s` says that the nodes reachable from the root of the
state `t` form the tree `s`, with every link to a son and every link to a parent in
place.  The methods of the class have counterparts on `Shape` (`descend`, `attach`,
`detach`, `visit`, `climb`, ...), and each method is shown to do on the heap what its
counterpart does on the tree.  The invariants (`Shape.BST`, `Shape.Balanced`) and the
in-order sequence (`Shape.toList`) are read off the tree.
-/

/-- Ways in which a call can fail: the two exceptions of `exceptions.h` that the tree
throws, and the two failures of the model itself. -/
inductive Failure where
  | KeyDoesNotExist
  | InvalidInput
  | NullDereference
  | OutOfFuel
  deriving DecidableEq

/-- A pointer to a node: `none` is `nullptr`. -/
abbrev Ptr := Option Nat

/-- Modelled from the spec: the node class of `NodeMapTree.h` (spec section 3): key,
value, height, links to the left son, the right son and the parent. -/
structure NodeMapTree (T F : Type) where
  key : T
  value : F
  height : Int
  sonLeft : Ptr
  sonRight : Ptr
  parent : Ptr
  deriving DecidableEq

/-- The memory: which node record lives at which address. -/
abbrev Memory (T F : Type) := Nat → Option (NodeMapTree T F)

namespace NodeMapTree

/-- Read the node a pointer points to. -/
def deref (m : Memory T F) (p : Ptr) : Except Failure (NodeMapTree T F) :=
  match p with
  | none => .error .NullDereference
  | some a =>
    match m a with
    | none => .error .NullDereference
    | some n => .ok n

/-- Write a node record at an address. -/
def store (m : Memory T F) (a : Nat) (n : NodeMapTree T F) : Memory T F :=
  fun x => if x = a then some n else m x

/-- Release an address (`delete`). -/
def free (m : Memory T F) (a : Nat) : Memory T F :=
  fun x => if x = a then none else m x

/-- Overwrite the node a pointer points to. -/
def modify (m : Memory T F) (p : Ptr) (f : NodeMapTree T F → NodeMapTree T F) :
    Except Failure (Memory T F) :=
  match p with
  | none => .error .NullDereference
  | some a =>
    match m a with
    | none => .error .NullDereference
    | some n => .ok (store m a (f n))

/-- Modelled from the spec: `getKey()` of `NodeMapTree.h`. -/
def getKey (m : Memory T F) (p : Ptr) : Except Failure T :=
  (deref m p).map (fun n => n.key)

/-- Modelled from the spec: `getValue()` of `NodeMapTree.h`. -/
def getValue (m : Memory T F) (p : Ptr) : Except Failure F :=
  (deref m p).map (fun n => n.value)

/-- Modelled from the spec: `getHeight()` of `NodeMapTree.h`. -/
def getHeight (m : Memory T F) (p : Ptr) : Except Failure Int :=
  (deref m p).map (fun n => n.height)

/-- Modelled from the spec: `getSonLeft()` of `NodeMapTree.h`. -/
def getSonLeft (m : Memory T F) (p : Ptr) : Except Failure Ptr :=
  (deref m p).map (fun n => n.sonLeft)

/-- Modelled from the spec: `getSonRight()` of `NodeMapTree.h`. -/
def getSonRight (m : Memory T F) (p : Ptr) : Except Failure Ptr :=
  (deref m p).map (fun n => n.sonRight)

/-- Modelled from the spec: `getParent()` of `NodeMapTree.h`. -/
def getParent (m : Memory T F) (p : Ptr) : Except Failure Ptr :=
  (deref m p).map (fun n => n.parent)

/-- Modelled from the spec: `updateValue(value)` of `NodeMapTree.h`. -/
def updateValue (m : Memory T F) (p : Ptr) (v : F) : Except Failure (Memory T F) :=
  modify m p (fun n => { n with value := v })

/-- Modelled from the spec: `updateParent(parent)` of `NodeMapTree.h`. -/
def updateParent (m : Memory T F) (p : Ptr) (q : Ptr) : Except Failure (Memory T F) :=
  modify m p (fun n => { n with parent := q })

/-- Modelled from the spec: `updateLeftSon(son)` of `NodeMapTree.h` (spec 4.1): sets the
left link and, when the son is not absent, the son's parent back-reference. -/
def updateLeftSon (m : Memory T F) (p : Ptr) (c : Ptr) : Except Failure (Memory T F) := do
  let m1 ← modify m p (fun n => { n with sonLeft := c })
  match c with
  | none => pure m1
  | some _ => modify m1 c (fun n => { n with parent := p })

/-- Modelled from the spec: `updateRightSon(son)` of `NodeMapTree.h` (spec 4.1): sets the
right link and, when the son is not absent, the son's parent back-reference. -/
def updateRightSon (m : Memory T F) (p : Ptr) (c : Ptr) : Except Failure (Memory T F) := do
  let m1 ← modify m p (fun n => { n with sonRight := c })
  match c with
  | none => pure m1
  | some _ => modify m1 c (fun n => { n with parent := p })

/-- Height of a possibly absent son: an absent son counts as `-1`. -/
def sonHeight (m : Memory T F) (c : Ptr) : Except Failure Int :=
  match c with
  | none => pure (-1)
  | some _ => getHeight m c

/-- Modelled from the spec: `updateHeight()` of `NodeMapTree.h` (spec 4.1): recomputes
the height from the heights of the sons. -/
def updateHeight (m : Memory T F) (p : Ptr) : Except Failure (Memory T F) := do
  let n ← deref m p
  let hl ← sonHeight m n.sonLeft
  let hr ← sonHeight m n.sonRight
  modify m p (fun n => { n with height := 1 + max hl hr })

/-- Modelled from the spec: the overload `updateHeight(height)` of `NodeMapTree.h`, which
stores the given height. -/
def updateHeightTo (m : Memory T F) (p : Ptr) (h : Int) : Except Failure (Memory T F) :=
  modify m p (fun n => { n with height := h })

/-- Modelled from the spec: `getBalanceFactor()` of `NodeMapTree.h` (spec 4.1):
height(left) - height(right). -/
def getBalanceFactor (m : Memory T F) (p : Ptr) : Except Failure Int := do
  let n ← deref m p
  let hl ← sonHeight m n.sonLeft
  let hr ← sonHeight m n.sonRight
  pure (hl - hr)

/-- Modelled from the spec: `isBalanced()` of `NodeMapTree.h` (spec 4.1): the absolute
value of the balance factor is at most 1. -/
def isBalanced (m : Memory T F) (p : Ptr) : Except Failure Bool := do
  let bf ← getBalanceFactor m p
  pure (decide (-1 ≤ bf ∧ bf ≤ 1))

/-- Modelled from the spec: `isRightSon()` of `NodeMapTree.h` (spec 4.1): whether this
node is its parent's right child; false when there is no parent. -/
def isRightSon (m : Memory T F) (p : Ptr) : Except Failure Bool := do
  let n ← deref m p
  match n.parent with
  | none => pure false
  | some _ => do
    let q ← deref m n.parent
    pure (decide (q.sonRight = p))

/-- Modelled from the spec: `getNumOfSons()` of `NodeMapTree.h` (spec 4.1): 0, 1 or 2. -/
def getNumOfSons (m : Memory T F) (p : Ptr) : Except Failure Int := do
  let n ← deref m p
  pure ((if n.sonLeft.isSome then 1 else 0) + (if n.sonRight.isSome then 1 else 0))

/-- Modelled from the spec: `nodeAllNull()` of `NodeMapTree.h`: clears the three links of
the node (left son, right son, parent). -/
def nodeAllNull (m : Memory T F) (p : Ptr) : Except Failure (Memory T F) :=
  modify m p (fun n => { n with sonLeft := none, sonRight := none, parent := none })

end NodeMapTree

open NodeMapTree

/-- The value an `int` of the source holds after arithmetic with the result `x`: 32 bits,
two's complement, wrapping around at the bounds. -/
def wrapInt (x : Int) : Int := (x + 2147483648) % 4294967296 - 2147483648

/-- The class `AVLtree<T, F>`: the root pointer and the size, together with the memory
the nodes live in and the next address the allocator hands out. -/
structure AVLtree (T F : Type) where
  mem : Memory T F
  next : Nat
  root : Ptr
  size : Int

/-- What a call of a method that can throw leaves behind: the tree after a call that
returned; the exception and the tree as it is at the `throw` statement that ran; or a
failure of the model itself (an absent node read, the fuel used up), where the source
has no defined state. -/
inductive Outcome (T F : Type) where
  | returned (t : AVLtree T F)
  | threw (e : Failure) (t : AVLtree T F)
  | fault (e : Failure)

/-- The result of a call alone, without the tree a `throw` leaves behind. -/
def Outcome.result {T F : Type} : Outcome T F → Except Failure (AVLtree T F)
  | .returned t => .ok t
  | .threw e _ => .error e
  | .fault e => .error e

namespace AVLtree

/-- The constructor `AVLtree()`: no root, size zero. -/
def empty : AVLtree T F :=
  { mem := fun _ => none, next := 0, root := none, size := 0 }

/-- The state with another memory. -/
def withMem (t : AVLtree T F) (m : Memory T F) : AVLtree T F :=
  { t with mem := m }

/-- The expression `new NodeMapTree<T, F>(key, value)`: a fresh node of height 0 without
links, at a fresh address. -/
def newNode (t : AVLtree T F) (key : T) (value : F) : AVLtree T F × Ptr :=
  ({ t with
      mem := store t.mem t.next
        { key := key, value := value, height := 0,
          sonLeft := none, sonRight := none, parent := none },
      next := t.next + 1 },
   some t.next)

/-- The statement `delete node`. -/
def deleteNode (t : AVLtree T F) (p : Ptr) : Except Failure (AVLtree T F) :=
  match p with
  | none => pure t
  | some a =>
    match t.mem a with
    | none => .error .NullDereference
    | some _ => pure { t with mem := free t.mem a }

/-- The method `getSize`. -/
def getSize (t : AVLtree T F) : Int := t.size

/-- The method `getRoot`. -/
def getRoot (t : AVLtree T F) : Ptr := t.root

section Ordered

variable [LinearOrder T]

/-- The loop of `findNode`, started at `note`. -/
def findNodeLoop (m : Memory T F) (key : T) : Nat → Ptr → Except Failure Ptr
  | 0, _ => .error .OutOfFuel
  | fuel + 1, note => do
    let n ← deref m note
    if n.key ≠ key then
      if n.key > key then
        if n.sonLeft.isSome then findNodeLoop m key fuel n.sonLeft
        else pure note
      else if n.key < key then
        if n.sonRight.isSome then findNodeLoop m key fuel n.sonRight
        else pure note
      else findNodeLoop m key fuel note
    else pure note

/-- The method `findNode`: the node with the key, or else the last node of the search;
the null pointer on the empty tree. -/
def findNode (t : AVLtree T F) (key : T) : Except Failure Ptr :=
  match t.root with
  | none => pure t.root
  | some _ => findNodeLoop t.mem key (t.next + 1) t.root

/-- The method `findGetValue`. -/
def findGetValue (t : AVLtree T F) (key : T) : Except Failure F :=
  match t.root with
  | none => .error .KeyDoesNotExist
  | some _ => do
    let note ← findNode t key
    let k ← getKey t.mem note
    if k ≠ key then .error .KeyDoesNotExist
    else getValue t.mem note

/-- The method `changeParentByNode`: `des` takes the place of `source` under the parent
of `source`, or becomes the root when `source` has no parent. -/
def changeParentByNode (t : AVLtree T F) (source des : Ptr) :
    Except Failure (AVLtree T F) := do
  let par ← getParent t.mem source
  if par.isSome then
    if (← isRightSon t.mem source) then
      let m ← updateRightSon t.mem par des
      pure (t.withMem m)
    else
      let m ← updateLeftSon t.mem par des
      pure (t.withMem m)
  else
    let m ← updateParent t.mem des none
    pure { t with mem := m, root := des }

/-- The method `reBalanceLL`. -/
def reBalanceLL (t : AVLtree T F) (B : Ptr) : Except Failure (AVLtree T F × Ptr) := do
  let A ← getSonLeft t.mem B
  let m ← updateLeftSon t.mem B (← getSonRight t.mem A)
  let t1 ← changeParentByNode (t.withMem m) B A
  let m ← updateRightSon t1.mem A B
  let m ← updateHeight m B
  let m ← updateHeight m A
  pure (t1.withMem m, A)

/-- The method `reBalanceLR`. -/
def reBalanceLR (t : AVLtree T F) (C : Ptr) : Except Failure (AVLtree T F × Ptr) := do
  let A ← getSonLeft t.mem C
  let B ← getSonRight t.mem A
  let m ← updateLeftSon t.mem C (← getSonRight t.mem B)
  let m ← updateRightSon m A (← getSonLeft m B)
  let t1 ← changeParentByNode (t.withMem m) C B
  let m ← updateLeftSon t1.mem B A
  let m ← updateRightSon m B C
  let m ← updateHeight m A
  let m ← updateHeight m C
  let m ← updateHeight m B
  pure (t1.withMem m, B)

/-- The method `reBalanceRL`. -/
def reBalanceRL (t : AVLtree T F) (C : Ptr) : Except Failure (AVLtree T F × Ptr) := do
  let A ← getSonRight t.mem C
  let B ← getSonLeft t.mem A
  let m ← updateRightSon t.mem C (← getSonLeft t.mem B)
  let m ← updateLeftSon m A (← getSonRight m B)
  let t1 ← changeParentByNode (t.withMem m) C B
  let m ← updateLeftSon t1.mem B C
  let m ← updateRightSon m B A
  let m ← updateHeight m A
  let m ← updateHeight m C
  let m ← updateHeight m B
  pure (t1.withMem m, B)

/-- The method `reBalanceRR`. -/
def reBalanceRR (t : AVLtree T F) (B : Ptr) : Except Failure (AVLtree T F × Ptr) := do
  let A ← getSonRight t.mem B
  let m ← updateRightSon t.mem B (← getSonLeft t.mem A)
  let t1 ← changeParentByNode (t.withMem m) B A
  let m ← updateLeftSon t1.mem A B
  let m ← updateHeight m B
  let m ← updateHeight m A
  pure (t1.withMem m, A)

/-- The loop of `checkBalance`, at the node `p`. -/
def checkBalanceLoop : Nat → AVLtree T F → Ptr → Except Failure (AVLtree T F)
  | _, t, none => pure t
  | 0, _, some _ => .error .OutOfFuel
  | fuel + 1, t, some a => do
    let p : Ptr := some a
    if (← isBalanced t.mem p) then
      let m ← updateHeight t.mem p
      checkBalanceLoop fuel (t.withMem m) (← getParent m p)
    else
      let BF ← getBalanceFactor t.mem p
      let highTemp ← getHeight t.mem p
      let (t1, localRoot) ←
        if BF = 2 then do
          let leftSon ← getSonLeft t.mem p
          if (← getBalanceFactor t.mem leftSon) ≥ 0 then reBalanceLL t p
          else reBalanceLR t p
        else do
          let rightSon ← getSonRight t.mem p
          if (← getBalanceFactor t.mem rightSon) = 1 then reBalanceRL t p
          else reBalanceRR t p
      if (← getHeight t1.mem localRoot) = highTemp then pure t1
      else checkBalanceLoop fuel t1 (← getParent t1.mem localRoot)

/-- The method `checkBalance`: walk from `p` up to the root, refreshing heights and
rotating where a node is out of balance. -/
def checkBalance (t : AVLtree T F) (p : Ptr) : Except Failure (AVLtree T F) :=
  checkBalanceLoop (t.next + 1) t p

/-- The method `addNode`.  The three `if` statements of the source run one after the
other; `newNode` is not initialised before them. -/
def addNode (t : AVLtree T F) (key : T) (value : F) : Except Failure (AVLtree T F × Ptr) :=
  match t.root with
  | none =>
    let (t1, newNode) := t.newNode key value
    pure ({ t1 with root := newNode, size := wrapInt (t1.size + 1) }, newNode)
  | some _ => do
    let lastNode ← findNode t key
    let (t1, newNode) ←
      if key = (← getKey t.mem lastNode) then do
        let m ← updateValue t.mem lastNode value
        pure (t.withMem m, lastNode)
      else pure (t, (none : Ptr))
    let (t2, newNode) ←
      if key > (← getKey t1.mem lastNode) then do
        let (t1a, fresh) := t1.newNode key value
        let m ← updateRightSon t1a.mem lastNode fresh
        pure ({ t1a with mem := m, size := wrapInt (t1a.size + 1) }, fresh)
      else pure (t1, newNode)
    let (t3, newNode) ←
      if key < (← getKey t2.mem lastNode) then do
        let (t2a, fresh) := t2.newNode key value
        let m ← updateLeftSon t2a.mem lastNode fresh
        pure ({ t2a with mem := m, size := wrapInt (t2a.size + 1) }, fresh)
      else pure (t2, newNode)
    let m ← updateHeight t3.mem lastNode
    let t4 := t3.withMem m
    let par ← getParent t4.mem lastNode
    if par.isSome then
      let t5 ← checkBalance t4 par
      pure (t5, newNode)
    else pure (t4, newNode)

/-- The method `changePlacesParentRightSon`: the node `parent` and its right son `son`
(which has no left son) change places. -/
def changePlacesParentRightSon (t : AVLtree T F) ( parent : Ptr) (son : Ptr) :
    Except Failure (AVLtree T F) := do
  let m ← updateLeftSon t.mem son (← getSonLeft t.mem parent)
  let pp ← getParent m parent
  let t1 ←
    if pp.isNone then do
      let m ← updateParent m son none
      pure { t with mem := m, root := son }
    else do
      if (← isRightSon m parent) then do
        let m ← updateRightSon m pp son
        pure (t.withMem m)
      else do
        let m ← updateLeftSon m pp son
        pure (t.withMem m)
  let m ← nodeAllNull t1.mem parent
  let m ← updateRightSon m parent (← getSonRight m son)
  let m ← updateRightSon m son parent
  pure (t1.withMem m)

/-- The method `changeNodePlaces`: `node1` and the leftmost node `node2` of its right
subtree (not the right son itself) change places. -/
def changeNodePlaces (t : AVLtree T F) (node1 node2 : Ptr) :
    Except Failure (AVLtree T F) := do
  let Parent2 ← getParent t.mem node2
  let RightSon2 ← getSonRight t.mem node2
  let high2 ← getHeight t.mem node2
  let pp ← getParent t.mem node1
  let t1 ←
    if pp.isNone then do
      let m ← updateParent t.mem node2 none
      pure { t with mem := m, root := node2 }
    else do
      if (← isRightSon t.mem node1) then do
        let m ← updateRightSon t.mem pp node2
        pure (t.withMem m)
      else do
        let m ← updateLeftSon t.mem pp node2
        pure (t.withMem m)
  let m ← updateLeftSon t1.mem node2 (← getSonLeft t1.mem node1)
  let m ← updateRightSon m node2 (← getSonRight m node1)
  let m ← updateHeightTo m node2 (← getHeight m node1)
  let m ← updateLeftSon m Parent2 node1
  let m ← updateLeftSon m node1 none
  let m ← updateRightSon m node1 RightSon2
  let m ← updateHeightTo m node1 high2
  pure (t1.withMem m)

/-- The method `removeLeaf`: returns the former parent. -/
def removeLeaf (t : AVLtree T F) (nodeToRemove : Ptr) :
    Except Failure (AVLtree T F × Ptr) := do
  let Parent ← getParent t.mem nodeToRemove
  if Parent.isNone then
    let t1 ← deleteNode t nodeToRemove
    pure ({ t1 with size := wrapInt (t1.size - 1), root := none }, none)
  else
    let m ←
      if (← isRightSon t.mem nodeToRemove) then updateRightSon t.mem Parent none
      else updateLeftSon t.mem Parent none
    let m ← updateParent m nodeToRemove none
    let t1 ← deleteNode (t.withMem m) nodeToRemove
    pure ({ t1 with size := wrapInt (t1.size - 1) }, Parent)

/-- The method `removeOneSon`: returns the former parent. -/
def removeOneSon (t : AVLtree T F) (nodeToRemove : Ptr) :
    Except Failure (AVLtree T F × Ptr) := do
  let sonR ← getSonRight t.mem nodeToRemove
  let son ← if sonR.isNone then getSonLeft t.mem nodeToRemove else pure sonR
  let nodeParent ← getParent t.mem nodeToRemove
  let t1 ←
    if nodeParent.isNone then do
      let m ← updateParent t.mem son none
      pure { t with mem := m, root := son }
    else do
      if (← isRightSon t.mem nodeToRemove) then do
        let m ← updateRightSon t.mem nodeParent son
        pure (t.withMem m)
      else do
        let m ← updateLeftSon t.mem nodeParent son
        pure (t.withMem m)
  let m ← nodeAllNull t1.mem nodeToRemove
  let t2 ← deleteNode (t1.withMem m) nodeToRemove
  pure ({ t2 with size := wrapInt (t2.size - 1) }, nodeParent)

/-- The inner loop of `removeNodeInTheMiddle`: go left as long as there is a left son. -/
def leftmostLoop (m : Memory T F) : Nat → Ptr → Except Failure Ptr
  | 0, _ => .error .OutOfFuel
  | fuel + 1, son => do
    let l ← getSonLeft m son
    if l.isSome then leftmostLoop m fuel l else pure son

/-- The method `removeNodeInTheMiddle`: the node changes places with its in-order
successor and is then removed as a leaf or as a node with one son. -/
def removeNodeInTheMiddle (t : AVLtree T F) (nodeToRemove : Ptr) :
    Except Failure (AVLtree T F × Ptr) := do
  let son ← getSonRight t.mem nodeToRemove
  let t1 ←
    if (← getSonLeft t.mem son) = none then changePlacesParentRightSon t nodeToRemove son
    else do
      let son ← leftmostLoop t.mem (t.next + 1) son
      changeNodePlaces t nodeToRemove son
  if (← getNumOfSons t1.mem nodeToRemove) = 0 then removeLeaf t1 nodeToRemove
  else removeOneSon t1 nodeToRemove

/-- The method `removeNode`.  The `if` statements of the source run one after the
other on the number of sons read before the first of them. -/
def removeNode (t : AVLtree T F) (key : T) : Except Failure (AVLtree T F) :=
  match t.root with
  | none => .error .KeyDoesNotExist
  | some _ => do
    let nodeToRemove ← findNode t key
    if (← getKey t.mem nodeToRemove) ≠ key then .error .KeyDoesNotExist
    else do
      let numOfSons ← getNumOfSons t.mem nodeToRemove
      let (t1, parentNodeToRemove) ←
        if numOfSons = 0 then removeLeaf t nodeToRemove else pure (t, (none : Ptr))
      let (t2, parentNodeToRemove) ←
        if numOfSons = 1 then removeOneSon t1 nodeToRemove
        else pure (t1, parentNodeToRemove)
      let (t3, parentNodeToRemove) ←
        if numOfSons > 1 then removeNodeInTheMiddle t2 nodeToRemove
        else pure (t2, parentNodeToRemove)
      if parentNodeToRemove.isSome then checkBalance t3 parentNodeToRemove
      else pure t3

/-- The method `removeNode` with the tree each `throw` leaves behind.  The statements
are those of `removeNode`, in the same order; a `throw` gives the tree as the
statements before it have left it: both `throw` statements of the source come before
the first statement that writes (before them only the test of `root`, `findNode`,
which is `const`, and `getKey` run), so that tree is `t`.  Without the tree the result
is that of `removeNode` (`removeNodeOutcome_result`). -/
def removeNodeOutcome (t : AVLtree T F) (key : T) : Outcome T F :=
  match t.root with
  | none => .threw .KeyDoesNotExist t
  | some _ =>
    match findNode t key with
    | .error e => .fault e
    | .ok nodeToRemove =>
      match getKey t.mem nodeToRemove with
      | .error e => .fault e
      | .ok k =>
        if k ≠ key then .threw .KeyDoesNotExist t
        else
          let rest : Except Failure (AVLtree T F) := do
            let numOfSons ← getNumOfSons t.mem nodeToRemove
            let (t1, parentNodeToRemove) ←
              if numOfSons = 0 then removeLeaf t nodeToRemove else pure (t, (none : Ptr))
            let (t2, parentNodeToRemove) ←
              if numOfSons = 1 then removeOneSon t1 nodeToRemove
              else pure (t1, parentNodeToRemove)
            let (t3, parentNodeToRemove) ←
              if numOfSons > 1 then removeNodeInTheMiddle t2 nodeToRemove
              else pure (t2, parentNodeToRemove)
            if parentNodeToRemove.isSome then checkBalance t3 parentNodeToRemove
            else pure t3
          match rest with
          | .ok t' => .returned t'
          | .error e => .fault e

end Ordered

end AVLtree

open AVLtree

/-- The tree a memory holds: every node with its address, key, value and stored height. -/
inductive Shape (T F : Type) where
  | nil : Shape T F
  | node (a : Nat) (l : Shape T F) (k : T) (v : F) (h : Int) (r : Shape T F) : Shape T F

namespace Shape

/-- The pointer to the root node of a tree. -/
def ptr : Shape T F → Ptr
  | nil => none
  | node a _ _ _ _ _ => some a

/-- The addresses of the nodes of a tree. -/
def addrs : Shape T F → List Nat
  | nil => []
  | node a l _ _ _ r => a :: (l.addrs ++ r.addrs)

/-- The stored height of the root node; `-1` for the absent tree. -/
def hgt : Shape T F → Int
  | nil => -1
  | node _ _ _ _ h _ => h

/-- The in-order sequence of (key, value) pairs. -/
def toList : Shape T F → List (T × F)
  | nil => []
  | node _ l k v _ r => l.toList ++ (k, v) :: r.toList

/-- The in-order sequence of keys. -/
def keys (t : Shape T F) : List T := t.toList.map Prod.fst

/-- The number of nodes. -/
def count : Shape T F → Nat
  | nil => 0
  | node _ l _ _ _ r => l.count + 1 + r.count

/-- The memory holds the tree `t` below the parent pointer `par`: every node record is
at its address, with the links to its sons and to its parent. -/
def Holds (m : Memory T F) : Ptr → Shape T F → Prop
  | _, nil => True
  | par, node a l k v h r =>
    m a = some { key := k, value := v, height := h,
                 sonLeft := l.ptr, sonRight := r.ptr, parent := par }
    ∧ Holds m (some a) l ∧ Holds m (some a) r

end Shape

open Shape

/-- One step of the way from a node up to the root: the parent node and the subtree on
its other side.  `L`: the node is the left son; `R`: the node is the right son. -/
inductive Frame (T F : Type) where
  | L (a : Nat) (k : T) (v : F) (h : Int) (r : Shape T F) : Frame T F
  | R (a : Nat) (l : Shape T F) (k : T) (v : F) (h : Int) : Frame T F

namespace Frame

/-- The parent node with the subtree `s` put in the place of the missing son. -/
def fill : Frame T F → Shape T F → Shape T F
  | L a k v h r, s => node a s k v h r
  | R a l k v h, s => node a l k v h s

/-- The address of the parent node. -/
def addr : Frame T F → Nat
  | L a _ _ _ _ => a
  | R a _ _ _ _ => a

/-- The subtree on the other side. -/
def sib : Frame T F → Shape T F
  | L _ _ _ _ r => r
  | R _ l _ _ _ => l

end Frame

/-- The whole tree: the subtree `s` under the ancestors `path` (nearest first). -/
def plug : List (Frame T F) → Shape T F → Shape T F
  | [], s => s
  | f :: fs, s => plug fs (f.fill s)

/-- The pointer to the nearest ancestor; `top` when the path is empty. -/
def ctxPtr : List (Frame T F) → Ptr → Ptr
  | [], top => top
  | f :: _, _ => some f.addr

/-- The pointer to the topmost ancestor; the pointer `c` itself when there is none. -/
def ctxRoot : List (Frame T F) → Ptr → Ptr
  | [], c => c
  | f :: fs, _ => ctxRoot fs (some f.addr)

/-- The addresses of the ancestors and of the subtrees beside the path. -/
def ctxAddrs : List (Frame T F) → List Nat
  | [] => []
  | f :: fs => f.addr :: (f.sib.addrs ++ ctxAddrs fs)

/-- The memory holds the ancestors `path` of a node at pointer `c`, the topmost of them
below the parent pointer `top`. -/
def HoldsCtx (m : Memory T F) : List (Frame T F) → Ptr → Ptr → Prop
  | [], _, _ => True
  | Frame.L a k v h r :: fs, c, top =>
    m a = some { key := k, value := v, height := h,
                 sonLeft := c, sonRight := r.ptr, parent := ctxPtr fs top }
    ∧ Holds m (some a) r ∧ HoldsCtx m fs (some a) top
  | Frame.R a l k v h :: fs, c, top =>
    m a = some { key := k, value := v, height := h,
                 sonLeft := l.ptr, sonRight := c, parent := ctxPtr fs top }
    ∧ Holds m (some a) l ∧ HoldsCtx m fs (some a) top

/-- The state `t` holds the subtree `s` under the ancestors `path`, all addresses being
distinct and allocated. -/
structure ModelsAt (t : AVLtree T F) (path : List (Frame T F)) (s : Shape T F) : Prop where
  root : t.root = ctxRoot path s.ptr
  ctx : HoldsCtx t.mem path s.ptr none
  sub : Holds t.mem (ctxPtr path none) s
  nodup : (s.addrs ++ ctxAddrs path).Nodup
  fresh : ∀ x ∈ s.addrs ++ ctxAddrs path, x < t.next

/-- The state `t` holds the tree `s`. -/
def Models (t : AVLtree T F) (s : Shape T F) : Prop := ModelsAt t [] s

/-- The memory holds the tree `s` below some parent pointer. -/
def Down (m : Memory T F) (s : Shape T F) : Prop := ∃ par, Holds m par s

/-- The memory holds the ancestors `path` of some node. -/
def Skel (m : Memory T F) (path : List (Frame T F)) (top : Ptr) : Prop :=
  ∃ c, HoldsCtx m path c top

/-- The memory with the parent link of the node at `c` set to `p`. -/
def setParent (m : Memory T F) (c : Ptr) (p : Ptr) : Memory T F :=
  match c with
  | none => m
  | some a =>
    match m a with
    | none => m
    | some n => store m a { n with parent := p }

/-- The memory with the link of the nearest ancestor to the node below it set to `c`. -/
def setHole (m : Memory T F) : List (Frame T F) → Ptr → Memory T F
  | [], _ => m
  | Frame.L a _ _ _ _ :: _, c =>
    match m a with
    | none => m
    | some n => store m a { n with sonLeft := c }
  | Frame.R a _ _ _ _ :: _, c =>
    match m a with
    | none => m
    | some n => store m a { n with sonRight := c }

/-- The memory holds the path `ps` below some parent pointer. -/
def Hang (m : Memory T F) (ps : List (Frame T F)) (c : Ptr) : Prop :=
  ∃ top, HoldsCtx m ps c top

/-- The method `reBalanceLL` on the tree. -/
def rotLL : Shape T F → Option (Shape T F)
  | node b (node a al ak av _ ar) bk bv _ br =>
    some (node a al ak av (1 + max al.hgt (1 + max ar.hgt br.hgt))
      (node b ar bk bv (1 + max ar.hgt br.hgt) br))
  | _ => none

/-- The method `reBalanceRR` on the tree. -/
def rotRR : Shape T F → Option (Shape T F)
  | node b bl bk bv _ (node a al ak av _ ar) =>
    some (node a (node b bl bk bv (1 + max bl.hgt al.hgt) al) ak av
      (1 + max (1 + max bl.hgt al.hgt) ar.hgt) ar)
  | _ => none

/-- The method `reBalanceLR` on the tree. -/
def rotLR : Shape T F → Option (Shape T F)
  | node c (node a al ak av _ (node b bl bk bv _ br)) ck cv _ cr =>
    some (node b (node a al ak av (1 + max al.hgt bl.hgt) bl) bk bv
      (1 + max (1 + max al.hgt bl.hgt) (1 + max br.hgt cr.hgt))
      (node c br ck cv (1 + max br.hgt cr.hgt) cr))
  | _ => none

/-- The method `reBalanceRL` on the tree. -/
def rotRL : Shape T F → Option (Shape T F)
  | node c cl ck cv _ (node a (node b bl bk bv _ br) ak av _ ar) =>
    some (node b (node c cl ck cv (1 + max cl.hgt bl.hgt) bl) bk bv
      (1 + max (1 + max cl.hgt bl.hgt) (1 + max br.hgt ar.hgt))
      (node a br ak av (1 + max br.hgt ar.hgt) ar))
  | _ => none

/-- The balance factor of the root node: none for the absent tree. -/
def Shape.bf : Shape T F → Option Int
  | nil => none
  | node _ l _ _ _ r => some (l.hgt - r.hgt)

/-- The rotation `checkBalance` chooses at an unbalanced node. -/
def rebalance : Shape T F → Option (Shape T F)
  | nil => none
  | node a l k v h r =>
    if l.hgt - r.hgt = 2 then
      match l.bf with
      | none => none
      | some f => if f ≥ 0 then rotLL (node a l k v h r) else rotLR (node a l k v h r)
    else
      match r.bf with
      | none => none
      | some f => if f = 1 then rotRL (node a l k v h r) else rotRR (node a l k v h r)

/-- One round of the loop of `checkBalance` at the root of a subtree: the subtree
afterwards, and whether the loop goes on with the parent. -/
def visit : Shape T F → Option (Bool × Shape T F)
  | nil => none
  | node a l k v h r =>
    if -1 ≤ l.hgt - r.hgt ∧ l.hgt - r.hgt ≤ 1 then
      some (true, node a l k v (1 + max l.hgt r.hgt) r)
    else
      match rebalance (node a l k v h r) with
      | none => none
      | some s' => some (decide (s'.hgt ≠ h), s')

/-- The method `checkBalance` on the tree, started at the root of the subtree `s` below
the ancestors `path`: the whole tree afterwards. -/
def climb : List (Frame T F) → Shape T F → Option (Shape T F)
  | [], s => (visit s).map (fun x => x.2)
  | f :: fs, s =>
    match visit s with
    | none => none
    | some (true, s') => climb fs (f.fill s')
    | some (false, s') => some (plug (f :: fs) s')

/-- The call of `checkBalance` at the end of `addNode` and of `removeNode`, on the tree:
at the parent of the subtree `s`, when there is one. -/
def finish : List (Frame T F) × Shape T F → Option (Shape T F)
  | ([], s) => some s
  | (f :: fs, s) => climb fs (f.fill s)

section Ordered

variable [LinearOrder T]

/-- The loop of `findNode` on the tree: from the root of `s` down to the node with the
key, or to the last node of the search; the ancestors passed are collected on the
path. -/
def descend (key : T) : Shape T F → List (Frame T F) → List (Frame T F) × Shape T F
  | nil, path => (path, nil)
  | node a l k v h r, path =>
    if k = key then (path, node a l k v h r)
    else if k > key then
      if l.ptr.isSome then descend key l (Frame.L a k v h r :: path)
      else (path, node a l k v h r)
    else
      if r.ptr.isSome then descend key r (Frame.R a l k v h :: path)
      else (path, node a l k v h r)

/-- A fresh node of height 0 without sons. -/
def leaf (a : Nat) (key : T) (value : F) : Shape T F := node a nil key value 0 nil

/-- The three `if` statements of `addNode` and the call of `updateHeight` that follows
them, on the subtree of the node `findNode` returned. -/
def attach (nx : Nat) (key : T) (value : F) : Shape T F → Shape T F
  | nil => nil
  | node a l k v _ r =>
    if key = k then node a l k value (1 + max l.hgt r.hgt) r
    else if key > k then node a l k v (1 + max l.hgt 0) (leaf nx key value)
    else node a (leaf nx key value) k v (1 + max 0 r.hgt) r

/-- The method `addNode` on the tree; `nx` is the address of the node it may create. -/
def addNodeP (nx : Nat) (key : T) (value : F) (s : Shape T F) : Option (Shape T F) :=
  match s with
  | nil => some (leaf nx key value)
  | node a l k v h r =>
    match descend key (node a l k v h r) [] with
    | (path, s0) => finish (path, attach nx key value s0)

end Ordered

/-- The inner loop of `removeNodeInTheMiddle` on the tree: down to the leftmost node. -/
def leftmost : Shape T F → List (Frame T F) → List (Frame T F) × Shape T F
  | nil, path => (path, nil)
  | node a l k v h r, path =>
    if l.ptr.isSome then leftmost l (Frame.L a k v h r :: path)
    else (path, node a l k v h r)

/-- The method `removeNodeInTheMiddle` on the tree: the ancestors of the place where the
node is taken out after it has changed places with its successor, and the subtree that
is left there. -/
def detachMiddle (path : List (Frame T F)) : Shape T F → Option (List (Frame T F) × Shape T F)
  | node _ l _ _ h (node rn rl rk rv rh rr) =>
    if rl.ptr = none then some (Frame.R rn l rk rv rh :: path, rr)
    else
      match leftmost (node rn rl rk rv rh rr) [] with
      | (path2, node n2 _ k2 v2 _ r2) => some (path2 ++ Frame.R n2 l k2 v2 h :: path, r2)
      | (_, nil) => none
  | _ => none

/-- The tree after the node at the root of the subtree has been taken out by
`removeLeaf`, `removeOneSon` or `removeNodeInTheMiddle`: the ancestors of the place
where a node is now missing, and the subtree that is left there. -/
def detach (path : List (Frame T F)) : Shape T F → Option (List (Frame T F) × Shape T F)
  | nil => none
  | node a l k v h r =>
    let numOfSons : Int := (if l.ptr.isSome then 1 else 0) + (if r.ptr.isSome then 1 else 0)
    if numOfSons = 0 then some (path, nil)
    else if numOfSons = 1 then some (path, if r.ptr.isSome then r else l)
    else detachMiddle path (node a l k v h r)

section Ordered

variable [LinearOrder T]

/-- The method `removeNode` on the tree; none when the key is not found. -/
def removeP (key : T) (s : Shape T F) : Option (Shape T F) :=
  match descend key s [] with
  | (_, nil) => none
  | (path, node a l k v h r) =>
    if k ≠ key then none
    else
      match detach path (node a l k v h r) with
      | none => none
      | some z => finish z

/-- The address of the node with the key, as `findNode` finds it. -/
def hit (key : T) (s : Shape T F) : Option Nat :=
  match (descend key s []).2 with
  | nil => none
  | node a _ k _ _ _ => if k = key then some a else none

end Ordered

/-! ## The leftmost node of a subtree -/

/-- Every step of the path goes to a left son. -/
def AllLeft : List (Frame T F) → Prop
  | [] => True
  | Frame.L _ _ _ _ _ :: fs => AllLeft fs
  | Frame.R _ _ _ _ _ :: _ => False

/-- The invariant "BST order": at every node, every key in the left subtree is smaller
than the key of the node and every key in the right subtree is larger. -/
def Shape.BST [LT T] : Shape T F → Prop
  | nil => True
  | node _ l k _ _ r =>
    (∀ x ∈ l.keys, x < k) ∧ (∀ x ∈ r.keys, k < x) ∧ l.BST ∧ r.BST

/-- The invariants "AVL balance" and "height formula": at every node the heights of the
two sons differ by at most 1 (an absent son counting as `-1`), and the stored height is
1 + max of the heights of the sons. -/
def Shape.Balanced : Shape T F → Prop
  | nil => True
  | node _ l _ _ h r =>
    (-1 ≤ l.hgt - r.hgt ∧ l.hgt - r.hgt ≤ 1) ∧ h = 1 + max l.hgt r.hgt ∧
      l.Balanced ∧ r.Balanced

/-- The nodes of a tree in in-order: address, key, value. -/
def Shape.cells : Shape T F → List (Nat × T × F)
  | nil => []
  | node a l k v _ r => l.cells ++ (a, k, v) :: r.cells

/-- The nodes in-order before the place of the subtree under the path. -/
def pathL : List (Frame T F) → List (Nat × T × F)
  | [] => []
  | Frame.L _ _ _ _ _ :: fs => pathL fs
  | Frame.R a l k v _ :: fs => pathL fs ++ (l.cells ++ [(a, k, v)])

/-- The nodes in-order after the place of the subtree under the path. -/
def pathR : List (Frame T F) → List (Nat × T × F)
  | [] => []
  | Frame.L a k v _ r :: fs => ((a, k, v) :: r.cells) ++ pathR fs
  | Frame.R _ _ _ _ _ :: fs => pathR fs

/-- The search for `key` has passed the ancestors on the path: it went left at keys
larger than `key` and right at keys smaller than `key`. -/
def PathKeys [LT T] (key : T) : List (Frame T F) → Prop
  | [] => True
  | Frame.L _ k _ _ _ :: fs => key < k ∧ PathKeys key fs
  | Frame.R _ _ k _ _ :: fs => k < key ∧ PathKeys key fs

/-- The path fits a subtree of height `hh` in the place below it: every ancestor is
balanced and stores the right height. -/
def PathOK : List (Frame T F) → Int → Prop
  | [], _ => True
  | Frame.L _ _ _ h r :: fs, hh =>
    r.Balanced ∧ (-1 ≤ hh - r.hgt ∧ hh - r.hgt ≤ 1) ∧ h = 1 + max hh r.hgt ∧ PathOK fs h
  | Frame.R _ l _ _ h :: fs, hh =>
    l.Balanced ∧ (-1 ≤ l.hgt - hh ∧ l.hgt - hh ≤ 1) ∧ h = 1 + max l.hgt hh ∧ PathOK fs h

/-- The state of the walk of `checkBalance` at the root of a subtree: the two sons are
valid, the ancestors fit the height `1 + max hl0 hr0` the subtree had before, and the
height of one son has changed by at most 1 since.  When the node is out of balance,
its stored height is the former height, or it is stale and smaller than the height of
its higher son. -/
def Walk : List (Frame T F) → Shape T F → Prop
  | _, nil => False
  | path, node _ l _ _ h r =>
    l.Balanced ∧ r.Balanced ∧
    ∃ hl0 hr0 : Int, (-1 ≤ hl0 - hr0 ∧ hl0 - hr0 ≤ 1) ∧ PathOK path (1 + max hl0 hr0) ∧
      ((l.hgt = hl0 ∧ -1 ≤ r.hgt - hr0 ∧ r.hgt - hr0 ≤ 1) ∨
       (r.hgt = hr0 ∧ -1 ≤ l.hgt - hl0 ∧ l.hgt - hl0 ≤ 1)) ∧
      (¬ (-1 ≤ l.hgt - r.hgt ∧ l.hgt - r.hgt ≤ 1) →
        (h = 1 + max hl0 hr0 ∨ h < max l.hgt r.hgt))

/-- The value stored with a key, as `findNode` finds it. -/
def lookupP [LinearOrder T] (key : T) (s : Shape T F) : Option F :=
  match (descend key s []).2 with
  | nil => none
  | node _ _ k v _ _ => if k = key then some v else none

/-- The stored height of the outermost ancestor on the path, or `hh` when the path is
empty. -/
def topHgt : List (Frame T F) → Int → Int
  | [], hh => hh
  | Frame.L _ _ _ h _ :: fs, _ => topHgt fs h
  | Frame.R _ _ _ _ h :: fs, _ => topHgt fs h

/-! ## BST order and the in-order sequence -/

/-- The keys of the nodes are strictly ascending in the sequence. -/
def Ascending [LT T] (cs : List (Nat × T × F)) : Prop :=
  cs.Pairwise (fun c d => c.2.1 < d.2.1)

/-- A sequence of calls of `addNode`, one after the other, each with a key and a
value. -/
def addAll [LinearOrder T] : AVLtree T F → List (T × F) → Except Failure (AVLtree T F)
  | t, [] => .ok t
  | t, (k, v) :: rest =>
    match addNode t k v with
    | .ok (t', _) => addAll t' rest
    | .error e => .error e

/-- A call of `addNode` or of `removeNode`. -/
inductive Op (T F : Type) where
  | add (key : T) (value : F)
  | remove (key : T)

/-- A sequence of calls of `addNode` and `removeNode`, one after the other; it ends at
the first call that fails. -/
def runOps [LinearOrder T] : AVLtree T F → List (Op T F) → Except Failure (AVLtree T F)
  | t, [] => .ok t
  | t, Op.add k v :: rest =>
    match addNode t k v with
    | .ok (t', _) => runOps t' rest
    | .error e => .error e
  | t, Op.remove k :: rest =>
    match removeNode t k with
    | .ok t' => runOps t' rest
    | .error e => .error e

/-- The tree of an example: a successful result, or else the empty tree. -/
def okOr (r : Except Failure (AVLtree T F)) : AVLtree T F :=
  match r with
  | .ok t => t
  | .error _ => AVLtree.empty

/-- An example: the memory of the tree with the root 2 and the sons 1 and 3. -/
def exMem : Memory Nat Nat := fun a =>
  if a = 0 then
    some { key := 2, value := 20, height := 1, sonLeft := some 1, sonRight := some 2,
           parent := none }
  else if a = 1 then
    some { key := 1, value := 10, height := 0, sonLeft := none, sonRight := none,
           parent := some 0 }
  else if a = 2 then
    some { key := 3, value := 30, height := 0, sonLeft := none, sonRight := none,
           parent := some 0 }
  else none

/-- An example: the tree with the root 2 and the sons 1 and 3. -/
def exTree : AVLtree Nat Nat := { mem := exMem, next := 3, root := some 0, size := 3 }

/-- An example: the shape of `exTree`. -/
def exShape : Shape Nat Nat :=
  node 0 (node 1 nil 1 10 0 nil) 2 20 1 (node 2 nil 3 30 0 nil)

section Ordered

variable [LinearOrder T]

/-- The state of a tree that the calls keep: it has a shape in BST order and in
balance, and its size is the number of its nodes, as an `int` holds it. -/
def TreeInv (t : AVLtree T F) : Prop :=
  ∃ s, Models t s ∧ s.BST ∧ s.Balanced ∧ t.size = wrapInt s.count

end Ordered

/-- The four rotations of the class. -/
inductive Rotation where
  | LL
  | LR
  | RL
  | RR
  deriving DecidableEq

/-- One rotation in the loop of `checkBalance`: which rotation it was, the node `p` that
was out of balance, its balance factor `BF`, its stored height `highTemp`, the node
`localRoot` the rotation returned, and the height of that node after the rotation. -/
structure RotEvent where
  kind : Rotation
  node : Ptr
  BF : Int
  highTemp : Int
  localRoot : Ptr
  newHeight : Int
  deriving DecidableEq

namespace AVLtree

section Ordered

variable [LinearOrder T]

/-- The method `removeByPointer`. -/
def removeByPointer (t : AVLtree T F) (node : Ptr) : Except Failure (AVLtree T F) :=
  if node.isNone then .error .InvalidInput
  else do
    removeNode t (← getKey t.mem node)

/-- The method `removeByPointer` with the tree each `throw` leaves behind.  The `throw`
of the method itself is its first statement, so the tree there is `t`; what follows is
the call of `removeNode` with the key read from the node.  Without the tree the result
is that of `removeByPointer` (`removeByPointerOutcome_result`). -/
def removeByPointerOutcome (t : AVLtree T F) (node : Ptr) : Outcome T F :=
  if node.isNone then .threw .InvalidInput t
  else
    match getKey t.mem node with
    | .error e => .fault e
    | .ok k => removeNodeOutcome t k

end Ordered

/-- The loop of `checkBalance` with a record of the rotations it makes, first to last.
The record is not in the source: the loop is that of `checkBalanceLoop`, statement by
statement, and without the record it returns what `checkBalanceLoop` returns
(`checkBalanceLoopLog_fst`). -/
def checkBalanceLoopLog :
    Nat → AVLtree T F → Ptr → Except Failure (AVLtree T F × List RotEvent)
  | _, t, none => pure (t, [])
  | 0, _, some _ => .error .OutOfFuel
  | fuel + 1, t, some a => do
    let p : Ptr := some a
    if (← isBalanced t.mem p) then
      let m ← updateHeight t.mem p
      checkBalanceLoopLog fuel (t.withMem m) (← getParent m p)
    else
      let BF ← getBalanceFactor t.mem p
      let highTemp ← getHeight t.mem p
      let (t1, localRoot, kind) ←
        if BF = 2 then do
          let leftSon ← getSonLeft t.mem p
          if (← getBalanceFactor t.mem leftSon) ≥ 0 then do
            let (t1, localRoot) ← reBalanceLL t p
            pure (t1, localRoot, Rotation.LL)
          else do
            let (t1, localRoot) ← reBalanceLR t p
            pure (t1, localRoot, Rotation.LR)
        else do
          let rightSon ← getSonRight t.mem p
          if (← getBalanceFactor t.mem rightSon) = 1 then do
            let (t1, localRoot) ← reBalanceRL t p
            pure (t1, localRoot, Rotation.RL)
          else do
            let (t1, localRoot) ← reBalanceRR t p
            pure (t1, localRoot, Rotation.RR)
      let newHeight ← getHeight t1.mem localRoot
      let ev : RotEvent :=
        { kind := kind, node := p, BF := BF, highTemp := highTemp,
          localRoot := localRoot, newHeight := newHeight }
      if newHeight = highTemp then pure (t1, [ev])
      else do
        let (t2, log) ← checkBalanceLoopLog fuel t1 (← getParent t1.mem localRoot)
        pure (t2, ev :: log)

/-- The method `checkBalance` with the record of its rotations. -/
def checkBalanceLog (t : AVLtree T F) (p : Ptr) :
    Except Failure (AVLtree T F × List RotEvent) :=
  checkBalanceLoopLog (t.next + 1) t p

section Ordered

variable [LinearOrder T]

/-- The method `addNode` with the record of the rotations of its call of
`checkBalance`; without the record it returns what `addNode` returns
(`addNodeLog_fst`). -/
def addNodeLog (t : AVLtree T F) (key : T) (value : F) :
    Except Failure (AVLtree T F × Ptr × List RotEvent) :=
  match t.root with
  | none =>
    let (t1, newNode) := t.newNode key value
    pure ({ t1 with root := newNode, size := wrapInt (t1.size + 1) }, newNode, [])
  | some _ => do
    let lastNode ← findNode t key
    let (t1, newNode) ←
      if key = (← getKey t.mem lastNode) then do
        let m ← updateValue t.mem lastNode value
        pure (t.withMem m, lastNode)
      else pure (t, (none : Ptr))
    let (t2, newNode) ←
      if key > (← getKey t1.mem lastNode) then do
        let (t1a, fresh) := t1.newNode key value
        let m ← updateRightSon t1a.mem lastNode fresh
        pure ({ t1a with mem := m, size := wrapInt (t1a.size + 1) }, fresh)
      else pure (t1, newNode)
    let (t3, newNode) ←
      if key < (← getKey t2.mem lastNode) then do
        let (t2a, fresh) := t2.newNode key value
        let m ← updateLeftSon t2a.mem lastNode fresh
        pure ({ t2a with mem := m, size := wrapInt (t2a.size + 1) }, fresh)
      else pure (t2, newNode)
    let m ← updateHeight t3.mem lastNode
    let t4 := t3.withMem m
    let par ← getParent t4.mem lastNode
    if par.isSome then
      let (t5, log) ← checkBalanceLog t4 par
      pure (t5, newNode, log)
    else pure (t4, newNode, [])

/-- The method `removeNode` with the record of the rotations of its call of
`checkBalance`; without the record it returns what `removeNode` returns
(`removeNodeLog_fst`). -/
def removeNodeLog (t : AVLtree T F) (key : T) :
    Except Failure (AVLtree T F × List RotEvent) :=
  match t.root with
  | none => .error .KeyDoesNotExist
  | some _ => do
    let nodeToRemove ← findNode t key
    if (← getKey t.mem nodeToRemove) ≠ key then .error .KeyDoesNotExist
    else do
      let numOfSons ← getNumOfSons t.mem nodeToRemove
      let (t1, parentNodeToRemove) ←
        if numOfSons = 0 then removeLeaf t nodeToRemove else pure (t, (none : Ptr))
      let (t2, parentNodeToRemove) ←
        if numOfSons = 1 then removeOneSon t1 nodeToRemove
        else pure (t1, parentNodeToRemove)
      let (t3, parentNodeToRemove) ←
        if numOfSons > 1 then removeNodeInTheMiddle t2 nodeToRemove
        else pure (t2, parentNodeToRemove)
      if parentNodeToRemove.isSome then checkBalanceLog t3 parentNodeToRemove
      else pure (t3, [])

end Ordered

end AVLtree

open AVLtree

/-- The rotation `checkBalance` chooses at an unbalanced node. -/
def rotKind : Shape T F → Rotation
  | nil => Rotation.RR
  | node _ l _ _ _ r =>
    if l.hgt - r.hgt = 2 then
      match l.bf with
      | none => Rotation.LL
      | some f => if f ≥ 0 then Rotation.LL else Rotation.LR
    else
      match r.bf with
      | none => Rotation.RR
      | some f => if f = 1 then Rotation.RL else Rotation.RR

/-- The record of one round of the loop of `checkBalance` at the root of a subtree: the
rotation, when the node is out of balance. -/
def visitEv : Shape T F → Option RotEvent
  | nil => none
  | node a l k v h r =>
    if -1 ≤ l.hgt - r.hgt ∧ l.hgt - r.hgt ≤ 1 then none
    else
      match rebalance (node a l k v h r) with
      | none => none
      | some s' =>
        some { kind := rotKind (node a l k v h r), node := some a, BF := l.hgt - r.hgt,
               highTemp := h, localRoot := s'.ptr, newHeight := s'.hgt }

/-- The record of the rotations of `checkBalance` on the tree, started at the root of
the subtree `s` below the ancestors `path`. -/
def climbLog : List (Frame T F) → Shape T F → List RotEvent
  | [], s => (visitEv s).toList
  | f :: fs, s =>
    match visit s with
    | none => []
    | some (true, s') => (visitEv s).toList ++ climbLog fs (f.fill s')
    | some (false, _) => (visitEv s).toList

/-- The record of the rotations of the call of `checkBalance` at the end of `addNode`
and of `removeNode`. -/
def finishLog : List (Frame T F) × Shape T F → List RotEvent
  | ([], _) => []
  | (f :: fs, s) => climbLog fs (f.fill s)

section Ordered

variable [LinearOrder T]

/-- The record of the rotations of `addNode` on the tree. -/
def addNodeLogP (nx : Nat) (key : T) (value : F) (s : Shape T F) : List RotEvent :=
  match s with
  | nil => []
  | node a l k v h r =>
    match descend key (node a l k v h r) [] with
    | (path, s0) => finishLog (path, attach nx key value s0)

/-- The record of the rotations of `removeNode` on the tree. -/
def removeLogP (key : T) (s : Shape T F) : List RotEvent :=
  match descend key s [] with
  | (_, nil) => []
  | (path, node a l k v h r) =>
    match detach path (node a l k v h r) with
    | none => []
    | some z => finishLog z

end Ordered

/-- The two sons of the root have different heights. -/
def Tilted : Shape T F → Prop
  | nil => False
  | node _ l _ _ _ r => l.hgt ≠ r.hgt

/-- The subtree has the height `H0`, or it has grown by 1 and its root is tilted. -/
def Grown (s : Shape T F) (H0 : Int) : Prop :=
  s.hgt = H0 ∨ (s.hgt = H0 + 1 ∧ Tilted s)

/-- The state of the walk of `checkBalance` in `addNode` at the root of a subtree: the
two sons are valid, the node stores the height `1 + max hl0 hr0` it had before the
call, the ancestors fit that height, and one son is as high as before while the other
may have grown. -/
def WalkIns : List (Frame T F) → Shape T F → Prop
  | _, nil => False
  | path, node _ l _ _ h r =>
    l.Balanced ∧ r.Balanced ∧
    ∃ hl0 hr0 : Int, (-1 ≤ hl0 - hr0 ∧ hl0 - hr0 ≤ 1) ∧ h = 1 + max hl0 hr0 ∧
      PathOK path h ∧
      ((r.hgt = hr0 ∧ Grown l hl0) ∨ (l.hgt = hl0 ∧ Grown r hr0))

/-- The rotation of the given kind on the tree. -/
def rot : Rotation → Shape T F → Option (Shape T F)
  | Rotation.LL => rotLL
  | Rotation.LR => rotLR
  | Rotation.RL => rotRL
  | Rotation.RR => rotRR

/-- The rotation method of the given kind: `reBalanceLL`, `reBalanceLR`, `reBalanceRL`
or `reBalanceRR`. -/
def AVLtree.reBalance (k : Rotation) (t : AVLtree T F) (p : Ptr) :
    Except Failure (AVLtree T F × Ptr) :=
  match k with
  | Rotation.LL => reBalanceLL t p
  | Rotation.LR => reBalanceLR t p
  | Rotation.RL => reBalanceRL t p
  | Rotation.RR => reBalanceRR t p

/-- The left subtree. -/
def Shape.left : Shape T F → Shape T F
  | nil => nil
  | node _ l _ _ _ _ => l

/-- The right subtree. -/
def Shape.right : Shape T F → Shape T F
  | nil => nil
  | node _ _ _ _ _ r => r

/-- The root stores 1 + max of the heights of its sons. -/
def Shape.rootOK : Shape T F → Prop
  | nil => True
  | node _ l _ _ h r => h = 1 + max l.hgt r.hgt

/-- The nodes a rotation has given new sons store the right height: the new root and
the old root for the single rotations, the new root and both its sons for the double
rotations. -/
def RelinkedOK : Rotation → Shape T F → Prop
  | Rotation.LL, s => s.rootOK ∧ s.right.rootOK
  | Rotation.RR, s => s.rootOK ∧ s.left.rootOK
  | Rotation.LR, s => s.rootOK ∧ s.left.rootOK ∧ s.right.rootOK
  | Rotation.RL, s => s.rootOK ∧ s.left.rootOK ∧ s.right.rootOK

/-- The pointer `p` is at the place below the ancestors `path`: it is the root pointer
of the tree when there is no ancestor, and else the link of the nearest ancestor on
the side of the path. -/
def AtPlace (t : AVLtree T F) : List (Frame T F) → Ptr → Prop
  | [], p => t.root = p
  | Frame.L q _ _ _ _ :: _, p => getSonLeft t.mem (some q) = .ok p
  | Frame.R q _ _ _ _ :: _, p => getSonRight t.mem (some q) = .ok p

/-- The links of the nodes at the addresses `nodes` are consistent: the root is one of
them and has no parent; every son of a node is one of them, is not the root, and has
the node as its parent. -/
def Linked (t : AVLtree T F) (nodes : List Nat) : Prop :=
  (∀ r, t.root = some r → r ∈ nodes ∧ ∃ n, t.mem r = some n ∧ n.parent = none) ∧
  (∀ a ∈ nodes, ∃ n, t.mem a = some n ∧
    (∀ c, n.sonLeft = some c →
      c ∈ nodes ∧ some c ≠ t.root ∧ ∃ nc, t.mem c = some nc ∧ nc.parent = some a) ∧
    (∀ c, n.sonRight = some c →
      c ∈ nodes ∧ some c ≠ t.root ∧ ∃ nc, t.mem c = some nc ∧ nc.parent = some a))

/-- An example out of balance: the memory of the tree with the root 10, its left son 5,
and the sons 3 and 7 of that son. -/
def skewMem : Memory Nat Nat := fun a =>
  if a = 0 then
    some { key := 10, value := 0, height := 2, sonLeft := some 1, sonRight := none,
           parent := none }
  else if a = 1 then
    some { key := 5, value := 0, height := 1, sonLeft := some 2, sonRight := some 3,
           parent := some 0 }
  else if a = 2 then
    some { key := 3, value := 0, height := 0, sonLeft := none, sonRight := none,
           parent := some 1 }
  else if a = 3 then
    some { key := 7, value := 0, height := 0, sonLeft := none, sonRight := none,
           parent := some 1 }
  else none

/-- An example out of balance: the tree with the root 10, its left son 5, and the sons
3 and 7 of that son; every link is consistent and every stored height is right. -/
def skewTree : AVLtree Nat Nat := { mem := skewMem, next := 4, root := some 0, size := 4 }

/-- An example out of balance: the shape of `skewTree`. -/
def skewShape : Shape Nat Nat :=
  node 0 (node 1 (node 2 nil 3 0 0 nil) 5 0 1 (node 3 nil 7 0 0 nil)) 10 0 2 nil

/-- An example: the twelve calls of `addNode` that build a tree of height 4. -/
def cascadeKeys : List (Nat × Nat) :=
  [(5, 0), (3, 0), (8, 0), (2, 0), (4, 0), (6, 0), (10, 0), (1, 0), (7, 0), (9, 0),
    (11, 0), (12, 0)]

/-- An example: the tree that is left of the tree with the keys 1 to 7 when the root 4
is taken out; `v` gives the value of each key. -/
def sevenLessRoot (v : Nat → F) : Shape Nat F :=
  node 5 (node 1 (node 3 nil 1 (v 1) 0 nil) 2 (v 2) 1 (node 4 nil 3 (v 3) 0 nil))
    5 (v 5) 2 (node 2 nil 6 (v 6) 1 (node 6 nil 7 (v 7) 0 nil))

/-- An example: the ten calls of `addNode` that build `tenTree`, level by level. -/
def tenKeys : List (Nat × Nat) :=
  [(50, 0), (20, 0), (70, 0), (10, 0), (30, 0), (60, 0), (80, 0), (25, 0), (35, 0), (90, 0)]

/-- An example: the tree of the keys of `tenKeys`, of height 3: the root 50; on its left
20 with the sons 10 and 30, and 25 and 35 below 30; on its right 70 with the sons 60
and 80, and 90 below 80. -/
def tenTree : AVLtree Nat Nat := okOr (addAll AVLtree.empty tenKeys)

/-- An example: the shape of `tenTree`. -/
def tenShape : Shape Nat Nat :=
  node 0
    (node 1 (node 3 nil 10 0 0 nil) 20 0 2
      (node 4 (node 7 nil 25 0 0 nil) 30 0 1 (node 8 nil 35 0 0 nil)))
    50 0 3
    (node 2 (node 5 nil 60 0 0 nil) 70 0 2 (node 6 nil 80 0 1 (node 9 nil 90 0 0 nil)))

/-! # Theorems -/

/-! ## Equations -/

@[simp] theorem ptr_nil : (Shape.nil : Shape T F).ptr = none := rfl

@[simp] theorem ptr_node (a : Nat) (l r : Shape T F) (k : T) (v : F) (h : Int) :
    (Shape.node a l k v h r).ptr = some a := rfl

@[simp] theorem hgt_nil : (Shape.nil : Shape T F).hgt = -1 := rfl

@[simp] theorem hgt_node (a : Nat) (l r : Shape T F) (k : T) (v : F) (h : Int) :
    (Shape.node a l k v h r).hgt = h := rfl

@[simp] theorem addrs_nil : (Shape.nil : Shape T F).addrs = [] := rfl

@[simp] theorem addrs_node (a : Nat) (l r : Shape T F) (k : T) (v : F) (h : Int) :
    (Shape.node a l k v h r).addrs = a :: (l.addrs ++ r.addrs) := rfl

@[simp] theorem fill_L (a : Nat) (k : T) (v : F) (h : Int) (r s : Shape T F) :
    (Frame.L a k v h r).fill s = Shape.node a s k v h r := rfl

@[simp] theorem fill_R (a : Nat) (k : T) (v : F) (h : Int) (l s : Shape T F) :
    (Frame.R a l k v h).fill s = Shape.node a l k v h s := rfl

@[simp] theorem addr_L (a : Nat) (k : T) (v : F) (h : Int) (r : Shape T F) :
    (Frame.L a k v h r).addr = a := rfl

@[simp] theorem addr_R (a : Nat) (k : T) (v : F) (h : Int) (l : Shape T F) :
    (Frame.R a l k v h).addr = a := rfl

@[simp] theorem sib_L (a : Nat) (k : T) (v : F) (h : Int) (r : Shape T F) :
    (Frame.L a k v h r).sib = r := rfl

@[simp] theorem sib_R (a : Nat) (k : T) (v : F) (h : Int) (l : Shape T F) :
    (Frame.R a l k v h).sib = l := rfl

@[simp] theorem plug_nil (s : Shape T F) : plug [] s = s := rfl

@[simp] theorem plug_cons (f : Frame T F) (fs : List (Frame T F)) (s : Shape T F) :
    plug (f :: fs) s = plug fs (f.fill s) := rfl

@[simp] theorem ctxPtr_nil (top : Ptr) : ctxPtr ([] : List (Frame T F)) top = top := rfl

@[simp] theorem ctxPtr_cons (f : Frame T F) (fs : List (Frame T F)) (top : Ptr) :
    ctxPtr (f :: fs) top = some f.addr := rfl

@[simp] theorem ctxRoot_nil (c : Ptr) : ctxRoot ([] : List (Frame T F)) c = c := rfl

@[simp] theorem ctxRoot_cons (f : Frame T F) (fs : List (Frame T F)) (c : Ptr) :
    ctxRoot (f :: fs) c = ctxRoot fs (some f.addr) := rfl

@[simp] theorem ctxAddrs_nil : ctxAddrs ([] : List (Frame T F)) = [] := rfl

@[simp] theorem ctxAddrs_cons (f : Frame T F) (fs : List (Frame T F)) :
    ctxAddrs (f :: fs) = f.addr :: (f.sib.addrs ++ ctxAddrs fs) := rfl

@[simp] theorem holds_nil (m : Memory T F) (par : Ptr) : Holds m par Shape.nil ↔ True :=
  Iff.rfl

@[simp] theorem holds_node (m : Memory T F) (par : Ptr) (a : Nat) (l r : Shape T F) (k : T)
    (v : F) (h : Int) :
    Holds m par (Shape.node a l k v h r) ↔
      (m a = some { key := k, value := v, height := h,
                    sonLeft := l.ptr, sonRight := r.ptr, parent := par }
       ∧ Holds m (some a) l ∧ Holds m (some a) r) := Iff.rfl

@[simp] theorem holdsCtx_nil (m : Memory T F) (c top : Ptr) :
    HoldsCtx m [] c top ↔ True := Iff.rfl

@[simp] theorem holdsCtx_L (m : Memory T F) (c top : Ptr) (a : Nat) (r : Shape T F) (k : T)
    (v : F) (h : Int) (fs : List (Frame T F)) :
    HoldsCtx m (Frame.L a k v h r :: fs) c top ↔
      (m a = some { key := k, value := v, height := h,
                    sonLeft := c, sonRight := r.ptr, parent := ctxPtr fs top }
       ∧ Holds m (some a) r ∧ HoldsCtx m fs (some a) top) := Iff.rfl

@[simp] theorem holdsCtx_R (m : Memory T F) (c top : Ptr) (a : Nat) (l : Shape T F) (k : T)
    (v : F) (h : Int) (fs : List (Frame T F)) :
    HoldsCtx m (Frame.R a l k v h :: fs) c top ↔
      (m a = some { key := k, value := v, height := h,
                    sonLeft := l.ptr, sonRight := c, parent := ctxPtr fs top }
       ∧ Holds m (some a) l ∧ HoldsCtx m fs (some a) top) := Iff.rfl

@[simp] theorem setParent_none (m : Memory T F) (p : Ptr) : setParent m none p = m := rfl

@[simp] theorem setHole_nil (m : Memory T F) (c : Ptr) : setHole m [] c = m := rfl

/-! ## Reading the memory -/

@[simp] theorem store_same (m : Memory T F) (a : Nat) (n : NodeMapTree T F) :
    store m a n a = some n := by simp [store]

@[simp] theorem store_other (m : Memory T F) (a x : Nat) (n : NodeMapTree T F) (h : x ≠ a) :
    store m a n x = m x := by simp [store, h]

@[simp] theorem store_other' (m : Memory T F) (a x : Nat) (n : NodeMapTree T F) (h : a ≠ x) :
    store m a n x = m x := by simp [store, h.symm]

theorem ptr_mem (s : Shape T F) (x : Nat) (h : s.ptr = some x) : x ∈ s.addrs := by
  cases s with
  | nil => simp at h
  | node a l k v hh r =>
    simp only [ptr_node, Option.some.injEq] at h
    simp [h]

@[simp] theorem ptr_eq_some_iff (s : Shape T F) (x : Nat) (h : x ∉ s.addrs) :
    s.ptr = some x ↔ False :=
  ⟨fun e => h (ptr_mem s x e), False.elim⟩

@[simp] theorem setParent_other (m : Memory T F) (c p : Ptr) (x : Nat) (h : ¬ c = some x) :
    setParent m c p x = m x := by
  cases c with
  | none => rfl
  | some a =>
    have hxa : x ≠ a := fun e => h (by rw [e])
    unfold setParent
    cases hma : m a <;> simp [hma, hxa]

@[simp] theorem setHole_other (m : Memory T F) (path : List (Frame T F)) (c : Ptr) (x : Nat)
    (h : x ∉ ctxAddrs path) : setHole m path c x = m x := by
  rcases path with _ | ⟨(⟨p, pk, pv, ph, pr⟩ | ⟨p, pl, pk, pv, ph⟩), fs⟩
  · rfl
  · have hx : x ≠ p := fun e => h (by simp [e])
    unfold setHole
    cases hmp : m p <;> simp [hmp, hx]
  · have hx : x ≠ p := fun e => h (by simp [e])
    unfold setHole
    cases hmp : m p <;> simp [hmp, hx]

/-! ## Frame lemmas -/

theorem holds_congr (m m' : Memory T F) :
    ∀ (s : Shape T F) (par : Ptr), (∀ x ∈ s.addrs, m' x = m x) → (Holds m' par s ↔ Holds m par s)
  | nil, _, _ => by simp
  | node a l k v h r, par, hx => by
    have ha : m' a = m a := hx a (by simp)
    have hl := holds_congr m m' l (some a) (fun x hxl => hx x (by simp [hxl]))
    have hr := holds_congr m m' r (some a) (fun x hxr => hx x (by simp [hxr]))
    simp only [holds_node, ha, hl, hr]

theorem holdsCtx_congr (m m' : Memory T F) (top : Ptr) :
    ∀ (path : List (Frame T F)) (c : Ptr), (∀ x ∈ ctxAddrs path, m' x = m x) →
      (HoldsCtx m' path c top ↔ HoldsCtx m path c top)
  | [], _, _ => by simp
  | Frame.L a k v h r :: fs, c, hx => by
    have ha : m' a = m a := hx a (by simp)
    have hr := holds_congr m m' r (some a) (fun x hxr => hx x (by simp [hxr]))
    have hfs := holdsCtx_congr m m' top fs (some a) (fun x hxr => hx x (by simp [hxr]))
    simp only [holdsCtx_L, ha, hr, hfs]
  | Frame.R a l k v h :: fs, c, hx => by
    have ha : m' a = m a := hx a (by simp)
    have hl := holds_congr m m' l (some a) (fun x hxl => hx x (by simp [hxl]))
    have hfs := holdsCtx_congr m m' top fs (some a) (fun x hxr => hx x (by simp [hxr]))
    simp only [holdsCtx_R, ha, hl, hfs]

@[simp] theorem holds_store (m : Memory T F) (x : Nat) (n : NodeMapTree T F) (s : Shape T F)
    (par : Ptr) (hx : x ∉ s.addrs) : Holds (store m x n) par s ↔ Holds m par s :=
  holds_congr _ _ s par (fun y hy => store_other m x y n (fun e => hx (e ▸ hy)))

@[simp] theorem holdsCtx_store (m : Memory T F) (x : Nat) (n : NodeMapTree T F)
    (path : List (Frame T F)) (c top : Ptr) (hx : x ∉ ctxAddrs path) :
    HoldsCtx (store m x n) path c top ↔ HoldsCtx m path c top :=
  holdsCtx_congr _ _ top path c (fun y hy => store_other m x y n (fun e => hx (e ▸ hy)))

@[simp] theorem down_store (m : Memory T F) (x : Nat) (n : NodeMapTree T F) (s : Shape T F)
    (hx : x ∉ s.addrs) : Down (store m x n) s ↔ Down m s := by
  simp only [Down, holds_store m x n s _ hx]

@[simp] theorem skel_store (m : Memory T F) (x : Nat) (n : NodeMapTree T F)
    (path : List (Frame T F)) (top : Ptr) (hx : x ∉ ctxAddrs path) :
    Skel (store m x n) path top ↔ Skel m path top := by
  simp only [Skel, holdsCtx_store m x n path _ top hx]

theorem setParent_ptr_other (m : Memory T F) (s' : Shape T F) (p : Ptr) (x : Nat)
    (h : x ∉ s'.addrs) : setParent m s'.ptr p x = m x :=
  setParent_other m _ p x (fun e => h (ptr_mem s' x e))

@[simp] theorem holds_setParent (m : Memory T F) (s s' : Shape T F) (p par : Ptr)
    (h : s'.addrs.Disjoint s.addrs) :
    Holds (setParent m s'.ptr p) par s ↔ Holds m par s :=
  holds_congr _ _ s par (fun y hy => setParent_ptr_other m s' p y (fun hy' => h hy' hy))

@[simp] theorem holds_setParent' (m : Memory T F) (s s' : Shape T F) (p par : Ptr)
    (h : s.addrs.Disjoint s'.addrs) :
    Holds (setParent m s'.ptr p) par s ↔ Holds m par s :=
  holds_setParent m s s' p par h.symm

@[simp] theorem down_setParent (m : Memory T F) (s s' : Shape T F) (p : Ptr)
    (h : s'.addrs.Disjoint s.addrs) : Down (setParent m s'.ptr p) s ↔ Down m s := by
  simp only [Down, holds_setParent m s s' p _ h]

@[simp] theorem down_setParent' (m : Memory T F) (s s' : Shape T F) (p : Ptr)
    (h : s.addrs.Disjoint s'.addrs) : Down (setParent m s'.ptr p) s ↔ Down m s :=
  down_setParent m s s' p h.symm

@[simp] theorem holdsCtx_setParent (m : Memory T F) (path : List (Frame T F)) (s' : Shape T F)
    (p c top : Ptr) (h : s'.addrs.Disjoint (ctxAddrs path)) :
    HoldsCtx (setParent m s'.ptr p) path c top ↔ HoldsCtx m path c top :=
  holdsCtx_congr _ _ top path c
    (fun y hy => setParent_ptr_other m s' p y (fun hy' => h hy' hy))

@[simp] theorem skel_setParent (m : Memory T F) (path : List (Frame T F)) (s' : Shape T F)
    (p top : Ptr) (h : s'.addrs.Disjoint (ctxAddrs path)) :
    Skel (setParent m s'.ptr p) path top ↔ Skel m path top := by
  simp only [Skel, holdsCtx_setParent m path s' p _ top h]

@[simp] theorem holds_setHole (m : Memory T F) (path : List (Frame T F)) (s : Shape T F)
    (c par : Ptr) (h : s.addrs.Disjoint (ctxAddrs path)) :
    Holds (setHole m path c) par s ↔ Holds m par s :=
  holds_congr _ _ s par (fun y hy => setHole_other m path c y (fun hy' => h hy hy'))

@[simp] theorem down_setHole (m : Memory T F) (path : List (Frame T F)) (s : Shape T F)
    (c : Ptr) (h : s.addrs.Disjoint (ctxAddrs path)) :
    Down (setHole m path c) s ↔ Down m s := by
  simp only [Down, holds_setHole m path s c _ h]

@[simp] theorem down_nil (m : Memory T F) : Down m (Shape.nil : Shape T F) ↔ True := by
  simp [Down]

@[simp] theorem skel_nil (m : Memory T F) (top : Ptr) :
    Skel m ([] : List (Frame T F)) top ↔ True := by
  simp [Skel]

theorem Shape.Holds.down {m : Memory T F} {par : Ptr} {s : Shape T F} (h : Holds m par s) :
    Down m s := ⟨par, h⟩

theorem HoldsCtx.skel {m : Memory T F} {path : List (Frame T F)} {c top : Ptr}
    (h : HoldsCtx m path c top) : Skel m path top := ⟨c, h⟩

/-- After the parent link of the root of `s` is set to `p`, the memory holds `s` below
`p`. -/
@[simp] theorem holds_setParent_self (m : Memory T F) (s : Shape T F) (p : Ptr)
    (hnd : s.addrs.Nodup) : Holds (setParent m s.ptr p) p s ↔ Down m s := by
  cases s with
  | nil => simp
  | node a l k v h r =>
    simp only [addrs_node, List.nodup_cons, List.mem_append, not_or] at hnd
    simp only [ptr_node, Down, holds_node]
    constructor
    · intro hh
      unfold setParent at hh
      cases hma : m a with
      | none => simp [hma] at hh
      | some n =>
        simp only [hma, store_same, Option.some.injEq, holds_store _ _ _ _ _ hnd.1.1,
          holds_store _ _ _ _ _ hnd.1.2] at hh
        refine ⟨n.parent, ?_, hh.2.1, hh.2.2⟩
        have h1 := hh.1
        cases n
        simp only [NodeMapTree.mk.injEq] at h1 ⊢
        simp [h1]
    · rintro ⟨par, hma, hl, hr⟩
      unfold setParent
      simp [hma, hnd.1.1, hnd.1.2, hl, hr]

@[simp] theorem down_setParent_self (m : Memory T F) (s : Shape T F) (p : Ptr)
    (hnd : s.addrs.Nodup) : Down (setParent m s.ptr p) s ↔ Down m s :=
  ⟨fun ⟨par, h⟩ => by
      cases s with
      | nil => simp
      | node a l k v hh r =>
        simp only [addrs_node, List.nodup_cons, List.mem_append, not_or] at hnd
        simp only [ptr_node, holds_node] at h
        unfold setParent at h
        cases hma : m a with
        | none => simp [hma] at h
        | some n =>
          simp only [hma, store_same, Option.some.injEq, holds_store _ _ _ _ _ hnd.1.1,
            holds_store _ _ _ _ _ hnd.1.2] at h
          refine ⟨n.parent, ?_⟩
          simp only [holds_node]
          refine ⟨?_, h.2.1, h.2.2⟩
          have h1 := h.1
          rw [hma]
          cases n
          simp only [NodeMapTree.mk.injEq] at h1
          simp [h1],
   fun h => ⟨p, (holds_setParent_self m s p hnd).mpr h⟩⟩

/-- After the link of the nearest ancestor is set to `c`, the memory holds the path
above a node at `c`. -/
@[simp] theorem holdsCtx_setHole_self (m : Memory T F) (path : List (Frame T F))
    (c top : Ptr) (hnd : (ctxAddrs path).Nodup) :
    HoldsCtx (setHole m path c) path c top ↔ Skel m path top := by
  rcases path with _ | ⟨(⟨p, pk, pv, ph, pr⟩ | ⟨p, pl, pk, pv, ph⟩), fs⟩
  · simp
  · simp only [ctxAddrs_cons, addr_L, sib_L, List.nodup_cons, List.mem_append, not_or] at hnd
    simp only [Skel, holdsCtx_L]
    constructor
    · intro hh
      unfold setHole at hh
      cases hma : m p with
      | none => simp [hma] at hh
      | some n =>
        simp only [hma, store_same, Option.some.injEq, holds_store _ _ _ _ _ hnd.1.1,
          holdsCtx_store _ _ _ _ _ _ hnd.1.2] at hh
        refine ⟨n.sonLeft, ?_, hh.2.1, hh.2.2⟩
        have h1 := hh.1
        cases n
        simp only [NodeMapTree.mk.injEq] at h1 ⊢
        simp [h1]
    · rintro ⟨c0, hma, hr, hfs⟩
      unfold setHole
      simp [hma, hnd.1.1, hnd.1.2, hr, hfs]
  · simp only [ctxAddrs_cons, addr_R, sib_R, List.nodup_cons, List.mem_append, not_or] at hnd
    simp only [Skel, holdsCtx_R]
    constructor
    · intro hh
      unfold setHole at hh
      cases hma : m p with
      | none => simp [hma] at hh
      | some n =>
        simp only [hma, store_same, Option.some.injEq, holds_store _ _ _ _ _ hnd.1.1,
          holdsCtx_store _ _ _ _ _ _ hnd.1.2] at hh
        refine ⟨n.sonRight, ?_, hh.2.1, hh.2.2⟩
        have h1 := hh.1
        cases n
        simp only [NodeMapTree.mk.injEq] at h1 ⊢
        simp [h1]
    · rintro ⟨c0, hma, hr, hfs⟩
      unfold setHole
      simp [hma, hnd.1.1, hnd.1.2, hr, hfs]

/-! ## Running the node methods -/

@[simp] theorem sonHeight_none (m : Memory T F) : sonHeight m none = .ok (-1) := rfl

@[simp] theorem sonHeight_some (m : Memory T F) (a : Nat) :
    sonHeight m (some a) = getHeight m (some a) := rfl

@[simp] theorem sonHeight_down (m : Memory T F) (s : Shape T F) (h : Down m s) :
    sonHeight m s.ptr = .ok s.hgt := by
  obtain ⟨par, h⟩ := h
  cases s with
  | nil => rfl
  | node a l k v hh r =>
    simp only [holds_node] at h
    simp [getHeight, deref, h.1, Except.map]

theorem down_alloc (m : Memory T F) (s : Shape T F) (h : Down m s) (a : Nat)
    (ha : s.ptr = some a) : ∃ n, m a = some n := by
  obtain ⟨par, h⟩ := h
  cases s with
  | nil => simp at ha
  | node b l k v hh r =>
    simp only [ptr_node, Option.some.injEq] at ha
    subst ha
    exact ⟨_, h.1⟩

theorem modify_setParent (m : Memory T F) (s : Shape T F) (p : Ptr) (h : Down m s) :
    (match s.ptr with
      | none => (pure m : Except Failure (Memory T F))
      | some _ => NodeMapTree.modify m s.ptr (fun n => { n with parent := p }))
    = .ok (setParent m s.ptr p) := by
  cases hs : s.ptr with
  | none => rfl
  | some a =>
    obtain ⟨n, hn⟩ := down_alloc m s h a hs
    simp [NodeMapTree.modify, setParent, hn]

@[simp] theorem updateLeftSon_ptr (m : Memory T F) (a : Nat) (s : Shape T F)
    (ha : a ∉ s.addrs) (h : Down m s) :
    updateLeftSon m (some a) s.ptr =
      match m a with
      | none => .error .NullDereference
      | some n => .ok (setParent (store m a { n with sonLeft := s.ptr }) s.ptr (some a)) := by
  unfold updateLeftSon
  cases hma : m a with
  | none => simp [NodeMapTree.modify, hma, bind, Except.bind]
  | some n =>
    simp only [NodeMapTree.modify, hma, bind, Except.bind]
    exact modify_setParent _ s (some a) ((down_store m a _ s ha).mpr h)

@[simp] theorem updateRightSon_ptr (m : Memory T F) (a : Nat) (s : Shape T F)
    (ha : a ∉ s.addrs) (h : Down m s) :
    updateRightSon m (some a) s.ptr =
      match m a with
      | none => .error .NullDereference
      | some n => .ok (setParent (store m a { n with sonRight := s.ptr }) s.ptr (some a)) := by
  unfold updateRightSon
  cases hma : m a with
  | none => simp [NodeMapTree.modify, hma, bind, Except.bind]
  | some n =>
    simp only [NodeMapTree.modify, hma, bind, Except.bind]
    exact modify_setParent _ s (some a) ((down_store m a _ s ha).mpr h)

theorem nodup_of_count_le {l l' : List Nat} (h : ∀ x, l'.count x ≤ l.count x)
    (hnd : l.Nodup) : l'.Nodup :=
  List.nodup_iff_count_le_one.mpr
    (fun x => Nat.le_trans (h x) (List.nodup_iff_count_le_one.mp hnd x))

theorem mem_of_count_le {l l' : List Nat} (h : ∀ x, l'.count x ≤ l.count x) (x : Nat)
    (hx : x ∈ l') : x ∈ l :=
  List.count_pos_iff.mp (Nat.lt_of_lt_of_le (List.count_pos_iff.mpr hx) (h x))

/-- A state that holds a tree still holds a tree after a change of the memory that uses
no new address. -/
theorem ModelsAt.transfer {t t' : AVLtree T F} {path path' : List (Frame T F)}
    {s s' : Shape T F} (h : ModelsAt t path s)
    (hcount : ∀ x, (s'.addrs ++ ctxAddrs path').count x ≤ (s.addrs ++ ctxAddrs path).count x)
    (hnext : t.next ≤ t'.next)
    (hrest : t'.root = ctxRoot path' s'.ptr ∧ HoldsCtx t'.mem path' s'.ptr none ∧
      Holds t'.mem (ctxPtr path' none) s') : ModelsAt t' path' s' :=
  { root := hrest.1
    ctx := hrest.2.1
    sub := hrest.2.2
    nodup := nodup_of_count_le hcount h.nodup
    fresh := fun x hx =>
      Nat.lt_of_lt_of_le (h.fresh x (mem_of_count_le hcount x hx)) hnext }

theorem ctxRoot_congr : ∀ (path : List (Frame T F)) (c c' : Ptr),
    path ≠ [] → ctxRoot path c = ctxRoot path c'
  | [], _, _, h => absurd rfl h
  | _ :: _, _, _, _ => rfl

/-- The method `changeParentByNode` on a node at `b` below the ancestors `path`: the
nearest ancestor now points to `d`, and `d` points back to it. -/
theorem changeParentByNode_eval (t : AVLtree T F) (path : List (Frame T F)) (b d : Nat)
    (nb nd : NodeMapTree T F)
    (hb : t.mem b = some nb) (hpar : nb.parent = ctxPtr path none)
    (hd : t.mem d = some nd)
    (hctx : HoldsCtx t.mem path (some b) none)
    (hroot : t.root = ctxRoot path (some b))
    (hbp : b ∉ ctxAddrs path) (hdp : d ∉ ctxAddrs path) :
    changeParentByNode t (some b) (some d) =
      .ok { t with
            mem := store (setHole t.mem path (some d)) d { nd with parent := ctxPtr path none }
            root := ctxRoot path (some d) } := by
  rcases path with _ | ⟨(⟨p, pk, pv, ph, pr⟩ | ⟨p, pl, pk, pv, ph⟩), fs⟩
  · simp only [ctxPtr_nil] at hpar
    simp [changeParentByNode, getParent, deref, hb, hpar, Except.map, bind, Except.bind,
      updateParent, NodeMapTree.modify, hd, pure, Except.pure]
  · simp only [ctxPtr_cons, addr_L] at hpar
    simp only [holdsCtx_L] at hctx
    simp only [ctxAddrs_cons, addr_L, sib_L, List.mem_cons, List.mem_append, not_or] at hbp hdp
    have hdp' : p ≠ d := fun e => hdp.1 e.symm
    simp [changeParentByNode, getParent, deref, hb, hpar, Except.map, bind, Except.bind,
      isRightSon, hctx.1, hbp.2.1, updateLeftSon, NodeMapTree.modify, hd, hdp.1, hdp', setHole,
      pure, Except.pure, withMem, hroot]
  · simp only [ctxPtr_cons, addr_R] at hpar
    simp only [holdsCtx_R] at hctx
    simp only [ctxAddrs_cons, addr_R, sib_R, List.mem_cons, List.mem_append, not_or] at hbp hdp
    have hdp' : p ≠ d := fun e => hdp.1 e.symm
    simp [changeParentByNode, getParent, deref, hb, hpar, Except.map, bind, Except.bind,
      isRightSon, hctx.1, updateRightSon, NodeMapTree.modify, hd, hdp.1, hdp', setHole,
      pure, Except.pure, withMem, hroot]

theorem changeParentByNode_run (m : Memory T F) (nx : Nat) (rt : Ptr) (sz : Int)
    (path : List (Frame T F)) (b d : Nat)
    (hpar : getParent m (some b) = .ok (ctxPtr path none))
    (hctx : HoldsCtx m path (some b) none)
    (hroot : rt = ctxRoot path (some b))
    (hbp : b ∉ ctxAddrs path) (hdp : d ∉ ctxAddrs path) :
    changeParentByNode { mem := m, next := nx, root := rt, size := sz } (some b) (some d) =
      match m d with
      | none => .error .NullDereference
      | some nd =>
        .ok { mem := store (setHole m path (some d)) d { nd with parent := ctxPtr path none }
              next := nx
              root := ctxRoot path (some d)
              size := sz } := by
  cases hmb : m b with
  | none => simp [getParent, deref, hmb, Except.map] at hpar
  | some nb =>
    have hp : nb.parent = ctxPtr path none := by
      simpa [getParent, deref, hmb, Except.map] using hpar
    cases hmd : m d with
    | none =>
      rcases path with _ | ⟨(⟨p, pk, pv, ph, pr⟩ | ⟨p, pl, pk, pv, ph⟩), fs⟩
      · simp only [ctxPtr_nil] at hp
        simp [changeParentByNode, getParent, deref, hmb, hp, Except.map, bind, Except.bind,
          updateParent, NodeMapTree.modify, hmd]
      · simp only [ctxPtr_cons, addr_L] at hp
        simp only [holdsCtx_L] at hctx
        simp only [ctxAddrs_cons, addr_L, sib_L, List.mem_cons, List.mem_append, not_or]
          at hbp hdp
        have hdp' : p ≠ d := fun e => hdp.1 e.symm
        simp [changeParentByNode, getParent, deref, hmb, hp, Except.map, bind, Except.bind,
          isRightSon, hctx.1, hbp.2.1, updateLeftSon, NodeMapTree.modify, hmd, hdp.1, hdp',
          pure, Except.pure]
      · simp only [ctxPtr_cons, addr_R] at hp
        simp only [holdsCtx_R] at hctx
        simp only [ctxAddrs_cons, addr_R, sib_R, List.mem_cons, List.mem_append, not_or]
          at hbp hdp
        have hdp' : p ≠ d := fun e => hdp.1 e.symm
        simp [changeParentByNode, getParent, deref, hmb, hp, Except.map, bind, Except.bind,
          isRightSon, hctx.1, updateRightSon, NodeMapTree.modify, hmd, hdp.1, hdp', pure,
          Except.pure]
    | some nd =>
      exact changeParentByNode_eval { mem := m, next := nx, root := rt, size := sz } path b d
        nb nd hmb hp hmd hctx hroot hbp hdp

@[simp] theorem store_store (m : Memory T F) (a : Nat) (n n' : NodeMapTree T F) :
    store (store m a n) a n' = store m a n' := by
  funext x
  by_cases h : x = a <;> simp [store, h]

@[simp] theorem free_same (m : Memory T F) (a : Nat) : free m a a = none := by simp [free]

@[simp] theorem free_other (m : Memory T F) (a x : Nat) (h : x ≠ a) : free m a x = m x := by
  simp [free, h]

@[simp] theorem free_other' (m : Memory T F) (a x : Nat) (h : a ≠ x) : free m a x = m x := by
  simp [free, h.symm]

@[simp] theorem holds_free (m : Memory T F) (x : Nat) (s : Shape T F)
    (par : Ptr) (hx : x ∉ s.addrs) : Holds (free m x) par s ↔ Holds m par s :=
  holds_congr _ _ s par (fun y hy => free_other m x y (fun e => hx (e ▸ hy)))

@[simp] theorem holdsCtx_free (m : Memory T F) (x : Nat)
    (path : List (Frame T F)) (c top : Ptr) (hx : x ∉ ctxAddrs path) :
    HoldsCtx (free m x) path c top ↔ HoldsCtx m path c top :=
  holdsCtx_congr _ _ top path c (fun y hy => free_other m x y (fun e => hx (e ▸ hy)))

@[simp] theorem down_free (m : Memory T F) (x : Nat) (s : Shape T F)
    (hx : x ∉ s.addrs) : Down (free m x) s ↔ Down m s := by
  simp only [Down, holds_free m x s _ hx]

theorem updateLeftSon_none (m : Memory T F) (a : Nat) :
    updateLeftSon m (some a) none =
      NodeMapTree.modify m (some a) (fun n => { n with sonLeft := none }) := by
  unfold updateLeftSon
  cases NodeMapTree.modify m (some a) (fun n => { n with sonLeft := none }) <;> rfl

theorem updateRightSon_none (m : Memory T F) (a : Nat) :
    updateRightSon m (some a) none =
      NodeMapTree.modify m (some a) (fun n => { n with sonRight := none }) := by
  unfold updateRightSon
  cases NodeMapTree.modify m (some a) (fun n => { n with sonRight := none }) <;> rfl

theorem updateLeftSon_some (m : Memory T F) (a c : Nat) :
    updateLeftSon m (some a) (some c) =
      (NodeMapTree.modify m (some a) (fun n => { n with sonLeft := some c })).bind
        (fun m1 => NodeMapTree.modify m1 (some c) (fun n => { n with parent := some a })) :=
  rfl

theorem updateRightSon_some (m : Memory T F) (a c : Nat) :
    updateRightSon m (some a) (some c) =
      (NodeMapTree.modify m (some a) (fun n => { n with sonRight := some c })).bind
        (fun m1 => NodeMapTree.modify m1 (some c) (fun n => { n with parent := some a })) :=
  rfl

/-! ## Paths in two parts -/

@[simp] theorem ctxAddrs_append (p q : List (Frame T F)) :
    ctxAddrs (p ++ q) = ctxAddrs p ++ ctxAddrs q := by
  induction p with
  | nil => rfl
  | cons f fs ih => simp [ih]

@[simp] theorem ctxPtr_append (p q : List (Frame T F)) (top : Ptr) :
    ctxPtr (p ++ q) top = ctxPtr p (ctxPtr q top) := by
  cases p <;> rfl

@[simp] theorem ctxRoot_append (p q : List (Frame T F)) (c : Ptr) :
    ctxRoot (p ++ q) c = ctxRoot q (ctxRoot p c) := by
  induction p generalizing c with
  | nil => rfl
  | cons f fs ih => simp [ih]

@[simp] theorem holdsCtx_append (m : Memory T F) (p q : List (Frame T F)) (c top : Ptr) :
    HoldsCtx m (p ++ q) c top ↔
      (HoldsCtx m p c (ctxPtr q top) ∧ HoldsCtx m q (ctxRoot p c) top) := by
  induction p generalizing c with
  | nil => simp
  | cons f fs ih =>
    cases f <;> simp [ih, and_assoc]

theorem ctxRoot_mem (ps : List (Frame T F)) (c : Ptr) (hne : ps ≠ []) :
    ∃ x, ctxRoot ps c = some x ∧ x ∈ ctxAddrs ps := by
  induction ps generalizing c with
  | nil => exact absurd rfl hne
  | cons f fs ih =>
    cases fs with
    | nil => exact ⟨f.addr, rfl, by simp⟩
    | cons g gs =>
      obtain ⟨x, h1, h2⟩ := ih (some f.addr) (by simp)
      exact ⟨x, h1, by simp only [ctxAddrs_cons] at h2 ⊢; simp [h2]⟩

@[simp] theorem setParent_top_other (m : Memory T F) (ps : List (Frame T F)) (c q : Ptr)
    (x : Nat) (hne : ps ≠ []) (hx : x ∉ ctxAddrs ps) :
    setParent m (ctxRoot ps c) q x = m x := by
  obtain ⟨y, h1, h2⟩ := ctxRoot_mem ps c hne
  rw [h1]
  exact setParent_other m _ q x (fun e => hx (by simp only [Option.some.injEq] at e; rw [← e]; exact h2))

@[simp] theorem holds_setParent_top (m : Memory T F) (ps : List (Frame T F)) (c q par : Ptr)
    (s : Shape T F) (hne : ps ≠ []) (h : s.addrs.Disjoint (ctxAddrs ps)) :
    Holds (setParent m (ctxRoot ps c) q) par s ↔ Holds m par s :=
  holds_congr _ _ s par (fun y hy => setParent_top_other m ps c q y hne (fun hy' => h hy hy'))

@[simp] theorem down_setParent_top (m : Memory T F) (ps : List (Frame T F)) (c q : Ptr)
    (s : Shape T F) (hne : ps ≠ []) (h : s.addrs.Disjoint (ctxAddrs ps)) :
    Down (setParent m (ctxRoot ps c) q) s ↔ Down m s := by
  simp only [Down, holds_setParent_top m ps c q _ s hne h]

@[simp] theorem holdsCtx_setParent_top (m : Memory T F) (ps path : List (Frame T F))
    (c q c' top : Ptr) (hne : ps ≠ []) (h : (ctxAddrs ps).Disjoint (ctxAddrs path)) :
    HoldsCtx (setParent m (ctxRoot ps c) q) path c' top ↔ HoldsCtx m path c' top :=
  holdsCtx_congr _ _ top path c'
    (fun y hy => setParent_top_other m ps c q y hne (fun hy' => h hy' hy))

theorem HoldsCtx.hang {m : Memory T F} {ps : List (Frame T F)} {c top : Ptr}
    (h : HoldsCtx m ps c top) : Hang m ps c := ⟨top, h⟩

@[simp] theorem hang_store (m : Memory T F) (x : Nat) (n : NodeMapTree T F)
    (ps : List (Frame T F)) (c : Ptr) (hx : x ∉ ctxAddrs ps) :
    Hang (store m x n) ps c ↔ Hang m ps c := by
  simp only [Hang, holdsCtx_store m x n ps c _ hx]

@[simp] theorem hang_setParent (m : Memory T F) (ps : List (Frame T F)) (s' : Shape T F)
    (p c : Ptr) (h : s'.addrs.Disjoint (ctxAddrs ps)) :
    Hang (setParent m s'.ptr p) ps c ↔ Hang m ps c := by
  simp only [Hang, holdsCtx_setParent m ps s' p c _ h]

@[simp] theorem hang_setParent' (m : Memory T F) (ps : List (Frame T F)) (s' : Shape T F)
    (p c : Ptr) (h : (ctxAddrs ps).Disjoint s'.addrs) :
    Hang (setParent m s'.ptr p) ps c ↔ Hang m ps c :=
  hang_setParent m ps s' p c h.symm

@[simp] theorem holdsCtx_setParent' (m : Memory T F) (path : List (Frame T F)) (s' : Shape T F)
    (p c top : Ptr) (h : (ctxAddrs path).Disjoint s'.addrs) :
    HoldsCtx (setParent m s'.ptr p) path c top ↔ HoldsCtx m path c top :=
  holdsCtx_setParent m path s' p c top h.symm

theorem setParent_cell_iff (m : Memory T F) (p : Nat) (q : Ptr) (k : T) (v : F) (h : Int)
    (lp rp : Ptr) :
    setParent m (some p) q p =
        some { key := k, value := v, height := h, sonLeft := lp, sonRight := rp, parent := q } ↔
      ∃ top, m p =
        some { key := k, value := v, height := h, sonLeft := lp, sonRight := rp,
               parent := top } := by
  unfold setParent
  cases hmp : m p with
  | none => simp [hmp]
  | some n =>
    cases n with
    | mk nk nv nh nl nr np =>
      simp only [hmp, store_same, Option.some.injEq, NodeMapTree.mk.injEq]
      constructor
      · rintro ⟨rfl, rfl, rfl, rfl, rfl, -⟩
        exact ⟨np, rfl, rfl, rfl, rfl, rfl, rfl⟩
      · rintro ⟨top, rfl, rfl, rfl, rfl, rfl, -⟩
        simp

theorem holds_setParent_some (m : Memory T F) (p : Nat) (q par : Ptr) (s : Shape T F)
    (h : p ∉ s.addrs) : Holds (setParent m (some p) q) par s ↔ Holds m par s :=
  holds_congr _ _ s par
    (fun y hy => setParent_other m _ q y (fun e => h (by
      simp only [Option.some.injEq] at e
      rw [e]
      exact hy)))

/-- After the parent link of the topmost node of the path is set to `q`, the memory
holds the path below `q`. -/
@[simp] theorem holdsCtx_setTop_self (m : Memory T F) (ps : List (Frame T F)) (c q : Ptr)
    (hne : ps ≠ []) (hnd : (ctxAddrs ps).Nodup) :
    HoldsCtx (setParent m (ctxRoot ps c) q) ps c q ↔ Hang m ps c := by
  induction ps generalizing c with
  | nil => exact absurd rfl hne
  | cons f fs ih =>
    cases fs with
    | nil =>
      cases f with
      | L p pk pv ph pr =>
        simp only [ctxAddrs_cons, addr_L, sib_L, ctxAddrs_nil, List.append_nil, List.nodup_cons]
          at hnd
        simp only [ctxRoot_cons, ctxRoot_nil, addr_L, holdsCtx_L, holdsCtx_nil, and_true,
          ctxPtr_nil, Hang, setParent_cell_iff, holds_setParent_some m p q (some p) pr hnd.1]
        constructor
        · rintro ⟨⟨top, h1⟩, h2⟩
          exact ⟨top, h1, h2⟩
        · rintro ⟨top, h1, h2⟩
          exact ⟨⟨top, h1⟩, h2⟩
      | R p pl pk pv ph =>
        simp only [ctxAddrs_cons, addr_R, sib_R, ctxAddrs_nil, List.append_nil, List.nodup_cons]
          at hnd
        simp only [ctxRoot_cons, ctxRoot_nil, addr_R, holdsCtx_R, holdsCtx_nil, and_true,
          ctxPtr_nil, Hang, setParent_cell_iff, holds_setParent_some m p q (some p) pl hnd.1]
        constructor
        · rintro ⟨⟨top, h1⟩, h2⟩
          exact ⟨top, h1, h2⟩
        · rintro ⟨top, h1, h2⟩
          exact ⟨⟨top, h1⟩, h2⟩
    | cons g gs =>
      have hnd' : (ctxAddrs (g :: gs)).Nodup := by
        simp only [ctxAddrs_cons, List.nodup_cons, List.nodup_append] at hnd ⊢
        exact hnd.2.2.1
      have hf : f.addr ∉ ctxAddrs (g :: gs) := by
        simp only [ctxAddrs_cons, List.nodup_cons, List.mem_append, not_or] at hnd
        simpa using hnd.1.2
      have hsib : f.sib.addrs.Disjoint (ctxAddrs (g :: gs)) := by
        simp only [ctxAddrs_cons, List.nodup_cons, List.nodup_append] at hnd
        simpa using hnd.2.2.2
      cases f with
      | L p pk pv ph pr =>
        simp only [addr_L, sib_L] at hf hsib
        have ih' := ih (some p) (by simp) hnd'
        have e1 := setParent_top_other m (g :: gs) (some p) q p (by simp) hf
        have e2 := holds_setParent_top m (g :: gs) (some p) q (some p) pr (by simp) hsib
        have hroot : ctxRoot (Frame.L p pk pv ph pr :: g :: gs) c = ctxRoot (g :: gs) (some p) :=
          rfl
        rw [hroot]
        simp only [holdsCtx_L, e1, e2, ih']
        simp only [Hang, holdsCtx_L, ctxPtr_cons]
        constructor
        · rintro ⟨h1, h2, top, h3⟩
          exact ⟨top, h1, h2, h3⟩
        · rintro ⟨top, h1, h2, h3⟩
          exact ⟨h1, h2, top, h3⟩
      | R p pl pk pv ph =>
        simp only [addr_R, sib_R] at hf hsib
        have ih' := ih (some p) (by simp) hnd'
        have e1 := setParent_top_other m (g :: gs) (some p) q p (by simp) hf
        have e2 := holds_setParent_top m (g :: gs) (some p) q (some p) pl (by simp) hsib
        have hroot : ctxRoot (Frame.R p pl pk pv ph :: g :: gs) c = ctxRoot (g :: gs) (some p) :=
          rfl
        rw [hroot]
        simp only [holdsCtx_R, e1, e2, ih']
        simp only [Hang, holdsCtx_R, ctxPtr_cons]
        constructor
        · rintro ⟨h1, h2, top, h3⟩
          exact ⟨top, h1, h2, h3⟩
        · rintro ⟨top, h1, h2, h3⟩
          exact ⟨h1, h2, top, h3⟩

theorem hang_top_alloc (m : Memory T F) : ∀ (ps : List (Frame T F)) (c : Ptr) (x : Nat),
    Hang m ps c → ps ≠ [] → ctxRoot ps c = some x → ∃ n, m x = some n
  | [], _, _, _, hne, _ => absurd rfl hne
  | [Frame.L p pk pv ph pr], c, x, ⟨top, h⟩, _, hx => by
    simp only [ctxRoot_cons, ctxRoot_nil, addr_L, Option.some.injEq] at hx
    subst hx
    exact ⟨_, h.1⟩
  | [Frame.R p pl pk pv ph], c, x, ⟨top, h⟩, _, hx => by
    simp only [ctxRoot_cons, ctxRoot_nil, addr_R, Option.some.injEq] at hx
    subst hx
    exact ⟨_, h.1⟩
  | Frame.L p pk pv ph pr :: g :: gs, c, x, ⟨top, h⟩, _, hx =>
    hang_top_alloc m (g :: gs) (some p) x ⟨top, h.2.2⟩ (by simp) hx
  | Frame.R p pl pk pv ph :: g :: gs, c, x, ⟨top, h⟩, _, hx =>
    hang_top_alloc m (g :: gs) (some p) x ⟨top, h.2.2⟩ (by simp) hx

@[simp] theorem updateRightSon_top (m : Memory T F) (a : Nat) (ps : List (Frame T F))
    (c : Ptr) (hne : ps ≠ []) (ha : a ∉ ctxAddrs ps) (h : Hang m ps c) :
    updateRightSon m (some a) (ctxRoot ps c) =
      match m a with
      | none => .error .NullDereference
      | some n =>
        .ok (setParent (store m a { n with sonRight := ctxRoot ps c }) (ctxRoot ps c)
          (some a)) := by
  obtain ⟨x, hx, hxm⟩ := ctxRoot_mem ps c hne
  obtain ⟨nx, hnx⟩ := hang_top_alloc m ps c x h hne hx
  have hxa : x ≠ a := fun e => ha (e ▸ hxm)
  rw [hx]
  unfold updateRightSon
  cases hma : m a with
  | none => simp [NodeMapTree.modify, hma, bind, Except.bind]
  | some n =>
    simp [NodeMapTree.modify, hma, bind, Except.bind, setParent, hxa, hnx]

theorem ctxPtr_congr (ps : List (Frame T F)) (x y : Ptr) (hne : ps ≠ []) :
    ctxPtr ps x = ctxPtr ps y := by
  cases ps with
  | nil => exact absurd rfl hne
  | cons f fs => rfl

@[simp] theorem holds_setParent_top' (m : Memory T F) (ps : List (Frame T F)) (c q par : Ptr)
    (s : Shape T F) (hne : ps ≠ []) (h : (ctxAddrs ps).Disjoint s.addrs) :
    Holds (setParent m (ctxRoot ps c) q) par s ↔ Holds m par s :=
  holds_setParent_top m ps c q par s hne h.symm

@[simp] theorem down_setParent_top' (m : Memory T F) (ps : List (Frame T F)) (c q : Ptr)
    (s : Shape T F) (hne : ps ≠ []) (h : (ctxAddrs ps).Disjoint s.addrs) :
    Down (setParent m (ctxRoot ps c) q) s ↔ Down m s :=
  down_setParent_top m ps c q s hne h.symm

@[simp] theorem holdsCtx_setParent_top' (m : Memory T F) (ps path : List (Frame T F))
    (c q c' top : Ptr) (hne : ps ≠ []) (h : (ctxAddrs path).Disjoint (ctxAddrs ps)) :
    HoldsCtx (setParent m (ctxRoot ps c) q) path c' top ↔ HoldsCtx m path c' top :=
  holdsCtx_setParent_top m ps path c q c' top hne h.symm

/-! ## The rotations on the memory and on the tree -/

theorem reBalanceLL_sim (t : AVLtree T F) (path : List (Frame T F))
    (a b : Nat) (al ar br : Shape T F) (ak bk : T) (av bv : F) (ah bh : Int)
    (hm : ModelsAt t path (node b (node a al ak av ah ar) bk bv bh br)) :
    ∃ t', reBalanceLL t (some b) = .ok (t', some a) ∧
      ModelsAt t' path (node a al ak av (1 + max al.hgt (1 + max ar.hgt br.hgt))
        (node b ar bk bv (1 + max ar.hgt br.hgt) br)) ∧
      t'.next = t.next ∧ t'.size = t.size := by
  have hm0 := hm
  obtain ⟨hroot, hctx, hsub, hnd, hfr⟩ := hm
  simp only [holds_node] at hsub
  obtain ⟨hb, ⟨ha, hal, har⟩, hbr⟩ := hsub
  have dal := hal.down
  have dar := har.down
  have dbr := hbr.down
  have hsk := hctx.skel
  simp only [addrs_node, List.nodup_cons, List.nodup_append, List.mem_cons, List.mem_append,
    not_or, List.disjoint_cons_left, List.disjoint_cons_right, List.disjoint_append_left,
    List.disjoint_append_right, List.cons_append, List.append_assoc] at hnd
  simp only [ptr_node] at hctx hroot hb
  simp [reBalanceLL, getSonLeft, getSonRight, deref, hb, ha, Except.map, bind, Except.bind,
    hnd, dar, withMem]
  rw [changeParentByNode_run _ _ _ _ path b a (by simp [getParent, deref, Except.map, hnd, hb])
    (by simpa [hnd] using hctx) hroot (by simp [hnd]) (by simp [hnd])]
  simp [hnd, ha, hb, updateRightSon, updateHeight, NodeMapTree.modify, bind, Except.bind,
    deref, dal, dar, dbr, pure, Except.pure, getHeight, Except.map]
  refine hm0.transfer (fun x => Nat.le_of_eq ?_) (Nat.le_refl _) ?_
  · simp only [addrs_node, List.count_cons, List.count_append]; omega
  · simp [hnd, hal, har, hbr, dal, dar, dbr, hsk]

theorem reBalanceRR_sim (t : AVLtree T F) (path : List (Frame T F))
    (a b : Nat) (al ar bl : Shape T F) (ak bk : T) (av bv : F) (ah bh : Int)
    (hm : ModelsAt t path (node b bl bk bv bh (node a al ak av ah ar))) :
    ∃ t', reBalanceRR t (some b) = .ok (t', some a) ∧
      ModelsAt t' path (node a (node b bl bk bv (1 + max bl.hgt al.hgt) al) ak av
        (1 + max (1 + max bl.hgt al.hgt) ar.hgt) ar) ∧
      t'.next = t.next ∧ t'.size = t.size := by
  have hm0 := hm
  obtain ⟨hroot, hctx, hsub, hnd, hfr⟩ := hm
  simp only [holds_node] at hsub
  obtain ⟨hb, hbl, ha, hal, har⟩ := hsub
  have dal := hal.down
  have dar := har.down
  have dbl := hbl.down
  have hsk := hctx.skel
  simp only [addrs_node, List.nodup_cons, List.nodup_append, List.mem_cons, List.mem_append,
    not_or, List.disjoint_cons_left, List.disjoint_cons_right, List.disjoint_append_left,
    List.disjoint_append_right, List.cons_append, List.append_assoc] at hnd
  simp only [ptr_node] at hctx hroot hb
  simp [reBalanceRR, getSonLeft, getSonRight, deref, hb, ha, Except.map, bind, Except.bind,
    hnd, dal, withMem]
  rw [changeParentByNode_run _ _ _ _ path b a (by simp [getParent, deref, Except.map, hnd, hb])
    (by simpa [hnd] using hctx) hroot (by simp [hnd]) (by simp [hnd])]
  simp [hnd, ha, hb, updateLeftSon, updateHeight, NodeMapTree.modify, bind, Except.bind,
    deref, dal, dar, dbl, pure, Except.pure, getHeight, Except.map]
  refine hm0.transfer (fun x => Nat.le_of_eq ?_) (Nat.le_refl _) ?_
  · simp only [addrs_node, List.count_cons, List.count_append]; omega
  · simp [hnd, hal, har, hbl, dal, dar, dbl, hsk]

theorem reBalanceLR_sim (t : AVLtree T F) (path : List (Frame T F))
    (a b c : Nat) (al bl br cr : Shape T F) (ak bk ck : T) (av bv cv : F) (ah bh ch : Int)
    (hm : ModelsAt t path (node c (node a al ak av ah (node b bl bk bv bh br)) ck cv ch cr)) :
    ∃ t', reBalanceLR t (some c) = .ok (t', some b) ∧
      ModelsAt t' path (node b (node a al ak av (1 + max al.hgt bl.hgt) bl) bk bv
        (1 + max (1 + max al.hgt bl.hgt) (1 + max br.hgt cr.hgt))
        (node c br ck cv (1 + max br.hgt cr.hgt) cr)) ∧
      t'.next = t.next ∧ t'.size = t.size := by
  have hm0 := hm
  obtain ⟨hroot, hctx, hsub, hnd, hfr⟩ := hm
  simp only [holds_node] at hsub
  obtain ⟨hc, ⟨ha, hal, hb, hbl, hbr⟩, hcr⟩ := hsub
  have dal := hal.down
  have dbl := hbl.down
  have dbr := hbr.down
  have dcr := hcr.down
  have hsk := hctx.skel
  simp only [addrs_node, List.nodup_cons, List.nodup_append, List.mem_cons, List.mem_append,
    not_or, List.disjoint_cons_left, List.disjoint_cons_right, List.disjoint_append_left,
    List.disjoint_append_right, List.cons_append, List.append_assoc] at hnd
  simp only [ptr_node] at hctx hroot hc ha
  simp [reBalanceLR, getSonLeft, getSonRight, deref, hb, ha, hc, Except.map, bind,
    Except.bind, hnd, dbl, dbr, withMem]
  rw [changeParentByNode_run _ _ _ _ path c b
    (by simp [getParent, deref, Except.map, hnd, hc])
    (by simpa [hnd] using hctx) hroot (by simp [hnd]) (by simp [hnd])]
  simp [hnd, ha, hb, hc, updateLeftSon, updateRightSon, updateHeight, NodeMapTree.modify, bind,
    Except.bind, deref, dal, dbl, dbr, dcr, pure, Except.pure, getHeight, Except.map]
  refine hm0.transfer (fun x => Nat.le_of_eq ?_) (Nat.le_refl _) ?_
  · simp only [addrs_node, List.count_cons, List.count_append]; omega
  · simp [hnd, hal, hbl, hbr, hcr, dal, dbl, dbr, dcr, hsk]

theorem reBalanceRL_sim (t : AVLtree T F) (path : List (Frame T F))
    (a b c : Nat) (cl bl br ar : Shape T F) (ak bk ck : T) (av bv cv : F) (ah bh ch : Int)
    (hm : ModelsAt t path (node c cl ck cv ch (node a (node b bl bk bv bh br) ak av ah ar))) :
    ∃ t', reBalanceRL t (some c) = .ok (t', some b) ∧
      ModelsAt t' path (node b (node c cl ck cv (1 + max cl.hgt bl.hgt) bl) bk bv
        (1 + max (1 + max cl.hgt bl.hgt) (1 + max br.hgt ar.hgt))
        (node a br ak av (1 + max br.hgt ar.hgt) ar)) ∧
      t'.next = t.next ∧ t'.size = t.size := by
  have hm0 := hm
  obtain ⟨hroot, hctx, hsub, hnd, hfr⟩ := hm
  simp only [holds_node] at hsub
  obtain ⟨hc, hcl, ha, ⟨hb, hbl, hbr⟩, har⟩ := hsub
  have dar := har.down
  have dbl := hbl.down
  have dbr := hbr.down
  have dcl := hcl.down
  have hsk := hctx.skel
  simp only [addrs_node, List.nodup_cons, List.nodup_append, List.mem_cons, List.mem_append,
    not_or, List.disjoint_cons_left, List.disjoint_cons_right, List.disjoint_append_left,
    List.disjoint_append_right, List.cons_append, List.append_assoc] at hnd
  simp only [ptr_node] at hctx hroot hc ha
  simp [reBalanceRL, getSonLeft, getSonRight, deref, hb, ha, hc, Except.map, bind,
    Except.bind, hnd, dbl, dbr, withMem]
  rw [changeParentByNode_run _ _ _ _ path c b
    (by simp [getParent, deref, Except.map, hnd, hc])
    (by simpa [hnd] using hctx) hroot (by simp [hnd]) (by simp [hnd])]
  simp [hnd, ha, hb, hc, updateLeftSon, updateRightSon, updateHeight, NodeMapTree.modify, bind,
    Except.bind, deref, dar, dbl, dbr, dcl, pure, Except.pure, getHeight, Except.map]
  refine hm0.transfer (fun x => Nat.le_of_eq ?_) (Nat.le_refl _) ?_
  · simp only [addrs_node, List.count_cons, List.count_append]; omega
  · simp [hnd, har, hbl, hbr, hcl, dar, dbl, dbr, dcl, hsk]

/-! ## Moving along the path -/

theorem ModelsAt.up {t : AVLtree T F} {f : Frame T F} {fs : List (Frame T F)} {s : Shape T F}
    (h : ModelsAt t (f :: fs) s) : ModelsAt t fs (f.fill s) := by
  refine h.transfer (fun x => Nat.le_of_eq ?_) (Nat.le_refl _) ?_
  · cases f <;>
      simp only [fill_L, fill_R, addrs_node, ctxAddrs_cons, addr_L, addr_R, sib_L, sib_R,
        List.count_cons, List.count_append] <;> omega
  · obtain ⟨hroot, hctx, hsub, -, -⟩ := h
    cases f <;> simp_all

theorem ModelsAt.down_left {t : AVLtree T F} {fs : List (Frame T F)} {a : Nat}
    {l r : Shape T F} {k : T} {v : F} {h : Int}
    (hm : ModelsAt t fs (node a l k v h r)) : ModelsAt t (Frame.L a k v h r :: fs) l := by
  refine hm.transfer (fun x => Nat.le_of_eq ?_) (Nat.le_refl _) ?_
  · simp only [addrs_node, ctxAddrs_cons, addr_L, sib_L, List.count_cons, List.count_append]
    omega
  · obtain ⟨hroot, hctx, hsub, -, -⟩ := hm
    simp_all

theorem ModelsAt.down_right {t : AVLtree T F} {fs : List (Frame T F)} {a : Nat}
    {l r : Shape T F} {k : T} {v : F} {h : Int}
    (hm : ModelsAt t fs (node a l k v h r)) : ModelsAt t (Frame.R a l k v h :: fs) r := by
  refine hm.transfer (fun x => Nat.le_of_eq ?_) (Nat.le_refl _) ?_
  · simp only [addrs_node, ctxAddrs_cons, addr_R, sib_R, List.count_cons, List.count_append]
    omega
  · obtain ⟨hroot, hctx, hsub, -, -⟩ := hm
    simp_all

theorem ModelsAt.toModels : ∀ {path : List (Frame T F)} {t : AVLtree T F} {s : Shape T F},
    ModelsAt t path s → Models t (plug path s)
  | [], _, _, h => h
  | f :: fs, _, s, h => (ModelsAt.toModels h.up : Models _ (plug fs (f.fill s)))

theorem ModelsAt.getHeight {t : AVLtree T F} {path : List (Frame T F)} {a : Nat}
    {l r : Shape T F} {k : T} {v : F} {h : Int}
    (hm : ModelsAt t path (node a l k v h r)) : getHeight t.mem (some a) = .ok h := by
  have h1 := hm.sub
  simp only [holds_node] at h1
  simp [NodeMapTree.getHeight, deref, h1.1, Except.map]

theorem ModelsAt.getParent {t : AVLtree T F} {path : List (Frame T F)} {a : Nat}
    {l r : Shape T F} {k : T} {v : F} {h : Int}
    (hm : ModelsAt t path (node a l k v h r)) :
    getParent t.mem (some a) = .ok (ctxPtr path none) := by
  have h1 := hm.sub
  simp only [holds_node] at h1
  simp [NodeMapTree.getParent, deref, h1.1, Except.map]

theorem getBalanceFactor_node (m : Memory T F) (par : Ptr) (a : Nat) (l r : Shape T F)
    (k : T) (v : F) (h : Int) (hs : Holds m par (node a l k v h r)) :
    getBalanceFactor m (some a) = .ok (l.hgt - r.hgt) := by
  simp only [holds_node] at hs
  simp [getBalanceFactor, deref, hs.1, bind, Except.bind, hs.2.1.down, hs.2.2.down, pure,
    Except.pure]

/-! ## The loop of `checkBalance` -/

theorem visit_sim (t : AVLtree T F) (path : List (Frame T F)) (s s' : Shape T F)
    (c : Bool) (hm : ModelsAt t path s) (hv : visit s = some (c, s')) (fuel : Nat) :
    ∃ t', ModelsAt t' path s' ∧ t'.next = t.next ∧ t'.size = t.size ∧
      checkBalanceLoop (fuel + 1) t s.ptr =
        if c then checkBalanceLoop fuel t' (ctxPtr path none) else .ok t' := by
  cases s with
  | nil => simp [visit] at hv
  | node a l k v h r =>
    have hbf := getBalanceFactor_node _ _ a l r k v h hm.sub
    have hsub := hm.sub
    have hctx := hm.ctx
    have hroot := hm.root
    simp only [holds_node] at hsub
    simp only [ptr_node] at hctx hroot
    by_cases hbal : -1 ≤ l.hgt - r.hgt ∧ l.hgt - r.hgt ≤ 1
    · simp only [visit, hbal, and_self, if_true, Option.some.injEq, Prod.mk.injEq] at hv
      obtain ⟨rfl, rfl⟩ := hv
      refine ⟨t.withMem (store t.mem a
        { key := k, value := v, height := (1 + max l.hgt r.hgt), sonLeft := l.ptr,
          sonRight := r.ptr, parent := ctxPtr path none }), ?_, rfl, rfl, ?_⟩
      · have hnd := hm.nodup
        simp only [addrs_node, List.nodup_cons, List.nodup_append, List.mem_cons,
          List.mem_append, not_or, List.disjoint_cons_left, List.disjoint_cons_right,
          List.disjoint_append_left, List.disjoint_append_right, List.cons_append,
          List.append_assoc] at hnd
        refine hm.transfer (fun x => Nat.le_refl _) (Nat.le_refl _) ?_
        simp [withMem, hnd, hsub, hroot, hctx]
      · simp [checkBalanceLoop, isBalanced, hbf, bind, Except.bind, pure, Except.pure, hbal,
          updateHeight, deref, hsub.1, hsub.2.1.down, hsub.2.2.down, NodeMapTree.modify,
          getParent, Except.map]
    · simp only [visit, hbal, if_false] at hv
      have hloop : ∀ (t1 : AVLtree T F) (lr : Ptr) (s1 : Shape T F),
          ModelsAt t1 path s1 → s1.ptr = lr → s1 ≠ nil →
          (do
            if (← NodeMapTree.getHeight t1.mem lr) = h then pure t1
            else checkBalanceLoop fuel t1 (← NodeMapTree.getParent t1.mem lr)) =
            if decide (s1.hgt ≠ h) then checkBalanceLoop fuel t1 (ctxPtr path none)
            else .ok t1 := by
        intro t1 lr s1 h1 hlr hne
        cases s1 with
        | nil => exact absurd rfl hne
        | node a1 l1 k1 v1 h1' r1 =>
          simp only [ptr_node] at hlr
          subst hlr
          simp only [h1.getHeight, h1.getParent, hgt_node, bind, Except.bind]
          by_cases hh : h1' = h <;> simp [hh, pure, Except.pure]
      have hnb : checkBalanceLoop (fuel + 1) t (some a) =
          (do
            let (t1, localRoot) ←
              if l.hgt - r.hgt = 2 then do
                let leftSon ← getSonLeft t.mem (some a)
                if (← getBalanceFactor t.mem leftSon) ≥ 0 then reBalanceLL t (some a)
                else reBalanceLR t (some a)
              else do
                let rightSon ← getSonRight t.mem (some a)
                if (← getBalanceFactor t.mem rightSon) = 1 then reBalanceRL t (some a)
                else reBalanceRR t (some a)
            if (← getHeight t1.mem localRoot) = h then pure t1
            else checkBalanceLoop fuel t1 (← getParent t1.mem localRoot)) := by
        simp only [checkBalanceLoop, isBalanced, hbf, bind, Except.bind, pure, Except.pure, hbal,
          decide_False, Bool.false_eq_true, if_false, getHeight, deref, hsub.1, Except.map]
      rw [ptr_node, hnb]
      by_cases h2 : l.hgt - r.hgt = 2
      · cases l with
        | nil =>
          simp only [rebalance, h2, if_true, Shape.bf] at hv
          cases hv
        | node la ll lk lv lh lr =>
          have hbl := getBalanceFactor_node _ _ la ll lr lk lv lh hsub.2.1
          by_cases hf : ll.hgt - lr.hgt ≥ 0
          · obtain ⟨t', heq, hm', hn, hs⟩ := reBalanceLL_sim t path la a ll lr r lk k lv v lh h hm
            simp only [rebalance, h2, if_true, Shape.bf, hf, rotLL, Option.some.injEq,
              Prod.mk.injEq] at hv
            obtain ⟨rfl, rfl⟩ := hv
            refine ⟨t', hm', hn, hs, ?_⟩
            simp only [h2, if_true, getSonLeft, deref, hsub.1, Except.map, bind, Except.bind,
              ptr_node, hbl, hf, heq]
            simpa only [bind, Except.bind, ptr_node] using hloop t' _ _ hm' rfl (by simp)
          · cases lr with
            | nil =>
              simp only [rebalance, h2, if_true, Shape.bf, hf, if_false, rotLR] at hv
              cases hv
            | node lra lrl lrk lrv lrh lrr =>
              obtain ⟨t', heq, hm', hn, hs⟩ :=
                reBalanceLR_sim t path la lra a ll lrl lrr r lk lrk k lv lrv v lh lrh h hm
              simp only [rebalance, h2, if_true, Shape.bf, hf, if_false, rotLR,
                Option.some.injEq, Prod.mk.injEq] at hv
              obtain ⟨rfl, rfl⟩ := hv
              refine ⟨t', hm', hn, hs, ?_⟩
              simp only [h2, if_true, getSonLeft, deref, hsub.1, Except.map, bind, Except.bind,
                ptr_node, hbl, hf, if_false, heq]
              simpa only [bind, Except.bind, ptr_node] using hloop t' _ _ hm' rfl (by simp)
      · cases r with
        | nil =>
          simp only [rebalance, h2, if_false, Shape.bf] at hv
          cases hv
        | node ra rl rk rv rh rr =>
          have hbr := getBalanceFactor_node _ _ ra rl rr rk rv rh hsub.2.2
          by_cases hf : rl.hgt - rr.hgt = 1
          · cases rl with
            | nil =>
              simp only [rebalance, h2, if_false, Shape.bf, hf, if_true, rotRL] at hv
              cases hv
            | node rla rll rlk rlv rlh rlr =>
              obtain ⟨t', heq, hm', hn, hs⟩ :=
                reBalanceRL_sim t path ra rla a l rll rlr rr rk rlk k rv rlv v rh rlh h hm
              simp only [rebalance, h2, if_false, Shape.bf, hf, if_true, rotRL,
                Option.some.injEq, Prod.mk.injEq] at hv
              obtain ⟨rfl, rfl⟩ := hv
              refine ⟨t', hm', hn, hs, ?_⟩
              simp only [h2, if_false, getSonRight, deref, hsub.1, Except.map, bind,
                Except.bind, ptr_node, hbr, hf, if_true, heq]
              simpa only [bind, Except.bind, ptr_node] using hloop t' _ _ hm' rfl (by simp)
          · obtain ⟨t', heq, hm', hn, hs⟩ := reBalanceRR_sim t path ra a rl rr l rk k rv v rh h hm
            simp only [rebalance, h2, if_false, Shape.bf, hf, rotRR, Option.some.injEq,
              Prod.mk.injEq] at hv
            obtain ⟨rfl, rfl⟩ := hv
            refine ⟨t', hm', hn, hs, ?_⟩
            simp only [h2, if_false, getSonRight, deref, hsub.1, Except.map, bind, Except.bind,
              ptr_node, hbr, hf, heq]
            simpa only [bind, Except.bind, ptr_node] using hloop t' _ _ hm' rfl (by simp)

theorem checkBalanceLoop_none (fuel : Nat) (t : AVLtree T F) :
    checkBalanceLoop fuel t none = .ok t := by
  cases fuel <;> rfl

theorem climb_sim : ∀ (path : List (Frame T F)) (t : AVLtree T F) (s r : Shape T F)
    (fuel : Nat), ModelsAt t path s → climb path s = some r → path.length < fuel →
    ∃ t', checkBalanceLoop fuel t s.ptr = .ok t' ∧ Models t' r ∧ t'.next = t.next ∧
      t'.size = t.size
  | [], t, s, r, fuel, hm, hc, hf => by
    obtain ⟨fuel, rfl⟩ : ∃ n, fuel = n + 1 := ⟨fuel - 1, by simp at hf; omega⟩
    simp only [climb, Option.map_eq_some', Prod.exists, exists_eq_right] at hc
    obtain ⟨c, hv⟩ := hc
    obtain ⟨t', hm', hn, hs, heq⟩ := visit_sim t [] s r c hm hv fuel
    refine ⟨t', ?_, hm', hn, hs⟩
    rw [heq]
    cases c <;> simp [checkBalanceLoop_none]
  | f :: fs, t, s, r, fuel, hm, hc, hf => by
    obtain ⟨fuel, rfl⟩ : ∃ n, fuel = n + 1 := ⟨fuel - 1, by simp at hf; omega⟩
    simp only [climb] at hc
    cases hv : visit s with
    | none => simp [hv] at hc
    | some cs =>
      obtain ⟨c, s'⟩ := cs
      obtain ⟨t', hm', hn, hs, heq⟩ := visit_sim t (f :: fs) s s' c hm hv fuel
      cases c with
      | true =>
        simp only [hv] at hc
        obtain ⟨t'', h1, h2, h3, h4⟩ :=
          climb_sim fs t' (f.fill s') r fuel hm'.up hc (by simp at hf; omega)
        refine ⟨t'', ?_, h2, by omega, by omega⟩
        rw [heq]
        simp only [if_true, ctxPtr_cons]
        cases f <;> simpa using h1
      | false =>
        simp only [hv, Option.some.injEq] at hc
        subst hc
        refine ⟨t', ?_, hm'.toModels, hn, hs⟩
        rw [heq]
        simp

theorem ModelsAt.transfer_alloc {t t' : AVLtree T F} {path path' : List (Frame T F)}
    {s s' : Shape T F} (h : ModelsAt t path s)
    (hcount : ∀ x, (s'.addrs ++ ctxAddrs path').count x ≤
      (t.next :: (s.addrs ++ ctxAddrs path)).count x)
    (hnext : t.next + 1 ≤ t'.next)
    (hrest : t'.root = ctxRoot path' s'.ptr ∧ HoldsCtx t'.mem path' s'.ptr none ∧
      Holds t'.mem (ctxPtr path' none) s') : ModelsAt t' path' s' :=
  { root := hrest.1
    ctx := hrest.2.1
    sub := hrest.2.2
    nodup := nodup_of_count_le hcount
      (List.nodup_cons.mpr ⟨fun hx => Nat.lt_irrefl _ (h.fresh _ hx), h.nodup⟩)
    fresh := fun x hx => by
      have hx' := mem_of_count_le hcount x hx
      rcases List.mem_cons.mp hx' with rfl | hx''
      · omega
      · have := h.fresh x hx''
        omega }

theorem count_eq_length (s : Shape T F) : s.count = s.addrs.length := by
  induction s with
  | nil => rfl
  | node a l k v h r ihl ihr => simp [Shape.count, ihl, ihr]; omega

theorem length_le_ctxAddrs (path : List (Frame T F)) : path.length ≤ (ctxAddrs path).length := by
  induction path with
  | nil => simp
  | cons f fs ih => simp; omega

theorem nodup_length_le (l : List Nat) (n : Nat) (hnd : l.Nodup) (h : ∀ x ∈ l, x < n) :
    l.length ≤ n := by
  have hsub : l ⊆ List.range n := fun x hx => List.mem_range.mpr (h x hx)
  have := (List.subperm_of_subset hnd hsub).length_le
  simpa using this

theorem ModelsAt.size_le {t : AVLtree T F} {path : List (Frame T F)} {s : Shape T F}
    (h : ModelsAt t path s) : s.count + path.length ≤ t.next := by
  have h1 := nodup_length_le _ _ h.nodup h.fresh
  have h2 := length_le_ctxAddrs path
  rw [count_eq_length]
  simp at h1
  omega

theorem finish_sim (t : AVLtree T F) (path : List (Frame T F)) (s1 s' : Shape T F)
    (hm : ModelsAt t path s1) (hf : finish (path, s1) = some s') :
    ∃ t', Models t' s' ∧ t'.next = t.next ∧ t'.size = t.size ∧
      ((ctxPtr path none).isSome = true → checkBalance t (ctxPtr path none) = .ok t') ∧
      ((ctxPtr path none).isSome = false → t' = t) := by
  cases path with
  | nil =>
    simp only [finish, Option.some.injEq] at hf
    subst hf
    exact ⟨t, hm, rfl, rfl, by simp, by simp⟩
  | cons f fs =>
    simp only [finish] at hf
    have hsz := hm.size_le
    obtain ⟨t', h1, h2, h3, h4⟩ := climb_sim fs t (f.fill s1) s' (t.next + 1) hm.up hf
      (by simp at hsz; omega)
    refine ⟨t', h2, h3, h4, fun _ => ?_, by simp⟩
    simp only [checkBalance, ctxPtr_cons]
    cases f <;> simpa using h1

section Ordered

variable [LinearOrder T]

theorem findNodeLoop_sim (key : T) : ∀ (s : Shape T F) (path : List (Frame T F))
    (t : AVLtree T F) (fuel : Nat), ModelsAt t path s → s ≠ nil → s.count ≤ fuel →
    findNodeLoop t.mem key fuel s.ptr = .ok (descend key s path).2.ptr ∧
      ModelsAt t (descend key s path).1 (descend key s path).2 ∧
      (descend key s path).2 ≠ nil
  | nil, _, _, _, _, hne, _ => absurd rfl hne
  | node a l k v h r, path, t, fuel, hm, _, hf => by
    obtain ⟨fuel, rfl⟩ : ∃ n, fuel = n + 1 := ⟨fuel - 1, by simp [Shape.count] at hf; omega⟩
    have hsub := hm.sub
    simp only [holds_node] at hsub
    simp only [Shape.count] at hf
    by_cases hk : k = key
    · simp [findNodeLoop, descend, hk, deref, hsub.1, bind, Except.bind, pure, Except.pure]
      simpa [hk] using hm
    · rcases lt_or_gt_of_ne hk with hlt | hgt
      · have hng : ¬ k > key := not_lt.mpr (le_of_lt hlt)
        cases r with
        | nil =>
          simp [findNodeLoop, descend, hk, hng, hlt, deref, hsub.1, bind, Except.bind, pure,
            Except.pure]
          exact hm
        | node ra rl rk rv rh rr =>
          have ih := findNodeLoop_sim key (node ra rl rk rv rh rr) (Frame.R a l k v h :: path)
            t fuel hm.down_right (by simp) (by simp only [Shape.count] at hf ⊢; omega)
          simp [findNodeLoop, descend, hk, hng, hlt, deref, hsub.1, bind, Except.bind]
          simpa using ih
      · cases l with
        | nil =>
          simp [findNodeLoop, descend, hk, hgt, deref, hsub.1, bind, Except.bind, pure,
            Except.pure]
          exact hm
        | node la ll lk lv lh lr =>
          have ih := findNodeLoop_sim key (node la ll lk lv lh lr) (Frame.L a k v h r :: path)
            t fuel hm.down_left (by simp) (by simp only [Shape.count] at hf ⊢; omega)
          simp [findNodeLoop, descend, hk, hgt, deref, hsub.1, bind, Except.bind]
          simpa using ih

theorem findNode_sim (key : T) (t : AVLtree T F) (s : Shape T F) (hm : Models t s)
    (hne : s ≠ nil) :
    findNode t key = .ok (descend key s []).2.ptr ∧
      ModelsAt t (descend key s []).1 (descend key s []).2 ∧ (descend key s []).2 ≠ nil := by
  have hr := hm.root
  have h := findNodeLoop_sim key s [] t (t.next + 1) hm hne (by have := hm.size_le; omega)
  cases s with
  | nil => exact absurd rfl hne
  | node a l k v hh r =>
    simp only [ctxRoot_nil, ptr_node] at hr
    simp only [findNode, hr]
    simpa using h

theorem addNode_sim (t : AVLtree T F) (s s' : Shape T F) (key : T) (value : F)
    (hm : Models t s) (hp : addNodeP t.next key value s = some s') :
    ∃ t', addNode t key value = .ok (t', some ((hit key s).getD t.next)) ∧ Models t' s' ∧
      t'.next = t.next + (if (hit key s).isSome then 0 else 1) ∧
      t'.size = (if (hit key s).isSome then t.size else wrapInt (t.size + 1)) := by
  cases s with
  | nil =>
    have hr := hm.root
    simp only [ctxRoot_nil, ptr_nil] at hr
    simp only [addNodeP, Option.some.injEq] at hp
    subst hp
    refine ⟨_, by simp [addNode, hr, newNode, hit, descend, pure, Except.pure]; rfl, ?_, ?_, ?_⟩
    · refine hm.transfer_alloc (fun x => ?_) (Nat.le_refl _) ?_
      · simp [leaf]
      · simp [leaf]
    · simp [hit, descend]
    · simp [hit, descend]
  | node a l k v h r =>
    obtain ⟨hfind, hm0, hne⟩ := findNode_sim key t (node a l k v h r) hm (by simp)
    have hr := hm.root
    simp only [ctxRoot_nil, ptr_node] at hr
    simp only [addNodeP] at hp
    have hhit : hit key (node a l k v h r) =
        match (descend key (node a l k v h r) []).2 with
        | nil => none
        | node a _ k _ _ _ => if k = key then some a else none := rfl
    rcases hd : descend key (node a l k v h r) [] with ⟨path, s0⟩
    rw [hd] at hfind hm0 hne hp hhit
    simp only at hfind hm0 hne hp hhit
    cases s0 with
    | nil => exact absurd rfl hne
    | node a0 l0 k0 v0 h0 r0 =>
      have hm00 := hm0
      obtain ⟨hroot, hctx, hsub, hnd, hfr⟩ := hm0
      simp only [holds_node] at hsub
      obtain ⟨ha0, hl0, hr0⟩ := hsub
      have dl0 := hl0.down
      have dr0 := hr0.down
      have hsk := hctx.skel
      have hnx : t.next ∉ (node a0 l0 k0 v0 h0 r0).addrs ++ ctxAddrs path :=
        fun hx => Nat.lt_irrefl _ (hfr _ hx)
      simp only [addrs_node, List.nodup_cons, List.nodup_append, List.mem_cons, List.mem_append,
        not_or, List.disjoint_cons_left, List.disjoint_cons_right, List.disjoint_append_left,
        List.disjoint_append_right, List.cons_append, List.append_assoc] at hnd hnx
      simp only [ptr_node] at hctx hroot hfind
      have hra : some a = ctxRoot path (some a0) := hr.symm.trans hroot
      rcases lt_trichotomy key k0 with hlt | heq | hgt
      · have hne' : ¬ key = k0 := ne_of_lt hlt
        have hne'' : ¬ k0 = key := fun e => hne' e.symm
        have hng : ¬ k0 < key := not_lt.mpr (le_of_lt hlt)
        simp only [hne'', if_false, Option.isSome_none, Option.getD_none] at hhit
        simp [addNode, hr, hfind, bind, Except.bind, getKey, deref, ha0, Except.map,
          NodeMapTree.modify, withMem, updateHeight, dl0, dr0, hnd, hnx, getParent, pure,
          Except.pure, hhit, hne', hlt, hng, newNode, updateLeftSon, getHeight]
        generalize ht4 : AVLtree.mk _ (t.next + 1) (some a) (wrapInt (t.size + 1)) = t4
        have hm4 : ModelsAt t4 path (attach t.next key value (node a0 l0 k0 v0 h0 r0)) := by
          subst ht4
          refine hm00.transfer_alloc (fun x => ?_) (Nat.le_refl _) ?_
          · simp only [attach, hne', hng, gt_iff_lt, if_false, leaf, addrs_node, addrs_nil,
              List.count_cons, List.count_append, List.count_nil]
            omega
          · simp [attach, hne', hng, leaf, hnd, hnx, hr0, hctx, hra]
        obtain ⟨t', hM, hn, hs, hc1, hc2⟩ := finish_sim t4 path _ s' hm4 hp
        refine ⟨t', ?_, hM, ?_, ?_⟩
        · by_cases hpar : (ctxPtr path none).isSome = true
          · simp [hpar, hc1 hpar]
          · simp only [Bool.not_eq_true] at hpar
            simp [hpar, hc2 hpar]
        · rw [hn, ← ht4]
        · rw [hs, ← ht4]
      · subst heq
        simp only [if_true, Option.isSome_some, Option.getD_some] at hhit
        simp [addNode, hr, hfind, bind, Except.bind, getKey, deref, ha0, Except.map, updateValue,
          NodeMapTree.modify, withMem, updateHeight, dl0, dr0, hnd, getParent, pure, Except.pure,
          hhit]
        generalize ht4 : AVLtree.mk _ t.next (some a) t.size = t4
        have hm4 : ModelsAt t4 path (attach t.next key value (node a0 l0 key v0 h0 r0)) := by
          subst ht4
          refine hm00.transfer (fun x => ?_) (Nat.le_refl _) ?_
          · simp [attach]
          · simp [attach, hnd, hl0, hr0, hctx, hra]
        obtain ⟨t', hM, hn, hs, hc1, hc2⟩ := finish_sim t4 path _ s' hm4 hp
        refine ⟨t', ?_, hM, ?_, ?_⟩
        · by_cases hpar : (ctxPtr path none).isSome = true
          · simp [hpar, hc1 hpar]
          · simp only [Bool.not_eq_true] at hpar
            simp [hpar, hc2 hpar]
        · rw [hn, ← ht4]
        · rw [hs, ← ht4]
      · have hne' : ¬ key = k0 := ne_of_gt hgt
        have hne'' : ¬ k0 = key := fun e => hne' e.symm
        have hnl : ¬ key < k0 := not_lt.mpr (le_of_lt hgt)
        simp only [hne'', if_false, Option.isSome_none, Option.getD_none] at hhit
        simp [addNode, hr, hfind, bind, Except.bind, getKey, deref, ha0, Except.map,
          NodeMapTree.modify, withMem, updateHeight, dl0, dr0, hnd, hnx, getParent, pure,
          Except.pure, hhit, hne', hgt, hnl, newNode, updateRightSon, getHeight]
        generalize ht4 : AVLtree.mk _ (t.next + 1) (some a) (wrapInt (t.size + 1)) = t4
        have hm4 : ModelsAt t4 path (attach t.next key value (node a0 l0 k0 v0 h0 r0)) := by
          subst ht4
          refine hm00.transfer_alloc (fun x => ?_) (Nat.le_refl _) ?_
          · simp only [attach, hne', hgt, if_false, if_true, leaf, addrs_node, addrs_nil,
              List.count_cons, List.count_append, List.count_nil]
            omega
          · simp [attach, hne', hgt, leaf, hnd, hnx, hl0, hctx, hra]
        obtain ⟨t', hM, hn, hs, hc1, hc2⟩ := finish_sim t4 path _ s' hm4 hp
        refine ⟨t', ?_, hM, ?_, ?_⟩
        · by_cases hpar : (ctxPtr path none).isSome = true
          · simp [hpar, hc1 hpar]
          · simp only [Bool.not_eq_true] at hpar
            simp [hpar, hc2 hpar]
        · rw [hn, ← ht4]
        · rw [hs, ← ht4]

end Ordered

/-! ## Taking a node out -/

theorem removeLeaf_sim (t : AVLtree T F) (path : List (Frame T F)) (a : Nat) (k : T) (v : F)
    (h : Int) (hm : ModelsAt t path (node a nil k v h nil)) :
    ∃ t', removeLeaf t (some a) = .ok (t', ctxPtr path none) ∧ ModelsAt t' path nil ∧
      t'.next = t.next ∧ t'.size = wrapInt (t.size - 1) := by
  have hm0 := hm
  obtain ⟨hroot, hctx, hsub, hnd, hfr⟩ := hm
  simp only [holds_node] at hsub
  obtain ⟨ha, -, -⟩ := hsub
  rcases path with _ | ⟨(⟨p, pk, pv, ph, pr⟩ | ⟨p, pl, pk, pv, ph⟩), fs⟩ <;>
  simp only [addrs_node, addrs_nil, ctxAddrs_cons, ctxAddrs_nil, addr_L, addr_R, sib_L, sib_R,
    List.nodup_cons, List.nodup_append, List.mem_cons, List.mem_append, not_or,
    List.disjoint_cons_left, List.disjoint_cons_right, List.disjoint_append_left,
    List.disjoint_append_right, List.cons_append, List.append_assoc, List.nil_append,
    List.append_nil, ptr_node, ptr_nil, holdsCtx_L, holdsCtx_R, ctxPtr_cons, ctxPtr_nil,
    ctxRoot_cons, ctxRoot_nil] at hnd hctx hroot ha <;>
  simp [removeLeaf, getParent, deref, ha, Except.map, bind, Except.bind, deleteNode, pure,
    Except.pure, isRightSon, hctx, hnd, updateLeftSon, updateRightSon, NodeMapTree.modify,
    updateParent, withMem] <;>
  refine hm0.transfer (fun x => ?_) (Nat.le_refl _) ?_ <;>
  first
  | (simp only [addrs_node, addrs_nil, ctxAddrs_cons, List.count_cons, List.count_append,
      List.count_nil]; omega)
  | simp [hnd, hctx, hroot]

theorem removeOneSon_sim_right (t : AVLtree T F) (path : List (Frame T F)) (a rn : Nat)
    (k rk : T) (v rv : F) (h rh : Int) (rl rr : Shape T F)
    (hm : ModelsAt t path (node a nil k v h (node rn rl rk rv rh rr))) :
    ∃ t', removeOneSon t (some a) = .ok (t', ctxPtr path none) ∧
      ModelsAt t' path (node rn rl rk rv rh rr) ∧
      t'.next = t.next ∧ t'.size = wrapInt (t.size - 1) := by
  have hm0 := hm
  obtain ⟨hroot, hctx, hsub, hnd, hfr⟩ := hm
  simp only [holds_node] at hsub
  obtain ⟨ha, -, hr, hrl, hrr⟩ := hsub
  rcases path with _ | ⟨(⟨p, pk, pv, ph, pr⟩ | ⟨p, pl, pk, pv, ph⟩), fs⟩ <;>
  simp only [addrs_node, addrs_nil, ctxAddrs_cons, ctxAddrs_nil, addr_L, addr_R, sib_L, sib_R,
    List.nodup_cons, List.nodup_append, List.mem_cons, List.mem_append, not_or,
    List.disjoint_cons_left, List.disjoint_cons_right, List.disjoint_append_left,
    List.disjoint_append_right, List.cons_append, List.append_assoc, List.nil_append,
    List.append_nil, ptr_node, ptr_nil, holdsCtx_L, holdsCtx_R, ctxPtr_cons, ctxPtr_nil,
    ctxRoot_cons, ctxRoot_nil] at hnd hctx hroot ha hr <;>
  simp [removeOneSon, getParent, getSonRight, getSonLeft, deref, ha, hr, Except.map, bind,
    Except.bind, deleteNode, pure, Except.pure, isRightSon, hctx, hnd, updateLeftSon,
    updateRightSon, NodeMapTree.modify, updateParent, withMem, nodeAllNull] <;>
  refine hm0.transfer (fun x => ?_) (Nat.le_refl _) ?_ <;>
  first
  | (simp only [addrs_node, addrs_nil, ctxAddrs_cons, List.count_cons, List.count_append,
      List.count_nil]; omega)
  | simp [hnd, hctx, hroot, hrl, hrr]

theorem removeOneSon_sim_left (t : AVLtree T F) (path : List (Frame T F)) (a ln : Nat)
    (k lk : T) (v lv : F) (h lh : Int) (ll lr : Shape T F)
    (hm : ModelsAt t path (node a (node ln ll lk lv lh lr) k v h nil)) :
    ∃ t', removeOneSon t (some a) = .ok (t', ctxPtr path none) ∧
      ModelsAt t' path (node ln ll lk lv lh lr) ∧
      t'.next = t.next ∧ t'.size = wrapInt (t.size - 1) := by
  have hm0 := hm
  obtain ⟨hroot, hctx, hsub, hnd, hfr⟩ := hm
  simp only [holds_node] at hsub
  obtain ⟨ha, ⟨hl, hll, hlr⟩, -⟩ := hsub
  rcases path with _ | ⟨(⟨p, pk, pv, ph, pr⟩ | ⟨p, pl, pk, pv, ph⟩), fs⟩ <;>
  simp only [addrs_node, addrs_nil, ctxAddrs_cons, ctxAddrs_nil, addr_L, addr_R, sib_L, sib_R,
    List.nodup_cons, List.nodup_append, List.mem_cons, List.mem_append, not_or,
    List.disjoint_cons_left, List.disjoint_cons_right, List.disjoint_append_left,
    List.disjoint_append_right, List.cons_append, List.append_assoc, List.nil_append,
    List.append_nil, ptr_node, ptr_nil, holdsCtx_L, holdsCtx_R, ctxPtr_cons, ctxPtr_nil,
    ctxRoot_cons, ctxRoot_nil] at hnd hctx hroot ha hl <;>
  simp [removeOneSon, getParent, getSonRight, getSonLeft, deref, ha, hl, Except.map, bind,
    Except.bind, deleteNode, pure, Except.pure, isRightSon, hctx, hnd, updateLeftSon,
    updateRightSon, NodeMapTree.modify, updateParent, withMem, nodeAllNull] <;>
  refine hm0.transfer (fun x => ?_) (Nat.le_refl _) ?_ <;>
  first
  | (simp only [addrs_node, addrs_nil, ctxAddrs_cons, List.count_cons, List.count_append,
      List.count_nil]; omega)
  | simp [hnd, hctx, hroot, hll, hlr]

theorem changePlacesParentRightSon_sim (t : AVLtree T F) (path : List (Frame T F))
    (a rn : Nat) (k rk : T) (v rv : F) (h rh : Int) (l rr : Shape T F)
    (hm : ModelsAt t path (node a l k v h (node rn nil rk rv rh rr))) :
    ∃ t', changePlacesParentRightSon t (some a) (some rn) = .ok t' ∧
      ModelsAt t' (Frame.R rn l rk rv rh :: path) (node a nil k v h rr) ∧
      t'.next = t.next ∧ t'.size = t.size := by
  have hm0 := hm
  obtain ⟨hroot, hctx, hsub, hnd, hfr⟩ := hm
  simp only [holds_node] at hsub
  obtain ⟨ha, hl, hr, -, hrr⟩ := hsub
  have dl := hl.down
  have drr := hrr.down
  rcases path with _ | ⟨(⟨p, pk, pv, ph, pr⟩ | ⟨p, pl, pk, pv, ph⟩), fs⟩ <;>
  simp only [addrs_node, addrs_nil, ctxAddrs_cons, ctxAddrs_nil, addr_L, addr_R, sib_L, sib_R,
    List.nodup_cons, List.nodup_append, List.mem_cons, List.mem_append, not_or,
    List.disjoint_cons_left, List.disjoint_cons_right, List.disjoint_append_left,
    List.disjoint_append_right, List.cons_append, List.append_assoc, List.nil_append,
    List.append_nil, ptr_node, ptr_nil, holdsCtx_L, holdsCtx_R, ctxPtr_cons, ctxPtr_nil,
    ctxRoot_cons, ctxRoot_nil] at hnd hctx hroot ha hr <;>
  simp [changePlacesParentRightSon, getParent, getSonRight, getSonLeft, deref, ha, hr,
    Except.map, bind, Except.bind, pure, Except.pure, isRightSon, hctx, hnd,
    updateLeftSon_some, updateRightSon_some, NodeMapTree.modify, updateParent, withMem,
    nodeAllNull, dl, drr] <;>
  refine hm0.transfer (fun x => ?_) (Nat.le_refl _) ?_ <;>
  first
  | (simp only [addrs_node, addrs_nil, ctxAddrs_cons, List.count_cons, List.count_append,
      List.count_nil, addr_L, addr_R, sib_L, sib_R]; omega)
  | simp [hnd, hctx, hroot, hl, hrr, dl, drr]

theorem changeNodePlaces_sim_one (t : AVLtree T F) (path : List (Frame T F))
    (a n2 p2 : Nat) (k k2 pk : T) (v v2 pv : F) (h h2 ph : Int) (l r2 pr : Shape T F)
    (hm : ModelsAt t (Frame.L p2 pk pv ph pr :: Frame.R a l k v h :: path)
      (node n2 nil k2 v2 h2 r2)) :
    ∃ t', changeNodePlaces t (some a) (some n2) = .ok t' ∧
      ModelsAt t' (Frame.L p2 pk pv ph pr :: Frame.R n2 l k2 v2 h :: path)
        (node a nil k v h2 r2) ∧
      t'.next = t.next ∧ t'.size = t.size := by
  have hm0 := hm
  obtain ⟨hroot, hctx, hsub, hnd, hfr⟩ := hm
  simp only [holds_node] at hsub
  obtain ⟨hn2, -, hr2⟩ := hsub
  simp only [holdsCtx_L, holdsCtx_R] at hctx
  obtain ⟨hp2, hpr, ha, hl, hctx⟩ := hctx
  have dl := hl.down
  have dr2 := hr2.down
  have dpr := hpr.down
  rcases path with _ | ⟨(⟨p, qk, qv, qh, qr⟩ | ⟨p, ql, qk, qv, qh⟩), fs⟩ <;>
  simp only [addrs_node, addrs_nil, ctxAddrs_cons, ctxAddrs_nil, addr_L, addr_R, sib_L, sib_R,
    List.nodup_cons, List.nodup_append, List.mem_cons, List.mem_append, not_or,
    List.disjoint_cons_left, List.disjoint_cons_right, List.disjoint_append_left,
    List.disjoint_append_right, List.cons_append, List.append_assoc, List.nil_append,
    List.append_nil, ptr_node, ptr_nil, holdsCtx_L, holdsCtx_R, ctxPtr_cons, ctxPtr_nil,
    ctxRoot_cons, ctxRoot_nil] at hnd hctx hroot ha hn2 hp2 <;>
  simp [changeNodePlaces, getParent, getSonRight, getSonLeft, getHeight, deref, ha, hn2, hp2,
    Except.map, bind, Except.bind, pure, Except.pure, isRightSon, hctx, hnd,
    updateLeftSon_some, updateRightSon_some, updateLeftSon_none, NodeMapTree.modify,
    updateParent, withMem, updateHeightTo, dl, dr2, dpr] <;>
  refine hm0.transfer (fun x => ?_) (Nat.le_refl _) ?_ <;>
  first
  | (simp only [addrs_node, addrs_nil, ctxAddrs_cons, List.count_cons, List.count_append,
      List.count_nil, addr_L, addr_R, sib_L, sib_R]; omega)
  | simp [hnd, hctx, hroot, hl, hr2, hpr, dl, dr2, dpr]

theorem changeNodePlaces_sim_deep (t : AVLtree T F) (rest path : List (Frame T F))
    (a n2 p2 : Nat) (k k2 pk : T) (v v2 pv : F) (h h2 ph : Int) (l r2 pr : Shape T F)
    (hne : rest ≠ [])
    (hm : ModelsAt t (Frame.L p2 pk pv ph pr :: (rest ++ Frame.R a l k v h :: path))
      (node n2 nil k2 v2 h2 r2)) :
    ∃ t', changeNodePlaces t (some a) (some n2) = .ok t' ∧
      ModelsAt t' (Frame.L p2 pk pv ph pr :: (rest ++ Frame.R n2 l k2 v2 h :: path))
        (node a nil k v h2 r2) ∧
      t'.next = t.next ∧ t'.size = t.size := by
  have hm0 := hm
  obtain ⟨hroot, hctx, hsub, hnd, hfr⟩ := hm
  simp only [holds_node] at hsub
  obtain ⟨hn2, -, hr2⟩ := hsub
  simp only [holdsCtx_L, holdsCtx_R, holdsCtx_append] at hctx
  obtain ⟨hp2, hpr, hrest, ha, hl, hctx⟩ := hctx
  have dl := hl.down
  have dr2 := hr2.down
  have dpr := hpr.down
  have hhang := hrest.hang
  have hcp : ctxPtr rest (some a) = ctxPtr rest (some n2) := ctxPtr_congr rest _ _ hne
  rcases path with _ | ⟨(⟨p, qk, qv, qh, qr⟩ | ⟨p, ql, qk, qv, qh⟩), fs⟩ <;>
  simp only [addrs_node, addrs_nil, ctxAddrs_cons, ctxAddrs_nil, addr_L, addr_R, sib_L, sib_R,
    List.nodup_cons, List.nodup_append, List.mem_cons, List.mem_append, not_or,
    List.disjoint_cons_left, List.disjoint_cons_right, List.disjoint_append_left,
    List.disjoint_append_right, List.cons_append, List.append_assoc, List.nil_append,
    List.append_nil, ptr_node, ptr_nil, holdsCtx_L, holdsCtx_R, ctxPtr_cons, ctxPtr_nil,
    ctxRoot_cons, ctxRoot_nil, ctxAddrs_append, ctxPtr_append, ctxRoot_append]
    at hnd hctx hroot ha hn2 hp2 hrest <;>
  simp [changeNodePlaces, getParent, getSonRight, getSonLeft, getHeight, deref, ha, hn2, hp2,
    Except.map, bind, Except.bind, pure, Except.pure, isRightSon, hctx, hnd,
    updateLeftSon_some, updateRightSon_some, updateLeftSon_none, NodeMapTree.modify,
    updateParent, withMem, updateHeightTo, dl, dr2, dpr, hne, hhang, hcp] <;>
  refine hm0.transfer (fun x => ?_) (Nat.le_refl _) ?_ <;>
  first
  | (simp only [addrs_node, addrs_nil, ctxAddrs_cons, List.count_cons, List.count_append,
      List.count_nil, addr_L, addr_R, sib_L, sib_R, ctxAddrs_append]; omega)
  | simp [hnd, hctx, hroot, hl, hr2, hpr, dl, dr2, dpr, hne, hhang, hcp]

theorem leftmost_step (a : Nat) (la : Nat) (ll lr r : Shape T F) (k lk : T) (v lv : F)
    (h lh : Int) (path : List (Frame T F)) :
    leftmost (node a (node la ll lk lv lh lr) k v h r) path =
      leftmost (node la ll lk lv lh lr) (Frame.L a k v h r :: path) := by
  rw [leftmost]
  simp

theorem leftmost_stop (a : Nat) (r : Shape T F) (k : T) (v : F) (h : Int)
    (path : List (Frame T F)) :
    leftmost (node a nil k v h r) path = (path, node a nil k v h r) := by
  rw [leftmost]
  simp

theorem leftmost_append : ∀ (s : Shape T F) (path : List (Frame T F)),
    leftmost s path = ((leftmost s []).1 ++ path, (leftmost s []).2)
  | nil, path => rfl
  | node a l k v h r, path => by
    cases l with
    | nil => simp [leftmost_stop]
    | node la ll lk lv lh lr =>
      have h1 := leftmost_append (node la ll lk lv lh lr) (Frame.L a k v h r :: path)
      have h2 := leftmost_append (node la ll lk lv lh lr) [Frame.L a k v h r]
      rw [leftmost_step, leftmost_step, h1, h2]
      simp

theorem leftmost_allLeft : ∀ (s : Shape T F) (path : List (Frame T F)),
    AllLeft path → AllLeft (leftmost s path).1
  | nil, _, h => h
  | node a l k v h r, path, hp => by
    cases l with
    | nil => simpa [leftmost_stop] using hp
    | node la ll lk lv lh lr =>
      rw [leftmost_step]
      exact leftmost_allLeft (node la ll lk lv lh lr) (Frame.L a k v h r :: path) hp

theorem leftmost_node : ∀ (s : Shape T F) (path : List (Frame T F)), s ≠ nil →
    ∃ n2 k2 v2 h2 r2, (leftmost s path).2 = node n2 nil k2 v2 h2 r2
  | nil, _, h => absurd rfl h
  | node a l k v h r, path, _ => by
    cases l with
    | nil => exact ⟨a, k, v, h, r, by simp [leftmost_stop]⟩
    | node la ll lk lv lh lr =>
      rw [leftmost_step]
      exact leftmost_node (node la ll lk lv lh lr) (Frame.L a k v h r :: path) (by simp)

theorem leftmostLoop_sim : ∀ (s : Shape T F) (path : List (Frame T F))
    (t : AVLtree T F) (fuel : Nat), ModelsAt t path s → s ≠ nil → s.count ≤ fuel →
    leftmostLoop t.mem fuel s.ptr = .ok (leftmost s path).2.ptr ∧
      ModelsAt t (leftmost s path).1 (leftmost s path).2
  | nil, _, _, _, _, hne, _ => absurd rfl hne
  | node a l k v h r, path, t, fuel, hm, _, hf => by
    obtain ⟨fuel, rfl⟩ : ∃ n, fuel = n + 1 := ⟨fuel - 1, by simp [Shape.count] at hf; omega⟩
    have hsub := hm.sub
    simp only [holds_node] at hsub
    simp only [Shape.count] at hf
    cases l with
    | nil =>
      simp [leftmostLoop, leftmost_stop, getSonLeft, deref, hsub.1, bind, Except.bind, pure,
        Except.pure, Except.map]
      exact hm
    | node la ll lk lv lh lr =>
      have ih := leftmostLoop_sim (node la ll lk lv lh lr) (Frame.L a k v h r :: path)
        t fuel hm.down_left (by simp) (by simp only [Shape.count] at hf ⊢; omega)
      simp [leftmostLoop, leftmost_step, getSonLeft, deref, hsub.1, bind, Except.bind,
        Except.map]
      simpa using ih

theorem ModelsAt.getNumOfSons {t : AVLtree T F} {path : List (Frame T F)} {a : Nat}
    {l r : Shape T F} {k : T} {v : F} {h : Int}
    (hm : ModelsAt t path (node a l k v h r)) :
    getNumOfSons t.mem (some a) =
      .ok ((if l.ptr.isSome then 1 else 0) + (if r.ptr.isSome then 1 else 0)) := by
  have h1 := hm.sub
  simp only [holds_node] at h1
  simp [NodeMapTree.getNumOfSons, deref, h1.1, bind, Except.bind, pure, Except.pure]

/-- The removal of a node that has no left son: `removeLeaf` or `removeOneSon`. -/
theorem removeLow_sim (t : AVLtree T F) (path : List (Frame T F)) (a : Nat) (k : T) (v : F)
    (h : Int) (r : Shape T F) (hm : ModelsAt t path (node a nil k v h r)) :
    ∃ t', (do
        if (← getNumOfSons t.mem (some a)) = 0 then removeLeaf t (some a)
        else removeOneSon t (some a)) = .ok (t', ctxPtr path none) ∧
      ModelsAt t' path r ∧ t'.next = t.next ∧ t'.size = wrapInt (t.size - 1) := by
  cases r with
  | nil =>
    obtain ⟨t', h1, h2, h3, h4⟩ := removeLeaf_sim t path a k v h hm
    exact ⟨t', by simp [hm.getNumOfSons, bind, Except.bind, h1], h2, h3, h4⟩
  | node rn rl rk rv rh rr =>
    obtain ⟨t', h1, h2, h3, h4⟩ := removeOneSon_sim_right t path a rn k rk v rv h rh rl rr hm
    exact ⟨t', by simp [hm.getNumOfSons, bind, Except.bind, h1], h2, h3, h4⟩

theorem allLeft_head (ps : List (Frame T F)) (h : AllLeft ps) (hne : ps ≠ []) :
    ∃ p2 pk pv ph pr rest, ps = Frame.L p2 pk pv ph pr :: rest := by
  cases ps with
  | nil => exact absurd rfl hne
  | cons f fs =>
    cases f with
    | L p2 pk pv ph pr => exact ⟨p2, pk, pv, ph, pr, fs, rfl⟩
    | R _ _ _ _ _ => exact absurd h (by simp [AllLeft])

theorem changeNodePlaces_sim (t : AVLtree T F) (rest path : List (Frame T F))
    (a n2 p2 : Nat) (k k2 pk : T) (v v2 pv : F) (h h2 ph : Int) (l r2 pr : Shape T F)
    (hm : ModelsAt t (Frame.L p2 pk pv ph pr :: rest ++ Frame.R a l k v h :: path)
      (node n2 nil k2 v2 h2 r2)) :
    ∃ t', changeNodePlaces t (some a) (some n2) = .ok t' ∧
      ModelsAt t' (Frame.L p2 pk pv ph pr :: rest ++ Frame.R n2 l k2 v2 h :: path)
        (node a nil k v h2 r2) ∧
      t'.next = t.next ∧ t'.size = t.size := by
  cases rest with
  | nil => exact changeNodePlaces_sim_one t path a n2 p2 k k2 pk v v2 pv h h2 ph l r2 pr hm
  | cons g gs =>
    exact changeNodePlaces_sim_deep t (g :: gs) path a n2 p2 k k2 pk v v2 pv h h2 ph l r2 pr
      (by simp) hm

theorem removeNodeInTheMiddle_sim (t : AVLtree T F) (path path' : List (Frame T F))
    (a rn : Nat) (k rk : T) (v rv : F) (h rh : Int) (l rl rr s' : Shape T F)
    (hm : ModelsAt t path (node a l k v h (node rn rl rk rv rh rr)))
    (hd : detachMiddle path (node a l k v h (node rn rl rk rv rh rr)) = some (path', s')) :
    ∃ t', removeNodeInTheMiddle t (some a) = .ok (t', ctxPtr path' none) ∧
      ModelsAt t' path' s' ∧ t'.next = t.next ∧ t'.size = wrapInt (t.size - 1) := by
  have hsub := hm.sub
  simp only [holds_node] at hsub
  obtain ⟨ha, hl, hr, hrl, hrr⟩ := hsub
  simp only [ptr_node] at ha
  cases rl with
  | nil =>
    simp only [detachMiddle, ptr_nil, if_true, Option.some.injEq, Prod.mk.injEq] at hd
    obtain ⟨rfl, rfl⟩ := hd
    obtain ⟨t1, h1, hm1, hn1, hs1⟩ :=
      changePlacesParentRightSon_sim t path a rn k rk v rv h rh l rr hm
    obtain ⟨t', h2, hm2, hn2, hs2⟩ := removeLow_sim t1 _ a k v h rr hm1
    refine ⟨t', ?_, hm2, by omega, by rw [hs2, hs1]⟩
    simp only [ptr_nil] at hr
    simp only [removeNodeInTheMiddle, getSonRight, getSonLeft, deref, ha, hr, Except.map, bind,
      Except.bind, if_true, h1]
    simpa only [bind, Except.bind] using h2
  | node xn xl xk xv xh xr =>
    have hlm := leftmost_append (node rn (node xn xl xk xv xh xr) rk rv rh rr)
      (Frame.R a l k v h :: path)
    obtain ⟨n2, k2, v2, h2, r2, hs2⟩ :=
      leftmost_node (node rn (node xn xl xk xv xh xr) rk rv rh rr) [] (by simp)
    have hal := leftmost_allLeft (node rn (node xn xl xk xv xh xr) rk rv rh rr) []
      (by simp [AllLeft])
    have hne : (leftmost (node rn (node xn xl xk xv xh xr) rk rv rh rr) []).1 ≠ [] := by
      rw [leftmost_step, leftmost_append]
      simp
    obtain ⟨p2, pk, pv, ph, pr, rest, hp2⟩ := allLeft_head _ hal hne
    have hsz := hm.size_le
    obtain ⟨hloop, hmz⟩ := leftmostLoop_sim (node rn (node xn xl xk xv xh xr) rk rv rh rr)
      (Frame.R a l k v h :: path) t (t.next + 1) hm.down_right (by simp)
      (by simp only [Shape.count] at hsz ⊢; omega)
    rw [hlm] at hloop hmz
    simp only [hs2, hp2, ptr_node] at hloop hmz
    generalize hq : leftmost (node rn (node xn xl xk xv xh xr) rk rv rh rr) [] = q at hd hs2 hp2
    obtain ⟨q1, q2⟩ := q
    simp only at hs2 hp2
    subst hs2 hp2
    simp only [detachMiddle, ptr_node, hq, Option.some.injEq, Prod.mk.injEq] at hd
    simp only [reduceCtorEq, if_false, Option.some.injEq, Prod.mk.injEq] at hd
    obtain ⟨rfl, rfl⟩ := hd
    obtain ⟨t1, h1, hm1, hn1, hs1⟩ :=
      changeNodePlaces_sim t rest path a n2 p2 k k2 pk v v2 pv h h2 ph l r2 pr hmz
    obtain ⟨t', h2', hm2, hn2, hs2⟩ := removeLow_sim t1 _ a k v h2 r2 hm1
    refine ⟨t', ?_, hm2, by omega, by rw [hs2, hs1]⟩
    simp only [removeNodeInTheMiddle, getSonRight, getSonLeft, deref, ha, hr, Except.map, bind,
      Except.bind, ptr_node, reduceCtorEq, if_false, hloop, h1]
    simpa only [bind, Except.bind] using h2'

theorem detach_sim (t : AVLtree T F) (path path' : List (Frame T F)) (a : Nat) (k : T)
    (v : F) (h : Int) (l r s' : Shape T F)
    (hm : ModelsAt t path (node a l k v h r))
    (hd : detach path (node a l k v h r) = some (path', s')) :
    ∃ t', (do
        let numOfSons ← getNumOfSons t.mem (some a)
        let (t1, parentNodeToRemove) ←
          if numOfSons = 0 then removeLeaf t (some a) else pure (t, (none : Ptr))
        let (t2, parentNodeToRemove) ←
          if numOfSons = 1 then removeOneSon t1 (some a)
          else pure (t1, parentNodeToRemove)
        let (t3, parentNodeToRemove) ←
          if numOfSons > 1 then removeNodeInTheMiddle t2 (some a)
          else pure (t2, parentNodeToRemove)
        if parentNodeToRemove.isSome then checkBalance t3 parentNodeToRemove
        else pure t3) =
        (if (ctxPtr path' none).isSome then checkBalance t' (ctxPtr path' none)
          else pure t') ∧
      ModelsAt t' path' s' ∧ t'.next = t.next ∧ t'.size = wrapInt (t.size - 1) := by
  cases l with
  | nil =>
    cases r with
    | nil =>
      simp only [detach, ptr_nil, Option.isSome_none, Bool.false_eq_true, if_false, add_zero,
        if_true, Option.some.injEq, Prod.mk.injEq] at hd
      obtain ⟨rfl, rfl⟩ := hd
      obtain ⟨t', h1, h2, h3, h4⟩ := removeLeaf_sim t path a k v h hm
      exact ⟨t', by simp [hm.getNumOfSons, bind, Except.bind, h1, pure, Except.pure], h2, h3, h4⟩
    | node rn rl rk rv rh rr =>
      simp only [detach, ptr_nil, ptr_node, Option.isSome_none, Option.isSome_some,
        Bool.false_eq_true, if_false, if_true, zero_add, one_ne_zero, Option.some.injEq,
        Prod.mk.injEq] at hd
      obtain ⟨rfl, rfl⟩ := hd
      obtain ⟨t', h1, h2, h3, h4⟩ := removeOneSon_sim_right t path a rn k rk v rv h rh rl rr hm
      exact ⟨t', by simp [hm.getNumOfSons, bind, Except.bind, h1, pure, Except.pure], h2, h3, h4⟩
  | node ln ll lk lv lh lr =>
    cases r with
    | nil =>
      simp only [detach, ptr_nil, ptr_node, Option.isSome_none, Option.isSome_some,
        Bool.false_eq_true, if_false, if_true, add_zero, one_ne_zero, Option.some.injEq,
        Prod.mk.injEq] at hd
      obtain ⟨rfl, rfl⟩ := hd
      obtain ⟨t', h1, h2, h3, h4⟩ := removeOneSon_sim_left t path a ln k lk v lv h lh ll lr hm
      exact ⟨t', by simp [hm.getNumOfSons, bind, Except.bind, h1, pure, Except.pure], h2, h3, h4⟩
    | node rn rl rk rv rh rr =>
      have h20 : ¬ ((1 : Int) + 1 = 0) := by omega
      have h21 : ¬ ((1 : Int) + 1 = 1) := by omega
      simp only [detach, ptr_node, Option.isSome_some, if_true, h20, h21, if_false] at hd
      obtain ⟨t', h1, h2, h3, h4⟩ :=
        removeNodeInTheMiddle_sim t path path' a rn k rk v rv h rh _ rl rr s' hm hd
      exact ⟨t', by simp [hm.getNumOfSons, bind, Except.bind, h1, pure, Except.pure], h2, h3, h4⟩

section Ordered

variable [LinearOrder T]

theorem removeNode_sim (t : AVLtree T F) (s s' : Shape T F) (key : T)
    (hm : Models t s) (hp : removeP key s = some s') :
    ∃ t', removeNode t key = .ok t' ∧ Models t' s' ∧ t'.next = t.next ∧
      t'.size = wrapInt (t.size - 1) := by
  cases s with
  | nil => simp [removeP, descend] at hp
  | node a l k v h r =>
    obtain ⟨hfind, hm0, hne⟩ := findNode_sim key t (node a l k v h r) hm (by simp)
    have hr := hm.root
    simp only [ctxRoot_nil, ptr_node] at hr
    simp only [removeP] at hp
    rcases hd : descend key (node a l k v h r) [] with ⟨path, s0⟩
    rw [hd] at hfind hm0 hne hp
    simp only at hfind hm0 hne hp
    cases s0 with
    | nil => exact absurd rfl hne
    | node a0 l0 k0 v0 h0 r0 =>
      simp only at hp
      by_cases hk : k0 = key
      · simp only [hk, ne_eq, not_true_eq_false, if_false] at hp
        cases hdt : detach path (node a0 l0 key v0 h0 r0) with
        | none => simp [hk, hdt] at hp
        | some z =>
          obtain ⟨path', s1⟩ := z
          subst hk
          simp only [hdt] at hp
          obtain ⟨t1, h1, hm1, hn1, hs1⟩ := detach_sim t path path' a0 k0 v0 h0 l0 r0 s1 hm0 hdt
          obtain ⟨t', hM, hn, hs, hc1, hc2⟩ := finish_sim t1 path' s1 s' hm1 hp
          refine ⟨t', ?_, hM, by omega, by omega⟩
          have hkey : getKey t.mem (some a0) = .ok k0 := by
            have := hm0.sub
            simp only [holds_node] at this
            simp [getKey, deref, this.1, Except.map]
          simp only [removeNode, hr, hfind, ptr_node, bind, Except.bind, hkey, ne_eq,
            not_true_eq_false, if_false]
          simp only [bind, Except.bind] at h1
          rw [h1]
          by_cases hpar : (ctxPtr path' none).isSome = true
          · simp [hpar, hc1 hpar]
          · simp only [Bool.not_eq_true] at hpar
            simp [hpar, hc2 hpar, pure, Except.pure]
      · simp [hk] at hp

theorem removeNode_absent (t : AVLtree T F) (s : Shape T F) (key : T)
    (hm : Models t s) (hp : hit key s = none) :
    removeNode t key = .error .KeyDoesNotExist := by
  cases s with
  | nil =>
    have hr := hm.root
    simp only [ctxRoot_nil, ptr_nil] at hr
    simp [removeNode, hr]
  | node a l k v h r =>
    obtain ⟨hfind, hm0, hne⟩ := findNode_sim key t (node a l k v h r) hm (by simp)
    have hr := hm.root
    simp only [ctxRoot_nil, ptr_node] at hr
    simp only [hit] at hp
    rcases hd : descend key (node a l k v h r) [] with ⟨path, s0⟩
    rw [hd] at hfind hm0 hne hp
    simp only at hfind hm0 hne hp
    cases s0 with
    | nil => exact absurd rfl hne
    | node a0 l0 k0 v0 h0 r0 =>
      simp only at hp
      have hk : ¬ k0 = key := by
        intro e
        simp [e] at hp
      have hkey : getKey t.mem (some a0) = .ok k0 := by
        have := hm0.sub
        simp only [holds_node] at this
        simp [getKey, deref, this.1, Except.map]
      simp [removeNode, hr, hfind, bind, Except.bind, hkey, hk]

end Ordered

/-! ## Arithmetic of the rotations -/

theorem arith_LL (A B C lh hl0 hr0 h : Int)
    (hb1 : -1 ≤ A - B ∧ A - B ≤ 1) (hh1 : lh = 1 + max A B)
    (h2 : lh - C = 2) (hf : A - B ≥ 0)
    (hb0 : -1 ≤ hl0 - hr0 ∧ hl0 - hr0 ≤ 1)
    (hch : (lh = hl0 ∧ -1 ≤ C - hr0 ∧ C - hr0 ≤ 1) ∨ (C = hr0 ∧ -1 ≤ lh - hl0 ∧ lh - hl0 ≤ 1))
    (hst : h = 1 + max hl0 hr0 ∨ h < max lh C) :
    ((-1 ≤ A - (1 + max B C) ∧ A - (1 + max B C) ≤ 1) ∧ (-1 ≤ B - C ∧ B - C ≤ 1)) ∧
    (1 + max A (1 + max B C) = h → 1 + max A (1 + max B C) = 1 + max hl0 hr0) ∧
    (-1 ≤ 1 + max A (1 + max B C) - (1 + max hl0 hr0) ∧
      1 + max A (1 + max B C) - (1 + max hl0 hr0) ≤ 1) := by
  have e1 : max A B = A := max_eq_left (by omega)
  rw [e1] at hh1
  have e2 : max B C = B := max_eq_left (by omega)
  have e3 : max A (1 + B) = 1 + B := max_eq_right (by omega)
  have e4 : max lh C = lh := max_eq_left (by omega)
  rw [e2, e3]
  rw [e4] at hst
  clear e1 e2 e3 e4
  rcases max_cases hl0 hr0 with ⟨e, e'⟩ | ⟨e, e'⟩ <;> rw [e] <;> rw [e] at hst <;> clear e <;>
    refine ⟨by omega, ?_, ?_⟩ <;> omega

theorem arith_LR (A D E C lrh lh hl0 hr0 h : Int)
    (hb1 : -1 ≤ A - lrh ∧ A - lrh ≤ 1) (hh1 : lh = 1 + max A lrh)
    (hb2 : -1 ≤ D - E ∧ D - E ≤ 1) (hh2 : lrh = 1 + max D E)
    (h2 : lh - C = 2) (hf : ¬ A - lrh ≥ 0)
    (hb0 : -1 ≤ hl0 - hr0 ∧ hl0 - hr0 ≤ 1)
    (hch : (lh = hl0 ∧ -1 ≤ C - hr0 ∧ C - hr0 ≤ 1) ∨ (C = hr0 ∧ -1 ≤ lh - hl0 ∧ lh - hl0 ≤ 1))
    (hst : h = 1 + max hl0 hr0 ∨ h < max lh C) :
    ((-1 ≤ 1 + max A D - (1 + max E C) ∧ 1 + max A D - (1 + max E C) ≤ 1) ∧
      (-1 ≤ A - D ∧ A - D ≤ 1) ∧ (-1 ≤ E - C ∧ E - C ≤ 1)) ∧
    (1 + max (1 + max A D) (1 + max E C) = h →
      1 + max (1 + max A D) (1 + max E C) = 1 + max hl0 hr0) ∧
    (-1 ≤ 1 + max (1 + max A D) (1 + max E C) - (1 + max hl0 hr0) ∧
      1 + max (1 + max A D) (1 + max E C) - (1 + max hl0 hr0) ≤ 1) := by
  have e1 : max A lrh = lrh := max_eq_right (by omega)
  rw [e1] at hh1
  have e4 : max lh C = lh := max_eq_left (by omega)
  rw [e4] at hst
  have e5 : max D E = A := by omega
  have hDE : D = A ∨ E = A := by omega
  have hD := le_max_left D E
  have hE := le_max_right D E
  rw [e5] at hh2 hD hE
  clear e5
  have e2 : max A D = A := max_eq_left (by omega)
  have e3 : max E C = C := max_eq_right (by omega)
  have e6 : max (1 + A) (1 + C) = 1 + A := max_eq_left (by omega)
  rw [e2, e3, e6]
  clear e1 e4 e2 e3 e6
  rcases max_cases hl0 hr0 with ⟨e, e'⟩ | ⟨e, e'⟩ <;> rw [e] <;> rw [e] at hst <;> clear e <;>
    refine ⟨by omega, ?_, ?_⟩ <;> omega

theorem arith_RL (L D E R rlh rh hl0 hr0 h : Int)
    (hh1 : rh = 1 + max rlh R)
    (hb2 : -1 ≤ D - E ∧ D - E ≤ 1) (hh2 : rlh = 1 + max D E)
    (h2 : L - rh = -2) (hf : rlh - R = 1)
    (hb0 : -1 ≤ hl0 - hr0 ∧ hl0 - hr0 ≤ 1)
    (hch : (L = hl0 ∧ -1 ≤ rh - hr0 ∧ rh - hr0 ≤ 1) ∨ (rh = hr0 ∧ -1 ≤ L - hl0 ∧ L - hl0 ≤ 1))
    (hst : h = 1 + max hl0 hr0 ∨ h < max L rh) :
    ((-1 ≤ 1 + max L D - (1 + max E R) ∧ 1 + max L D - (1 + max E R) ≤ 1) ∧
      (-1 ≤ L - D ∧ L - D ≤ 1) ∧ (-1 ≤ E - R ∧ E - R ≤ 1)) ∧
    (1 + max (1 + max L D) (1 + max E R) = h →
      1 + max (1 + max L D) (1 + max E R) = 1 + max hl0 hr0) ∧
    (-1 ≤ 1 + max (1 + max L D) (1 + max E R) - (1 + max hl0 hr0) ∧
      1 + max (1 + max L D) (1 + max E R) - (1 + max hl0 hr0) ≤ 1) := by
  have e1 : max rlh R = rlh := max_eq_left (by omega)
  rw [e1] at hh1
  have e4 : max L rh = rh := max_eq_right (by omega)
  rw [e4] at hst
  have e5 : max D E = L := by omega
  have hDE : D = L ∨ E = L := by omega
  have hD := le_max_left D E
  have hE := le_max_right D E
  rw [e5] at hh2 hD hE
  clear e5
  have e2 : max L D = L := max_eq_left (by omega)
  have e3 : max E R = R := max_eq_right (by omega)
  have e6 : max (1 + L) (1 + R) = 1 + L := max_eq_left (by omega)
  rw [e2, e3, e6]
  clear e1 e4 e2 e3 e6
  rcases max_cases hl0 hr0 with ⟨e, e'⟩ | ⟨e, e'⟩ <;> rw [e] <;> rw [e] at hst <;> clear e <;>
    refine ⟨by omega, ?_, ?_⟩ <;> omega

theorem arith_RR (L X R rh hl0 hr0 h : Int)
    (hb1 : -1 ≤ X - R ∧ X - R ≤ 1) (hh1 : rh = 1 + max X R)
    (h2 : L - rh = -2) (hf : ¬ X - R = 1)
    (hb0 : -1 ≤ hl0 - hr0 ∧ hl0 - hr0 ≤ 1)
    (hch : (L = hl0 ∧ -1 ≤ rh - hr0 ∧ rh - hr0 ≤ 1) ∨ (rh = hr0 ∧ -1 ≤ L - hl0 ∧ L - hl0 ≤ 1))
    (hst : h = 1 + max hl0 hr0 ∨ h < max L rh) :
    ((-1 ≤ 1 + max L X - R ∧ 1 + max L X - R ≤ 1) ∧ (-1 ≤ L - X ∧ L - X ≤ 1)) ∧
    (1 + max (1 + max L X) R = h → 1 + max (1 + max L X) R = 1 + max hl0 hr0) ∧
    (-1 ≤ 1 + max (1 + max L X) R - (1 + max hl0 hr0) ∧
      1 + max (1 + max L X) R - (1 + max hl0 hr0) ≤ 1) := by
  have e1 : max X R = R := max_eq_right (by omega)
  rw [e1] at hh1
  have e4 : max L rh = rh := max_eq_right (by omega)
  rw [e4] at hst
  have e2 : max L X = X := max_eq_right (by omega)
  have e3 : max (1 + X) R = 1 + X := max_eq_left (by omega)
  rw [e2, e3]
  clear e1 e4 e2 e3
  rcases max_cases hl0 hr0 with ⟨e, e'⟩ | ⟨e, e'⟩ <;> rw [e] <;> rw [e] at hst <;> clear e <;>
    refine ⟨by omega, ?_, ?_⟩ <;> omega

/-! ## Heights and balance -/

theorem Shape.Balanced.hgt_ge : ∀ {s : Shape T F}, s.Balanced → -1 ≤ s.hgt
  | nil, _ => by simp
  | node _ l _ _ h r, hb => by
    have hl := hb.2.2.1.hgt_ge
    have hh := hb.2.1
    simp only [hgt_node]
    omega

theorem Shape.Balanced.ne_nil {s : Shape T F} (hb : s.Balanced) (h : 0 ≤ s.hgt) : s ≠ nil := by
  intro e
  subst e
  simp at h

theorem balanced_plug : ∀ (path : List (Frame T F)) (s : Shape T F),
    (plug path s).Balanced ↔ (s.Balanced ∧ PathOK path s.hgt)
  | [], s => by simp [PathOK]
  | Frame.L a k v h r :: fs, s => by
    rw [plug_cons, balanced_plug fs]
    simp only [fill_L, Shape.Balanced, hgt_node, PathOK]
    constructor
    · rintro ⟨⟨h1, h2, h3, h4⟩, h5⟩
      exact ⟨h3, h4, h1, h2, h5⟩
    · rintro ⟨h3, h4, h1, h2, h5⟩
      exact ⟨⟨h1, h2, h3, h4⟩, h5⟩
  | Frame.R a l k v h :: fs, s => by
    rw [plug_cons, balanced_plug fs]
    simp only [fill_R, Shape.Balanced, hgt_node, PathOK]
    constructor
    · rintro ⟨⟨h1, h2, h3, h4⟩, h5⟩
      exact ⟨h4, h3, h1, h2, h5⟩
    · rintro ⟨h4, h3, h1, h2, h5⟩
      exact ⟨⟨h1, h2, h3, h4⟩, h5⟩

theorem walk_up (f : Frame T F) (fs : List (Frame T F)) (s' : Shape T F) (H0 : Int)
    (hp : PathOK (f :: fs) H0) (hb : s'.Balanced)
    (hd : -1 ≤ s'.hgt - H0 ∧ s'.hgt - H0 ≤ 1) : Walk fs (f.fill s') := by
  cases f with
  | L a k v h r =>
    obtain ⟨h1, h2, h3, h4⟩ := hp
    refine ⟨hb, h1, H0, r.hgt, h2, ?_, Or.inr ⟨rfl, hd⟩, fun _ => Or.inl h3⟩
    rw [← h3]
    exact h4
  | R a l k v h =>
    obtain ⟨h1, h2, h3, h4⟩ := hp
    refine ⟨h1, hb, l.hgt, H0, h2, ?_, Or.inl ⟨rfl, hd⟩, fun _ => Or.inl h3⟩
    rw [← h3]
    exact h4

theorem arith_bal (L R hl0 hr0 : Int)
    (hbal : -1 ≤ L - R ∧ L - R ≤ 1) (hb0 : -1 ≤ hl0 - hr0 ∧ hl0 - hr0 ≤ 1)
    (hch : (L = hl0 ∧ -1 ≤ R - hr0 ∧ R - hr0 ≤ 1) ∨ (R = hr0 ∧ -1 ≤ L - hl0 ∧ L - hl0 ≤ 1)) :
    -1 ≤ 1 + max L R - (1 + max hl0 hr0) ∧ 1 + max L R - (1 + max hl0 hr0) ≤ 1 := by
  rcases max_cases hl0 hr0 with ⟨e, e'⟩ | ⟨e, e'⟩ <;> rw [e] <;> clear e <;>
    rcases max_cases L R with ⟨e, e''⟩ | ⟨e, e''⟩ <;> rw [e] <;> clear e <;> omega

theorem visit_walk_LL (path : List (Frame T F)) (a la : Nat) (ll lr r : Shape T F)
    (k lk : T) (v lv : F) (h lh : Int)
    (hw : Walk path (node a (node la ll lk lv lh lr) k v h r))
    (h2 : lh - r.hgt = 2) (hf : ll.hgt - lr.hgt ≥ 0) :
    ∃ c s', visit (node a (node la ll lk lv lh lr) k v h r) = some (c, s') ∧
      s'.Balanced ∧ s' ≠ nil ∧ (c = false → PathOK path s'.hgt) ∧
      (c = true → ∃ H0, PathOK path H0 ∧ -1 ≤ s'.hgt - H0 ∧ s'.hgt - H0 ≤ 1) := by
  obtain ⟨hl, hr, hl0, hr0, hb0, hp, hch, hst⟩ := hw
  obtain ⟨hb1, hh1, hll, hlr⟩ := hl
  simp only [hgt_node] at hch hst
  have hbal : ¬ (-1 ≤ lh - r.hgt ∧ lh - r.hgt ≤ 1) := by omega
  obtain ⟨⟨x1, x2⟩, x3, x4⟩ := arith_LL ll.hgt lr.hgt r.hgt lh hl0 hr0 h hb1 hh1
    h2 hf hb0 hch (hst hbal)
  refine ⟨decide ((1 + max ll.hgt (1 + max lr.hgt r.hgt)) ≠ h),
    node la ll lk lv (1 + max ll.hgt (1 + max lr.hgt r.hgt))
      (node a lr k v (1 + max lr.hgt r.hgt) r), ?_, ?_, by simp, ?_, ?_⟩
  · simp only [visit, hgt_node]
    rw [if_neg hbal]
    simp only [hgt_node, if_false, if_true, rebalance, h2, if_true, Shape.bf, hf, rotLL]
  · exact ⟨x1, rfl, hll, x2, rfl, hlr, hr⟩
  · intro hc
    simp only [ne_eq, decide_eq_false_iff_not, not_not] at hc
    simp only [hgt_node]
    rw [x3 hc]
    exact hp
  · intro _
    exact ⟨_, hp, x4⟩

theorem visit_walk_LR (path : List (Frame T F)) (a la lra : Nat) (ll lrl lrr r : Shape T F)
    (k lk lrk : T) (v lv lrv : F) (h lh lrh : Int)
    (hw : Walk path (node a (node la ll lk lv lh (node lra lrl lrk lrv lrh lrr)) k v h r))
    (h2 : lh - r.hgt = 2) (hf : ¬ ll.hgt - lrh ≥ 0) :
    ∃ c s', visit (node a (node la ll lk lv lh (node lra lrl lrk lrv lrh lrr)) k v h r) =
        some (c, s') ∧
      s'.Balanced ∧ s' ≠ nil ∧ (c = false → PathOK path s'.hgt) ∧
      (c = true → ∃ H0, PathOK path H0 ∧ -1 ≤ s'.hgt - H0 ∧ s'.hgt - H0 ≤ 1) := by
  obtain ⟨hl, hr, hl0, hr0, hb0, hp, hch, hst⟩ := hw
  obtain ⟨hb1, hh1, hll, hlr⟩ := hl
  obtain ⟨hb2, hh2, hlrl, hlrr⟩ := hlr
  simp only [hgt_node] at hch hst hb1 hh1
  have hbal : ¬ (-1 ≤ lh - r.hgt ∧ lh - r.hgt ≤ 1) := by omega
  obtain ⟨⟨x1, x2, x5⟩, x3, x4⟩ := arith_LR ll.hgt lrl.hgt lrr.hgt r.hgt lrh lh hl0 hr0 h
    hb1 hh1 hb2 hh2 h2 hf hb0 hch (hst hbal)
  refine ⟨decide ((1 + max (1 + max ll.hgt lrl.hgt) (1 + max lrr.hgt r.hgt)) ≠ h),
    node lra (node la ll lk lv (1 + max ll.hgt lrl.hgt) lrl) lrk lrv
      (1 + max (1 + max ll.hgt lrl.hgt) (1 + max lrr.hgt r.hgt))
      (node a lrr k v (1 + max lrr.hgt r.hgt) r), ?_, ?_, by simp, ?_, ?_⟩
  · simp only [visit, hgt_node]
    rw [if_neg hbal]
    simp only [hgt_node, if_false, if_true, rebalance, h2, if_true, Shape.bf, hf, rotLR]
  · exact ⟨x1, rfl, ⟨x2, rfl, hll, hlrl⟩, x5, rfl, hlrr, hr⟩
  · intro hc
    simp only [ne_eq, decide_eq_false_iff_not, not_not] at hc
    simp only [hgt_node]
    rw [x3 hc]
    exact hp
  · intro _
    exact ⟨_, hp, x4⟩

theorem visit_walk_RL (path : List (Frame T F)) (a ra rla : Nat) (l rll rlr rr : Shape T F)
    (k rk rlk : T) (v rv rlv : F) (h rh rlh : Int)
    (hw : Walk path (node a l k v h (node ra (node rla rll rlk rlv rlh rlr) rk rv rh rr)))
    (h2 : l.hgt - rh = -2) (hf : rlh - rr.hgt = 1) :
    ∃ c s', visit (node a l k v h (node ra (node rla rll rlk rlv rlh rlr) rk rv rh rr)) =
        some (c, s') ∧
      s'.Balanced ∧ s' ≠ nil ∧ (c = false → PathOK path s'.hgt) ∧
      (c = true → ∃ H0, PathOK path H0 ∧ -1 ≤ s'.hgt - H0 ∧ s'.hgt - H0 ≤ 1) := by
  obtain ⟨hl, hr, hl0, hr0, hb0, hp, hch, hst⟩ := hw
  obtain ⟨hb1, hh1, hrl, hrr⟩ := hr
  obtain ⟨hb2, hh2, hrll, hrlr⟩ := hrl
  simp only [hgt_node] at hch hst hb1 hh1
  have hbal : ¬ (-1 ≤ l.hgt - rh ∧ l.hgt - rh ≤ 1) := by omega
  have h2n : ¬ l.hgt - rh = 2 := by omega
  obtain ⟨⟨x1, x2, x5⟩, x3, x4⟩ := arith_RL l.hgt rll.hgt rlr.hgt rr.hgt rlh rh hl0 hr0 h
    hh1 hb2 hh2 h2 hf hb0 hch (hst hbal)
  refine ⟨decide ((1 + max (1 + max l.hgt rll.hgt) (1 + max rlr.hgt rr.hgt)) ≠ h),
    node rla (node a l k v (1 + max l.hgt rll.hgt) rll) rlk rlv
      (1 + max (1 + max l.hgt rll.hgt) (1 + max rlr.hgt rr.hgt))
      (node ra rlr rk rv (1 + max rlr.hgt rr.hgt) rr), ?_, ?_, by simp, ?_, ?_⟩
  · simp only [visit, hgt_node]
    rw [if_neg hbal]
    simp only [hgt_node, if_false, if_true, rebalance, h2n, Shape.bf, hf, if_true, rotRL]
  · exact ⟨x1, rfl, ⟨x2, rfl, hl, hrll⟩, x5, rfl, hrlr, hrr⟩
  · intro hc
    simp only [ne_eq, decide_eq_false_iff_not, not_not] at hc
    simp only [hgt_node]
    rw [x3 hc]
    exact hp
  · intro _
    exact ⟨_, hp, x4⟩

theorem visit_walk_RR (path : List (Frame T F)) (a ra : Nat) (l rl rr : Shape T F)
    (k rk : T) (v rv : F) (h rh : Int)
    (hw : Walk path (node a l k v h (node ra rl rk rv rh rr)))
    (h2 : l.hgt - rh = -2) (hf : ¬ rl.hgt - rr.hgt = 1) :
    ∃ c s', visit (node a l k v h (node ra rl rk rv rh rr)) = some (c, s') ∧
      s'.Balanced ∧ s' ≠ nil ∧ (c = false → PathOK path s'.hgt) ∧
      (c = true → ∃ H0, PathOK path H0 ∧ -1 ≤ s'.hgt - H0 ∧ s'.hgt - H0 ≤ 1) := by
  obtain ⟨hl, hr, hl0, hr0, hb0, hp, hch, hst⟩ := hw
  obtain ⟨hb1, hh1, hrl, hrr⟩ := hr
  simp only [hgt_node] at hch hst
  have hbal : ¬ (-1 ≤ l.hgt - rh ∧ l.hgt - rh ≤ 1) := by omega
  have h2n : ¬ l.hgt - rh = 2 := by omega
  obtain ⟨⟨x1, x2⟩, x3, x4⟩ := arith_RR l.hgt rl.hgt rr.hgt rh hl0 hr0 h hb1 hh1
    h2 hf hb0 hch (hst hbal)
  refine ⟨decide ((1 + max (1 + max l.hgt rl.hgt) rr.hgt) ≠ h),
    node ra (node a l k v (1 + max l.hgt rl.hgt) rl) rk rv
      (1 + max (1 + max l.hgt rl.hgt) rr.hgt) rr, ?_, ?_, by simp, ?_, ?_⟩
  · simp only [visit, hgt_node]
    rw [if_neg hbal]
    simp only [hgt_node, if_false, if_true, rebalance, h2n, Shape.bf, hf, rotRR]
  · exact ⟨x1, rfl, ⟨x2, rfl, hl, hrl⟩, hrr⟩
  · intro hc
    simp only [ne_eq, decide_eq_false_iff_not, not_not] at hc
    simp only [hgt_node]
    rw [x3 hc]
    exact hp
  · intro _
    exact ⟨_, hp, x4⟩

/-- One round of `checkBalance` at a node in the state `Walk`: the subtree is valid
afterwards; when the loop stops, the ancestors fit its height; when it goes on, its
height differs by at most 1 from the height the ancestors fit. -/
theorem visit_walk (path : List (Frame T F)) (s : Shape T F) (hw : Walk path s) :
    ∃ c s', visit s = some (c, s') ∧ s'.Balanced ∧ s' ≠ nil ∧
      (c = false → PathOK path s'.hgt) ∧
      (c = true → ∃ H0, PathOK path H0 ∧ -1 ≤ s'.hgt - H0 ∧ s'.hgt - H0 ≤ 1) := by
  cases s with
  | nil => exact absurd hw (by simp [Walk])
  | node a l k v h r =>
    have hw0 := hw
    obtain ⟨hl, hr, hl0, hr0, hb0, hp, hch, hst⟩ := hw
    have hlg := hl.hgt_ge
    have hrg := hr.hgt_ge
    by_cases hbal : -1 ≤ l.hgt - r.hgt ∧ l.hgt - r.hgt ≤ 1
    · refine ⟨true, node a l k v (1 + max l.hgt r.hgt) r, by simp [visit, hbal],
        ⟨hbal, rfl, hl, hr⟩, by simp, by simp, fun _ => ⟨_, hp, ?_⟩⟩
      simp only [hgt_node]
      exact arith_bal _ _ _ _ hbal hb0 hch
    · by_cases h2 : l.hgt - r.hgt = 2
      · have hlne := hl.ne_nil (by omega)
        cases l with
        | nil => exact absurd rfl hlne
        | node la ll lk lv lh lr =>
          by_cases hf : ll.hgt - lr.hgt ≥ 0
          · exact visit_walk_LL path a la ll lr r k lk v lv h lh hw0 h2 hf
          · have hlrg := hl.2.2.1.hgt_ge
            have hlrne := hl.2.2.2.ne_nil (by omega)
            cases lr with
            | nil => exact absurd rfl hlrne
            | node lra lrl lrk lrv lrh lrr =>
              exact visit_walk_LR path a la lra ll lrl lrr r k lk lrk v lv lrv h lh lrh hw0 h2 hf
      · have h2n : l.hgt - r.hgt = -2 := by omega
        have hrne := hr.ne_nil (by omega)
        cases r with
        | nil => exact absurd rfl hrne
        | node ra rl rk rv rh rr =>
          by_cases hf : rl.hgt - rr.hgt = 1
          · have hrrg := hr.2.2.2.hgt_ge
            have hrlne := hr.2.2.1.ne_nil (by omega)
            cases rl with
            | nil => exact absurd rfl hrlne
            | node rla rll rlk rlv rlh rlr =>
              exact visit_walk_RL path a ra rla l rll rlr rr k rk rlk v rv rlv h rh rlh hw0 h2n hf
          · exact visit_walk_RR path a ra l rl rr k rk v rv h rh hw0 h2n hf

/-! ## The walk of `checkBalance` ends with a valid tree -/

theorem climb_walk : ∀ (path : List (Frame T F)) (s : Shape T F), Walk path s →
    ∃ r, climb path s = some r ∧ r.Balanced
  | [], s, hw => by
    obtain ⟨c, s', hv, hb, _, _, _⟩ := visit_walk [] s hw
    exact ⟨s', by simp [climb, hv], hb⟩
  | f :: fs, s, hw => by
    obtain ⟨c, s', hv, hb, _, hstop, hgo⟩ := visit_walk (f :: fs) s hw
    cases c with
    | false =>
      refine ⟨plug (f :: fs) s', by simp [climb, hv], ?_⟩
      exact (balanced_plug (f :: fs) s').2 ⟨hb, hstop rfl⟩
    | true =>
      obtain ⟨H0, hp, hd⟩ := hgo rfl
      obtain ⟨r, hr, hrb⟩ := climb_walk fs (f.fill s') (walk_up f fs s' H0 hp hb hd)
      exact ⟨r, by simp [climb, hv, hr], hrb⟩

theorem finish_walk (path : List (Frame T F)) (s1 : Shape T F) (H0 : Int)
    (hp : PathOK path H0) (hb : s1.Balanced)
    (hd : -1 ≤ s1.hgt - H0 ∧ s1.hgt - H0 ≤ 1) :
    ∃ r, finish (path, s1) = some r ∧ r.Balanced := by
  cases path with
  | nil => exact ⟨s1, rfl, hb⟩
  | cons f fs =>
    obtain ⟨r, hr, hrb⟩ := climb_walk fs (f.fill s1) (walk_up f fs s1 H0 hp hb hd)
    exact ⟨r, by simpa [finish] using hr, hrb⟩

/-- On a valid tree the walk of `checkBalance` changes nothing. -/
theorem visit_id (s : Shape T F) (hb : s.Balanced) (hne : s ≠ nil) :
    visit s = some (true, s) := by
  cases s with
  | nil => exact absurd rfl hne
  | node a l k v h r =>
    obtain ⟨h1, h2, _, _⟩ := hb
    simp only [visit]
    rw [if_pos h1, ← h2]

theorem fill_balanced (f : Frame T F) (fs : List (Frame T F)) (s : Shape T F)
    (hb : s.Balanced) (hp : PathOK (f :: fs) s.hgt) :
    (f.fill s).Balanced ∧ PathOK fs (f.fill s).hgt := by
  cases f with
  | L a k v h r =>
    obtain ⟨h1, h2, h3, h4⟩ := hp
    exact ⟨⟨h2, h3, hb, h1⟩, h4⟩
  | R a l k v h =>
    obtain ⟨h1, h2, h3, h4⟩ := hp
    exact ⟨⟨h2, h3, h1, hb⟩, h4⟩

theorem fill_ne_nil (f : Frame T F) (s : Shape T F) : f.fill s ≠ nil := by
  cases f <;> simp

theorem climb_id : ∀ (path : List (Frame T F)) (s : Shape T F), s.Balanced →
    PathOK path s.hgt → s ≠ nil → climb path s = some (plug path s)
  | [], s, hb, _, hne => by simp [climb, visit_id s hb hne]
  | f :: fs, s, hb, hp, hne => by
    obtain ⟨h1, h2⟩ := fill_balanced f fs s hb hp
    simp only [climb, visit_id s hb hne, plug_cons]
    exact climb_id fs (f.fill s) h1 h2 (fill_ne_nil f s)

theorem finish_id (path : List (Frame T F)) (s : Shape T F) (hb : s.Balanced)
    (hp : PathOK path s.hgt) : finish (path, s) = some (plug path s) := by
  cases path with
  | nil => rfl
  | cons f fs =>
    obtain ⟨h1, h2⟩ := fill_balanced f fs s hb hp
    simp only [finish, plug_cons]
    exact climb_id fs (f.fill s) h1 h2 (fill_ne_nil f s)

/-- The ancestors of a path of two parts. -/
theorem pathOK_append : ∀ (p q : List (Frame T F)) (hh : Int),
    PathOK (p ++ q) hh ↔ PathOK p hh ∧ PathOK q (topHgt p hh)
  | [], q, hh => by simp [PathOK, topHgt]
  | Frame.L a k v h r :: fs, q, hh => by
    have ih := pathOK_append fs q h
    rw [List.cons_append]
    simp only [PathOK, topHgt, and_assoc]
    rw [ih]
  | Frame.R a l k v h :: fs, q, hh => by
    have ih := pathOK_append fs q h
    rw [List.cons_append]
    simp only [PathOK, topHgt, and_assoc]
    rw [ih]

theorem hgt_plug : ∀ (p : List (Frame T F)) (s : Shape T F), (plug p s).hgt = topHgt p s.hgt
  | [], s => by simp [topHgt]
  | Frame.L a k v h r :: fs, s => by
    rw [plug_cons, hgt_plug fs]
    simp [topHgt]
  | Frame.R a l k v h :: fs, s => by
    rw [plug_cons, hgt_plug fs]
    simp [topHgt]

theorem leftmost_plug : ∀ (s : Shape T F) (path : List (Frame T F)),
    plug (leftmost s path).1 (leftmost s path).2 = plug path s
  | nil, path => rfl
  | node a l k v h r, path => by
    cases l with
    | nil => simp [leftmost]
    | node la ll lk lv lh lr =>
      have ih := leftmost_plug (node la ll lk lv lh lr) (Frame.L a k v h r :: path)
      simp only [leftmost, ptr_node, Option.isSome_some, if_true]
      simpa [leftmost] using ih

/-! ## The search path -/

section Ordered

variable [LinearOrder T]

theorem descend_eq (key : T) (a : Nat) (l r : Shape T F) (k : T) (v : F) (h : Int)
    (path : List (Frame T F)) (e : k = key) :
    descend key (node a l k v h r) path = (path, node a l k v h r) := by
  simp [descend, e]

theorem descend_left (key : T) (a la : Nat) (ll lr r : Shape T F) (k lk : T) (v lv : F)
    (h lh : Int) (path : List (Frame T F)) (e : key < k) :
    descend key (node a (node la ll lk lv lh lr) k v h r) path =
      descend key (node la ll lk lv lh lr) (Frame.L a k v h r :: path) := by
  rw [descend]
  simp [ne_of_gt e, e]

theorem descend_left_nil (key : T) (a : Nat) (r : Shape T F) (k : T) (v : F)
    (h : Int) (path : List (Frame T F)) (e : key < k) :
    descend key (node a nil k v h r) path = (path, node a nil k v h r) := by
  rw [descend]
  simp [ne_of_gt e, e]

theorem descend_right (key : T) (a ra : Nat) (l rl rr : Shape T F) (k rk : T) (v rv : F)
    (h rh : Int) (path : List (Frame T F)) (e : k < key) :
    descend key (node a l k v h (node ra rl rk rv rh rr)) path =
      descend key (node ra rl rk rv rh rr) (Frame.R a l k v h :: path) := by
  rw [descend]
  simp [ne_of_lt e, not_lt_of_gt e]

theorem descend_right_nil (key : T) (a : Nat) (l : Shape T F) (k : T) (v : F)
    (h : Int) (path : List (Frame T F)) (e : k < key) :
    descend key (node a l k v h nil) path = (path, node a l k v h nil) := by
  rw [descend]
  simp [ne_of_lt e, not_lt_of_gt e]

/-- The search keeps the tree, goes left at larger keys and right at smaller keys, and
stops at the key or where the son on the side of the key is absent. -/
theorem descend_spec (key : T) : ∀ (s : Shape T F) (path : List (Frame T F)),
    s ≠ nil → PathKeys key path →
    ∃ a l k v h r, (descend key s path).2 = node a l k v h r ∧
      plug (descend key s path).1 (node a l k v h r) = plug path s ∧
      PathKeys key (descend key s path).1 ∧
      (k = key ∨ (key < k ∧ l = nil) ∨ (k < key ∧ r = nil))
  | nil, _, hne, _ => absurd rfl hne
  | node a l k v h r, path, _, hpk => by
    rcases lt_trichotomy key k with e | e | e
    · cases l with
      | nil =>
        rw [descend_left_nil key a r k v h path e]
        exact ⟨a, nil, k, v, h, r, rfl, rfl, hpk, Or.inr (Or.inl ⟨e, rfl⟩)⟩
      | node la ll lk lv lh lr =>
        rw [descend_left key a la ll lr r k lk v lv h lh path e]
        exact descend_spec key (node la ll lk lv lh lr) (Frame.L a k v h r :: path)
          (by simp) ⟨e, hpk⟩
    · rw [descend_eq key a l r k v h path e.symm]
      exact ⟨a, l, k, v, h, r, rfl, rfl, hpk, Or.inl e.symm⟩
    · cases r with
      | nil =>
        rw [descend_right_nil key a l k v h path e]
        exact ⟨a, l, k, v, h, nil, rfl, rfl, hpk, Or.inr (Or.inr ⟨e, rfl⟩)⟩
      | node ra rl rk rv rh rr =>
        rw [descend_right key a ra l rl rr k rk v rv h rh path e]
        exact descend_spec key (node ra rl rk rv rh rr) (Frame.R a l k v h :: path)
          (by simp) ⟨e, hpk⟩

end Ordered

/-! ## Balance after `addNode` -/

theorem leaf_balanced (a : Nat) (k : T) (v : F) : (leaf a k v).Balanced := by
  simp [leaf, Shape.Balanced]

theorem attach_balanced [LinearOrder T] (nx : Nat) (key : T) (value : F) (a : Nat)
    (l r : Shape T F) (k : T) (v : F) (h : Int) (hb : (node a l k v h r).Balanced)
    (hstop : k = key ∨ (key < k ∧ l = nil) ∨ (k < key ∧ r = nil)) :
    (attach nx key value (node a l k v h r)).Balanced ∧
      -1 ≤ (attach nx key value (node a l k v h r)).hgt - h ∧
      (attach nx key value (node a l k v h r)).hgt - h ≤ 1 := by
  obtain ⟨h1, h2, hl, hr⟩ := hb
  have hlg := hl.hgt_ge
  have hrg := hr.hgt_ge
  rcases hstop with e | ⟨e, rfl⟩ | ⟨e, rfl⟩
  · simp only [attach, e, if_true, hgt_node]
    exact ⟨⟨h1, rfl, hl, hr⟩, by omega, by omega⟩
  · simp only [attach, ne_of_lt e, if_false, not_lt_of_gt e, gt_iff_lt, hgt_node, hgt_nil] at *
    refine ⟨⟨?_, rfl, leaf_balanced _ _ _, hr⟩, ?_, ?_⟩
    · simp only [leaf, hgt_node]
      omega
    · omega
    · omega
  · simp only [attach, ne_of_gt e, if_false, e, if_true, gt_iff_lt, hgt_node, hgt_nil] at *
    refine ⟨⟨?_, rfl, hl, leaf_balanced _ _ _⟩, ?_, ?_⟩
    · simp only [leaf, hgt_node]
      omega
    · omega
    · omega

theorem addNodeP_balanced [LinearOrder T] (nx : Nat) (key : T) (value : F) (s : Shape T F)
    (hb : s.Balanced) : ∃ s', addNodeP nx key value s = some s' ∧ s'.Balanced := by
  cases s with
  | nil => exact ⟨leaf nx key value, rfl, leaf_balanced _ _ _⟩
  | node a0 l0 k0 v0 h0 r0 =>
    obtain ⟨a, l, k, v, h, r, hd, hpl, _, hstop⟩ :=
      descend_spec key (node a0 l0 k0 v0 h0 r0) [] (by simp) trivial
    rw [plug_nil] at hpl
    rw [← hpl] at hb
    obtain ⟨hb0, hp⟩ := (balanced_plug _ _).1 hb
    obtain ⟨hb1, hd1⟩ := attach_balanced nx key value a l r k v h hb0 hstop
    obtain ⟨s', hs', hbs'⟩ := finish_walk _ _ h hp hb1 hd1
    refine ⟨s', ?_, hbs'⟩
    simp only [addNodeP]
    rw [← hs', ← hd]

/-! ## Balance after `removeNode` -/

/-- After the node has been taken out, the walk of `checkBalance` starts in the state
`Walk` at the parent of the place where a node is missing. -/
theorem detach_walk (path : List (Frame T F)) (a : Nat) (l r : Shape T F) (k : T) (v : F)
    (h : Int) (hb : (node a l k v h r).Balanced) (hp : PathOK path h) :
    ∃ path' s1, detach path (node a l k v h r) = some (path', s1) ∧
      (path' = [] → s1.Balanced) ∧ (∀ f fs, path' = f :: fs → Walk fs (f.fill s1)) := by
  obtain ⟨h1, h2, hl, hr⟩ := hb
  have hlg := hl.hgt_ge
  have hrg := hr.hgt_ge
  cases l with
  | nil =>
    cases r with
    | nil =>
      refine ⟨path, nil, by simp [detach], fun _ => trivial, ?_⟩
      rintro f fs rfl
      simp only [hgt_nil] at h2
      exact walk_up f fs nil h hp trivial (by simp only [hgt_nil]; omega)
    | node ra rl rk rv rh rr =>
      refine ⟨path, node ra rl rk rv rh rr, by simp [detach], fun _ => hr, ?_⟩
      rintro f fs rfl
      simp only [hgt_nil, hgt_node] at h1 h2 hrg
      exact walk_up f fs _ h hp hr (by simp only [hgt_node]; omega)
  | node la ll lk lv lh lr =>
    cases r with
    | nil =>
      refine ⟨path, node la ll lk lv lh lr, by simp [detach], fun _ => hl, ?_⟩
      rintro f fs rfl
      simp only [hgt_nil, hgt_node] at h1 h2 hlg
      exact walk_up f fs _ h hp hl (by simp only [hgt_node]; omega)
    | node ra rl rk rv rh rr =>
      obtain ⟨g1, g2, hrl, hrr⟩ := hr
      have hrlg := hrl.hgt_ge
      have hrrg := hrr.hgt_ge
      simp only [hgt_node] at h1 h2 hlg hrg
      cases rl with
      | nil =>
        refine ⟨Frame.R ra (node la ll lk lv lh lr) rk rv rh :: path, rr,
          by simp [detach, detachMiddle], by simp, ?_⟩
        intro f fs e
        simp only [List.cons.injEq] at e
        obtain ⟨rfl, rfl⟩ := e
        simp only [hgt_nil] at g1 g2
        refine ⟨hl, hrr, lh, rh, h1, ?_, Or.inl ⟨rfl, by omega, by omega⟩, ?_⟩
        · rw [← h2]
          exact hp
        · intro hnb
          right
          simp only [hgt_node] at hnb ⊢
          have e1 : max lh rr.hgt = lh := max_eq_left (by omega)
          rw [e1]
          omega
      | node rla rll rlk rlv rlh rlr =>
        obtain ⟨n2, k2, v2, h2', r2, hlm⟩ :=
          leftmost_node (node ra (node rla rll rlk rlv rlh rlr) rk rv rh rr) [] (by simp)
        have hpl := leftmost_plug (node ra (node rla rll rlk rlv rlh rlr) rk rv rh rr) []
        rcases hq : leftmost (node ra (node rla rll rlk rlv rlh rlr) rk rv rh rr) [] with
          ⟨path2, s2⟩
        rw [hq] at hlm hpl
        simp only at hlm hpl
        subst hlm
        rw [plug_nil] at hpl
        have hrb : (node ra (node rla rll rlk rlv rlh rlr) rk rv rh rr).Balanced :=
          ⟨g1, g2, hrl, hrr⟩
        rw [← hpl] at hrb
        obtain ⟨⟨q1, q2, _, hr2⟩, hp2⟩ := (balanced_plug _ _).1 hrb
        have hr2g := hr2.hgt_ge
        simp only [hgt_nil, hgt_node] at q1 q2 hp2
        have htop := hgt_plug path2 (node n2 nil k2 v2 h2' r2)
        rw [hpl] at htop
        simp only [hgt_node] at htop
        have hpo : PathOK (path2 ++ Frame.R n2 (node la ll lk lv lh lr) k2 v2 h :: path) h2' := by
          rw [pathOK_append]
          refine ⟨hp2, hl, ?_, ?_, hp⟩
          · rw [← htop]
            exact h1
          · rw [← htop]
            exact h2
        refine ⟨path2 ++ Frame.R n2 (node la ll lk lv lh lr) k2 v2 h :: path, r2,
          by simp [detach, detachMiddle, hq], ?_, ?_⟩
        · intro e
          simp at e
        · intro f fs e
          rw [e] at hpo
          exact walk_up f fs r2 h2' hpo hr2 (by omega)

theorem removeP_balanced [LinearOrder T] (key : T) (s : Shape T F) (hb : s.Balanced)
    (hh : hit key s ≠ none) : ∃ s', removeP key s = some s' ∧ s'.Balanced := by
  cases s with
  | nil => exact absurd rfl hh
  | node a0 l0 k0 v0 h0 r0 =>
    obtain ⟨a, l, k, v, h, r, hd, hpl, _, _⟩ :=
      descend_spec key (node a0 l0 k0 v0 h0 r0) [] (by simp) trivial
    rcases hq : descend key (node a0 l0 k0 v0 h0 r0) [] with ⟨path, s0⟩
    rw [hq] at hd hpl
    simp only at hd hpl
    subst hd
    have hk : k = key := by
      by_contra hne
      apply hh
      simp [hit, hq, hne]
    rw [plug_nil] at hpl
    rw [← hpl] at hb
    obtain ⟨hb0, hp⟩ := (balanced_plug _ _).1 hb
    obtain ⟨path', s1, hdt, hnil, hcons⟩ := detach_walk path a l r k v h hb0 hp
    simp only [removeP, hq, hk, ne_eq, not_true_eq_false, if_false]
    rw [← hk, hdt]
    cases path' with
    | nil => exact ⟨s1, rfl, hnil rfl⟩
    | cons f fs =>
      obtain ⟨r', hr', hbr'⟩ := climb_walk fs (f.fill s1) (hcons f fs rfl)
      exact ⟨r', by simpa [finish] using hr', hbr'⟩

/-! ## The nodes in in-order -/

@[simp] theorem cells_nil : (nil : Shape T F).cells = [] := rfl

@[simp] theorem cells_node (a : Nat) (l r : Shape T F) (k : T) (v : F) (h : Int) :
    (node a l k v h r).cells = l.cells ++ (a, k, v) :: r.cells := rfl

theorem toList_cells : ∀ s : Shape T F, s.toList = s.cells.map Prod.snd
  | nil => rfl
  | node a l k v h r => by
    simp [Shape.toList, toList_cells l, toList_cells r]

theorem keys_cells (s : Shape T F) : s.keys = s.cells.map (fun c => c.2.1) := by
  simp [Shape.keys, toList_cells, List.map_map, Function.comp_def]

theorem count_cells : ∀ s : Shape T F, s.count = s.cells.length
  | nil => rfl
  | node a l k v h r => by
    simp [Shape.count, count_cells l, count_cells r]
    omega

theorem cells_plug : ∀ (path : List (Frame T F)) (s : Shape T F),
    (plug path s).cells = pathL path ++ s.cells ++ pathR path
  | [], s => by simp [pathL, pathR]
  | Frame.L a k v h r :: fs, s => by
    rw [plug_cons, cells_plug fs]
    simp [pathL, pathR]
  | Frame.R a l k v h :: fs, s => by
    rw [plug_cons, cells_plug fs]
    simp [pathL, pathR]

theorem pathL_append : ∀ p q : List (Frame T F), pathL (p ++ q) = pathL q ++ pathL p
  | [], q => by simp [pathL]
  | Frame.L a k v h r :: fs, q => by
    rw [List.cons_append]
    simp only [pathL]
    exact pathL_append fs q
  | Frame.R a l k v h :: fs, q => by
    rw [List.cons_append]
    simp only [pathL]
    rw [pathL_append fs q]
    simp

theorem pathR_append : ∀ p q : List (Frame T F), pathR (p ++ q) = pathR p ++ pathR q
  | [], q => by simp [pathR]
  | Frame.L a k v h r :: fs, q => by
    rw [List.cons_append]
    simp only [pathR]
    rw [pathR_append fs q]
    simp
  | Frame.R a l k v h :: fs, q => by
    rw [List.cons_append]
    simp only [pathR]
    exact pathR_append fs q

theorem pathL_allLeft : ∀ p : List (Frame T F), AllLeft p → pathL p = []
  | [], _ => rfl
  | Frame.L a k v h r :: fs, hp => by
    simp only [pathL]
    exact pathL_allLeft fs hp
  | Frame.R a l k v h :: fs, hp => absurd hp (by simp [AllLeft])

theorem rotLL_cells (s s' : Shape T F) (h : rotLL s = some s') : s'.cells = s.cells := by
  unfold rotLL at h
  split at h
  · simp only [Option.some.injEq] at h
    subst h
    simp
  · cases h

theorem rotRR_cells (s s' : Shape T F) (h : rotRR s = some s') : s'.cells = s.cells := by
  unfold rotRR at h
  split at h
  · simp only [Option.some.injEq] at h
    subst h
    simp
  · cases h

theorem rotLR_cells (s s' : Shape T F) (h : rotLR s = some s') : s'.cells = s.cells := by
  unfold rotLR at h
  split at h
  · simp only [Option.some.injEq] at h
    subst h
    simp
  · cases h

theorem rotRL_cells (s s' : Shape T F) (h : rotRL s = some s') : s'.cells = s.cells := by
  unfold rotRL at h
  split at h
  · simp only [Option.some.injEq] at h
    subst h
    simp
  · cases h

theorem rebalance_cells (s s' : Shape T F) (h : rebalance s = some s') :
    s'.cells = s.cells := by
  cases s with
  | nil => cases h
  | node a l k v hh r =>
    simp only [rebalance] at h
    split at h
    · split at h
      · cases h
      · split at h
        · exact rotLL_cells _ _ h
        · exact rotLR_cells _ _ h
    · split at h
      · cases h
      · split at h
        · exact rotRL_cells _ _ h
        · exact rotRR_cells _ _ h

theorem visit_cells (s s' : Shape T F) (c : Bool) (h : visit s = some (c, s')) :
    s'.cells = s.cells := by
  cases s with
  | nil => cases h
  | node a l k v hh r =>
    simp only [visit] at h
    split at h
    · simp only [Option.some.injEq, Prod.mk.injEq] at h
      obtain ⟨_, rfl⟩ := h
      simp
    · split at h
      · cases h
      · rename_i s2 hr
        simp only [Option.some.injEq, Prod.mk.injEq] at h
        obtain ⟨_, rfl⟩ := h
        exact rebalance_cells _ _ hr

theorem climb_cells : ∀ (path : List (Frame T F)) (s r : Shape T F),
    climb path s = some r → r.cells = (plug path s).cells
  | [], s, r, h => by
    simp only [climb, Option.map_eq_some'] at h
    obtain ⟨⟨c, s'⟩, hv, rfl⟩ := h
    simpa using visit_cells s s' c hv
  | f :: fs, s, r, h => by
    simp only [climb] at h
    split at h
    · cases h
    · rename_i s' hv
      rw [climb_cells fs (f.fill s') r h, plug_cons, cells_plug, cells_plug]
      have := visit_cells s s' true hv
      cases f <;> simp [this]
    · rename_i s' hv
      simp only [Option.some.injEq] at h
      subst h
      rw [cells_plug, cells_plug, visit_cells s s' false hv]

theorem finish_cells (path : List (Frame T F)) (s r : Shape T F)
    (h : finish (path, s) = some r) : r.cells = (plug path s).cells := by
  cases path with
  | nil =>
    simp only [finish, Option.some.injEq] at h
    subst h
    rfl
  | cons f fs =>
    simp only [finish] at h
    rw [climb_cells fs (f.fill s) r h, plug_cons]

/-! ## The nodes after `removeNode` -/

theorem detach_cells (path path' : List (Frame T F)) (a : Nat) (l r s1 : Shape T F) (k : T)
    (v : F) (h : Int) (hd : detach path (node a l k v h r) = some (path', s1)) :
    (plug path' s1).cells = pathL path ++ (l.cells ++ r.cells) ++ pathR path := by
  cases l with
  | nil =>
    cases r with
    | nil =>
      simp [detach] at hd
      obtain ⟨rfl, rfl⟩ := hd
      simp [cells_plug]
    | node ra rl rk rv rh rr =>
      simp [detach] at hd
      obtain ⟨rfl, rfl⟩ := hd
      simp [cells_plug]
  | node la ll lk lv lh lr =>
    cases r with
    | nil =>
      simp [detach] at hd
      obtain ⟨rfl, rfl⟩ := hd
      simp [cells_plug]
    | node ra rl rk rv rh rr =>
      cases rl with
      | nil =>
        simp [detach, detachMiddle] at hd
        obtain ⟨rfl, rfl⟩ := hd
        simp [cells_plug, pathL, pathR]
      | node rla rll rlk rlv rlh rlr =>
        obtain ⟨n2, k2, v2, h2, r2, hlm⟩ :=
          leftmost_node (node ra (node rla rll rlk rlv rlh rlr) rk rv rh rr) [] (by simp)
        have hpl := leftmost_plug (node ra (node rla rll rlk rlv rlh rlr) rk rv rh rr) []
        have hal := leftmost_allLeft (node ra (node rla rll rlk rlv rlh rlr) rk rv rh rr) []
          trivial
        rcases hq : leftmost (node ra (node rla rll rlk rlv rlh rlr) rk rv rh rr) [] with
          ⟨path2, s2⟩
        rw [hq] at hlm hpl hal
        simp only at hlm hpl hal
        subst hlm
        rw [plug_nil] at hpl
        have hc := congrArg Shape.cells hpl
        rw [cells_plug, pathL_allLeft path2 hal] at hc
        simp [detach, detachMiddle, hq] at hd
        obtain ⟨rfl, rfl⟩ := hd
        rw [cells_plug, pathL_append, pathR_append, pathL_allLeft path2 hal, ← hc]
        simp [pathL, pathR]

theorem removeP_cells [LinearOrder T] (key : T) (s s' : Shape T F)
    (h : removeP key s = some s') :
    ∃ a v pre post, hit key s = some a ∧ s.cells = pre ++ (a, key, v) :: post ∧
      s'.cells = pre ++ post := by
  cases s with
  | nil => cases h
  | node a0 l0 k0 v0 h0 r0 =>
    obtain ⟨a, l, k, v, hh, r, hd, hpl, _, _⟩ :=
      descend_spec key (node a0 l0 k0 v0 h0 r0) [] (by simp) trivial
    rcases hq : descend key (node a0 l0 k0 v0 h0 r0) [] with ⟨path, s0⟩
    rw [hq] at hd hpl
    simp only at hd hpl
    subst hd
    rw [plug_nil] at hpl
    simp only [removeP, hq] at h
    split at h
    · cases h
    · rename_i hk
      simp only [ne_eq, not_not] at hk
      subst hk
      split at h
      · cases h
      · rename_i z hz
        obtain ⟨path', s1⟩ := z
        have h1 := finish_cells path' s1 s' h
        have h2 := detach_cells path path' a l r s1 k v hh hz
        refine ⟨a, v, pathL path ++ l.cells, r.cells ++ pathR path, by simp [hit, hq], ?_, ?_⟩
        · rw [← hpl, cells_plug]
          simp
        · rw [h1, h2]
          simp

theorem mem_keys (s : Shape T F) (x : T) : x ∈ s.keys ↔ ∃ c ∈ s.cells, c.2.1 = x := by
  rw [keys_cells]
  simp

section Ordered

variable [LinearOrder T]

theorem bst_iff : ∀ s : Shape T F, s.BST ↔ Ascending s.cells
  | nil => by simp [Shape.BST, Ascending]
  | node a l k v h r => by
    simp only [Shape.BST, Ascending, cells_node, List.pairwise_append, List.pairwise_cons,
      bst_iff l, bst_iff r, mem_keys, List.mem_cons]
    constructor
    · rintro ⟨h1, h2, h3, h4⟩
      refine ⟨h3, ⟨fun d hd => h2 _ ⟨d, hd, rfl⟩, h4⟩, ?_⟩
      rintro c hc d (rfl | hd)
      · exact h1 _ ⟨c, hc, rfl⟩
      · exact lt_trans (h1 _ ⟨c, hc, rfl⟩) (h2 _ ⟨d, hd, rfl⟩)
    · rintro ⟨h3, ⟨h2, h4⟩, h5⟩
      refine ⟨?_, ?_, h3, h4⟩
      · rintro x ⟨c, hc, rfl⟩
        exact h5 c hc _ (Or.inl rfl)
      · rintro x ⟨c, hc, rfl⟩
        exact h2 c hc

/-- The keys on the left of the place the search has reached are smaller than the key,
the keys on its right are larger. -/
theorem path_bounds (key : T) : ∀ (path : List (Frame T F)) (s : Shape T F),
    Ascending (plug path s).cells → PathKeys key path →
    (∀ c ∈ pathL path, c.2.1 < key) ∧ (∀ c ∈ pathR path, key < c.2.1)
  | [], _, _, _ => by simp [pathL, pathR]
  | Frame.L a k v h r :: fs, s, hs, hk => by
    obtain ⟨h1, h2⟩ := path_bounds key fs (node a s k v h r) hs hk.2
    refine ⟨h1, ?_⟩
    rw [plug_cons, cells_plug] at hs
    simp only [Ascending, fill_L, cells_node, List.pairwise_append, List.pairwise_cons] at hs
    intro c hc
    simp only [pathR, List.cons_append, List.mem_cons, List.mem_append] at hc
    rcases hc with rfl | hc | hc
    · exact hk.1
    · exact lt_trans hk.1 (hs.1.2.1.2.1.1 c hc)
    · exact h2 c hc
  | Frame.R a l k v h :: fs, s, hs, hk => by
    obtain ⟨h1, h2⟩ := path_bounds key fs (node a l k v h s) hs hk.2
    refine ⟨?_, h2⟩
    rw [plug_cons, cells_plug] at hs
    simp only [Ascending, fill_R, cells_node, List.pairwise_append, List.pairwise_cons] at hs
    intro c hc
    simp only [pathL, List.mem_cons, List.mem_append, List.not_mem_nil, or_false] at hc
    rcases hc with hc | hc | rfl
    · exact h1 c hc
    · exact lt_trans (hs.1.2.1.2.2 c hc _ (List.mem_cons_self _ _)) hk.1
    · exact hk.1

end Ordered

/-! ## The nodes after `addNode` -/

section Ordered

variable [LinearOrder T]

theorem hit_nil (key : T) : hit key (nil : Shape T F) = none := rfl

/-- The call `addNode` with a key that is not found puts the new node between its
in-order neighbours. -/
theorem addNodeP_new (nx : Nat) (key : T) (value : F) (s s' : Shape T F)
    (hh : hit key s = none) (h : addNodeP nx key value s = some s') :
    ∃ pre post, s.cells = pre ++ post ∧ s'.cells = pre ++ (nx, key, value) :: post ∧
      (Ascending s.cells → (∀ c ∈ pre, c.2.1 < key) ∧ (∀ c ∈ post, key < c.2.1)) := by
  cases s with
  | nil =>
    simp only [addNodeP, Option.some.injEq] at h
    subst h
    exact ⟨[], [], rfl, rfl, fun _ => by simp⟩
  | node a0 l0 k0 v0 h0 r0 =>
    obtain ⟨a, l, k, v, hg, r, hd, hpl, hpk, hstop⟩ :=
      descend_spec key (node a0 l0 k0 v0 h0 r0) [] (by simp) trivial
    rcases hq : descend key (node a0 l0 k0 v0 h0 r0) [] with ⟨path, s0⟩
    rw [hq] at hd hpl hpk
    simp only at hd hpl hpk
    subst hd
    rw [plug_nil] at hpl
    simp only [addNodeP, hq] at h
    have hc := finish_cells _ _ _ h
    rw [cells_plug] at hc
    have hk : k ≠ key := by
      intro e
      simp [hit, hq, e] at hh
    have hsc : (node a0 l0 k0 v0 h0 r0).cells = pathL path ++ (node a l k v hg r).cells ++
        pathR path := by
      rw [← hpl, cells_plug]
    rcases hstop with e | ⟨e, rfl⟩ | ⟨e, rfl⟩
    · exact absurd e hk
    · refine ⟨pathL path, (a, k, v) :: r.cells ++ pathR path, ?_, ?_, ?_⟩
      · rw [hsc]
        simp
      · rw [hc]
        simp [attach, ne_of_lt e, not_lt_of_gt e, leaf]
      · intro hs
        have hb := path_bounds key path (node a nil k v hg r) (by rw [hpl]; exact hs) hpk
        refine ⟨hb.1, ?_⟩
        rw [hsc] at hs
        simp only [Ascending, cells_node, cells_nil, List.nil_append, List.pairwise_append,
          List.pairwise_cons] at hs
        intro c hc'
        simp only [List.cons_append, List.mem_cons, List.mem_append] at hc'
        rcases hc' with rfl | hc' | hc'
        · exact e
        · exact lt_trans e (hs.1.2.1.1 c hc')
        · exact hb.2 c hc'
    · refine ⟨pathL path ++ (l.cells ++ [(a, k, v)]), pathR path, ?_, ?_, ?_⟩
      · rw [hsc]
        simp
      · rw [hc]
        simp [attach, ne_of_gt e, e, leaf]
      · intro hs
        have hb := path_bounds key path (node a l k v hg nil) (by rw [hpl]; exact hs) hpk
        refine ⟨?_, hb.2⟩
        rw [hsc] at hs
        simp only [Ascending, cells_node, cells_nil, List.pairwise_append,
          List.pairwise_cons] at hs
        intro c hc'
        simp only [List.mem_cons, List.mem_append, List.not_mem_nil, or_false] at hc'
        rcases hc' with hc' | hc' | rfl
        · exact hb.1 c hc'
        · exact lt_trans (hs.1.2.1.2.2 c hc' _ (List.mem_cons_self _ _)) e
        · exact e

/-- The call `addNode` with a key that is found changes the value of its node only. -/
theorem addNodeP_old (nx : Nat) (key : T) (value : F) (s s' : Shape T F) (a : Nat)
    (hh : hit key s = some a) (h : addNodeP nx key value s = some s') :
    ∃ v0 pre post, s.cells = pre ++ (a, key, v0) :: post ∧
      s'.cells = pre ++ (a, key, value) :: post := by
  cases s with
  | nil => cases hh
  | node a0 l0 k0 v0 h0 r0 =>
    obtain ⟨a1, l, k, v, hg, r, hd, hpl, _, _⟩ :=
      descend_spec key (node a0 l0 k0 v0 h0 r0) [] (by simp) trivial
    rcases hq : descend key (node a0 l0 k0 v0 h0 r0) [] with ⟨path, s0⟩
    rw [hq] at hd hpl
    simp only at hd hpl
    subst hd
    rw [plug_nil] at hpl
    simp only [addNodeP, hq] at h
    have hc := finish_cells _ _ _ h
    rw [cells_plug] at hc
    simp only [hit, hq] at hh
    split at hh
    · rename_i e
      simp only [Option.some.injEq] at hh
      subst hh
      subst e
      refine ⟨v, pathL path ++ l.cells, r.cells ++ pathR path, ?_, ?_⟩
      · rw [← hpl, cells_plug]
        simp
      · rw [hc]
        simp [attach]
    · cases hh

/-- On a valid tree the call `addNode` with a key that is found leaves the tree as it
is, but for the value of the node with the key. -/
theorem addNodeP_same (nx : Nat) (key : T) (value : F) (s : Shape T F) (a : Nat)
    (hb : s.Balanced) (hh : hit key s = some a) :
    ∃ path l v h r, s = plug path (node a l key v h r) ∧
      addNodeP nx key value s = some (plug path (node a l key value h r)) := by
  cases s with
  | nil => cases hh
  | node a0 l0 k0 v0 h0 r0 =>
    obtain ⟨a1, l, k, v, hg, r, hd, hpl, _, _⟩ :=
      descend_spec key (node a0 l0 k0 v0 h0 r0) [] (by simp) trivial
    rcases hq : descend key (node a0 l0 k0 v0 h0 r0) [] with ⟨path, s0⟩
    rw [hq] at hd hpl
    simp only at hd hpl
    subst hd
    rw [plug_nil] at hpl
    simp only [hit, hq] at hh
    split at hh
    · rename_i e
      simp only [Option.some.injEq] at hh
      subst hh
      subst e
      rw [← hpl] at hb
      obtain ⟨⟨b1, b2, bl, br⟩, hp⟩ := (balanced_plug _ _).1 hb
      refine ⟨path, l, v, hg, r, hpl.symm, ?_⟩
      simp only [addNodeP, hq, attach, if_true]
      rw [← b2]
      exact finish_id path (node a1 l k value hg r) ⟨b1, b2, bl, br⟩ hp
    · cases hh

end Ordered

section Ordered

variable [LinearOrder T]

theorem ascending_unique : ∀ (cs : List (Nat × T × F)), Ascending cs →
    ∀ c ∈ cs, ∀ d ∈ cs, c.2.1 = d.2.1 → c = d
  | [], _, c, hc, _, _, _ => by simp at hc
  | x :: xs, hs, c, hc, d, hd, e => by
    simp only [Ascending, List.pairwise_cons] at hs
    simp only [List.mem_cons] at hc hd
    rcases hc with rfl | hc <;> rcases hd with rfl | hd
    · rfl
    · exact absurd e (ne_of_lt (hs.1 d hd))
    · exact absurd e.symm (ne_of_lt (hs.1 c hc))
    · exact ascending_unique xs hs.2 c hc d hd e

/-- What the search finds is a node of the tree. -/
theorem hit_mem (key : T) (s : Shape T F) (a : Nat) (hh : hit key s = some a) :
    ∃ v, (a, key, v) ∈ s.cells ∧ lookupP key s = some v := by
  cases s with
  | nil => cases hh
  | node a0 l0 k0 v0 h0 r0 =>
    obtain ⟨a1, l, k, v, hg, r, hd, hpl, _, _⟩ :=
      descend_spec key (node a0 l0 k0 v0 h0 r0) [] (by simp) trivial
    rcases hq : descend key (node a0 l0 k0 v0 h0 r0) [] with ⟨path, s0⟩
    rw [hq] at hd hpl
    simp only at hd hpl
    subst hd
    rw [plug_nil] at hpl
    simp only [hit, hq] at hh
    split at hh
    · rename_i e
      simp only [Option.some.injEq] at hh
      subst hh
      subst e
      refine ⟨v, ?_, by simp [lookupP, hq]⟩
      rw [← hpl, cells_plug]
      simp
    · cases hh

theorem lookupP_hit (key : T) (s : Shape T F) (v : F) (hh : lookupP key s = some v) :
    ∃ a, hit key s = some a := by
  simp only [lookupP] at hh
  simp only [hit]
  cases hd : (descend key s []).2 with
  | nil =>
    rw [hd] at hh
    cases hh
  | node a l k v1 h r =>
    rw [hd] at hh
    by_cases e : k = key
    · exact ⟨a, by simp [e]⟩
    · simp [e] at hh

theorem lookupP_none (key : T) (s : Shape T F) : lookupP key s = none ↔ hit key s = none := by
  simp only [lookupP, hit]
  cases (descend key s []).2 with
  | nil => simp
  | node a l k v1 h r => by_cases e : k = key <;> simp [e]

/-- On a tree in BST order the search finds every node of the tree by its key. -/
theorem mem_hit (key : T) (s : Shape T F) (hs : s.BST) (a : Nat) (v : F)
    (hm : (a, key, v) ∈ s.cells) : hit key s = some a ∧ lookupP key s = some v := by
  cases s with
  | nil => simp at hm
  | node a0 l0 k0 v0 h0 r0 =>
    obtain ⟨a1, l, k, v1, hg, r, hd, hpl, hpk, hstop⟩ :=
      descend_spec key (node a0 l0 k0 v0 h0 r0) [] (by simp) trivial
    rcases hq : descend key (node a0 l0 k0 v0 h0 r0) [] with ⟨path, s0⟩
    rw [hq] at hd hpl hpk
    simp only at hd hpl hpk
    subst hd
    rw [plug_nil] at hpl
    rw [bst_iff] at hs
    have hb := path_bounds key path (node a1 l k v1 hg r) (by rw [hpl]; exact hs) hpk
    have hs0 := hs
    rw [← hpl, cells_plug] at hs hm
    simp only [Ascending, cells_node, List.pairwise_append, List.pairwise_cons] at hs
    simp only [cells_node, List.mem_append, List.mem_cons] at hm
    rcases hstop with e | ⟨e, rfl⟩ | ⟨e, rfl⟩
    · subst e
      have hin : (a1, k, v1) ∈ (node a0 l0 k0 v0 h0 r0).cells := by
        rw [← hpl, cells_plug]
        simp
      have hin2 : (a, k, v) ∈ (node a0 l0 k0 v0 h0 r0).cells := by
        rw [← hpl, cells_plug]
        simp only [cells_node, List.mem_append, List.mem_cons]
        exact hm
      have := ascending_unique _ hs0 _ hin _ hin2 rfl
      simp only [Prod.mk.injEq] at this
      obtain ⟨rfl, _, rfl⟩ := this
      simp [hit, lookupP, hq]
    · exfalso
      rcases hm with (hm | hm | hm | hm) | hm
      · exact lt_irrefl _ (hb.1 _ hm)
      · simp at hm
      · simp only [Prod.mk.injEq] at hm
        exact ne_of_lt e hm.2.1
      · exact lt_irrefl _ (lt_trans e (hs.1.2.1.2.1.1 _ hm))
      · exact lt_irrefl _ (hb.2 _ hm)
    · exfalso
      rcases hm with (hm | hm | hm | hm) | hm
      · exact lt_irrefl _ (hb.1 _ hm)
      · exact lt_irrefl _ (lt_trans (hs.1.2.1.2.2 _ hm _ (List.mem_cons_self _ _)) e)
      · simp only [Prod.mk.injEq] at hm
        exact ne_of_gt e hm.2.1
      · simp at hm
      · exact lt_irrefl _ (hb.2 _ hm)

theorem hit_none_iff (key : T) (s : Shape T F) (hs : s.BST) :
    hit key s = none ↔ key ∉ s.keys := by
  constructor
  · intro hh hk
    rw [mem_keys] at hk
    obtain ⟨⟨a, k, v⟩, hc, rfl⟩ := hk
    rw [(mem_hit _ s hs a v hc).1] at hh
    cases hh
  · intro hk
    cases hq : hit key s with
    | none => rfl
    | some a =>
      obtain ⟨v, hv, _⟩ := hit_mem key s a hq
      exact absurd ((mem_keys s key).2 ⟨_, hv, rfl⟩) hk

end Ordered

/-! ## Reading the tree -/

theorem holds_cell : ∀ (s : Shape T F) (m : Memory T F) (par : Ptr) (a : Nat) (k : T) (v : F),
    Holds m par s → (a, k, v) ∈ s.cells →
    getKey m (some a) = .ok k ∧ getValue m (some a) = .ok v
  | nil, _, _, _, _, _, _, hc => by simp at hc
  | node a0 l k0 v0 h r, m, par, a, k, v, hh, hc => by
    simp only [holds_node] at hh
    simp only [cells_node, List.mem_append, List.mem_cons, Prod.mk.injEq] at hc
    rcases hc with hc | ⟨rfl, rfl, rfl⟩ | hc
    · exact holds_cell l m _ a k v hh.2.1 hc
    · simp [getKey, getValue, deref, hh.1, Except.map]
    · exact holds_cell r m _ a k v hh.2.2 hc

theorem Models.cell {t : AVLtree T F} {s : Shape T F} (hm : Models t s) (a : Nat) (k : T)
    (v : F) (hc : (a, k, v) ∈ s.cells) :
    getKey t.mem (some a) = .ok k ∧ getValue t.mem (some a) = .ok v :=
  holds_cell s t.mem _ a k v hm.sub hc

theorem findGetValue_sim [LinearOrder T] (t : AVLtree T F) (s : Shape T F) (key : T)
    (hm : Models t s) :
    findGetValue t key =
      match lookupP key s with
      | some v => .ok v
      | none => .error .KeyDoesNotExist := by
  cases s with
  | nil =>
    have hr := hm.root
    simp only [ctxRoot_nil, ptr_nil] at hr
    simp [findGetValue, hr, lookupP, descend]
  | node a0 l0 k0 v0 h0 r0 =>
    have hr := hm.root
    simp only [ctxRoot_nil, ptr_node] at hr
    obtain ⟨hf, hma, hne⟩ := findNode_sim key t (node a0 l0 k0 v0 h0 r0) hm (by simp)
    rcases hq : descend key (node a0 l0 k0 v0 h0 r0) [] with ⟨path, s0⟩
    rw [hq] at hf hma hne
    simp only at hf hma hne
    cases s0 with
    | nil => exact absurd rfl hne
    | node a l k v h r =>
      have hsub := hma.sub
      simp only [holds_node] at hsub
      simp only [findGetValue, hr, hf, ptr_node, getKey, getValue, deref, hsub.1, Except.map,
        bind, Except.bind, lookupP, hq]
      by_cases e : k = key <;> simp [e]

/-! ## The operations on a valid tree -/

section Ordered

variable [LinearOrder T]

theorem ascending_insert (pre post : List (Nat × T × F)) (x : Nat × T × F)
    (h : Ascending (pre ++ post)) (h1 : ∀ c ∈ pre, c.2.1 < x.2.1)
    (h2 : ∀ c ∈ post, x.2.1 < c.2.1) : Ascending (pre ++ x :: post) := by
  simp only [Ascending, List.pairwise_append, List.pairwise_cons, List.mem_cons] at h ⊢
  refine ⟨h.1, ⟨h2, h.2.1⟩, ?_⟩
  rintro c hc d (rfl | hd)
  · exact h1 c hc
  · exact h.2.2 c hc d hd

theorem ascending_replace (pre post : List (Nat × T × F)) (a : Nat) (k : T) (v0 v : F)
    (h : Ascending (pre ++ (a, k, v0) :: post)) : Ascending (pre ++ (a, k, v) :: post) := by
  simp only [Ascending, List.pairwise_append, List.pairwise_cons, List.mem_cons,
    forall_eq_or_imp] at h ⊢
  exact h

theorem ascending_delete (pre post : List (Nat × T × F)) (x : Nat × T × F)
    (h : Ascending (pre ++ x :: post)) : Ascending (pre ++ post) := by
  simp only [Ascending, List.pairwise_append, List.pairwise_cons, List.mem_cons] at h ⊢
  exact ⟨h.1, h.2.1.2, fun c hc d hd => h.2.2 c hc d (Or.inr hd)⟩

theorem addNodeP_bst (nx : Nat) (key : T) (value : F) (s s' : Shape T F) (hs : s.BST)
    (h : addNodeP nx key value s = some s') : s'.BST := by
  rw [bst_iff] at hs ⊢
  cases hh : hit key s with
  | none =>
    obtain ⟨pre, post, e1, e2, hb⟩ := addNodeP_new nx key value s s' hh h
    obtain ⟨b1, b2⟩ := hb hs
    rw [e2]
    rw [e1] at hs
    exact ascending_insert pre post _ hs b1 b2
  | some a =>
    obtain ⟨v0, pre, post, e1, e2⟩ := addNodeP_old nx key value s s' a hh h
    rw [e2]
    rw [e1] at hs
    exact ascending_replace pre post a key v0 value hs

theorem addNodeP_count (nx : Nat) (key : T) (value : F) (s s' : Shape T F)
    (h : addNodeP nx key value s = some s') :
    s'.count = s.count + (if (hit key s).isSome then 0 else 1) := by
  rw [count_cells, count_cells]
  cases hh : hit key s with
  | none =>
    obtain ⟨pre, post, e1, e2, _⟩ := addNodeP_new nx key value s s' hh h
    rw [e1, e2]
    simp
    omega
  | some a =>
    obtain ⟨v0, pre, post, e1, e2⟩ := addNodeP_old nx key value s s' a hh h
    rw [e1, e2]
    simp

/-- The method `addNode` on a valid tree: it returns, and the tree is valid afterwards. -/
theorem addNode_full (t : AVLtree T F) (s : Shape T F) (key : T) (value : F)
    (hm : Models t s) (hs : s.BST) (hb : s.Balanced) :
    ∃ t' s', addNode t key value = .ok (t', some ((hit key s).getD t.next)) ∧
      Models t' s' ∧ s'.BST ∧ s'.Balanced ∧ addNodeP t.next key value s = some s' ∧
      t'.next = t.next + (if (hit key s).isSome then 0 else 1) ∧
      t'.size = (if (hit key s).isSome then t.size else wrapInt (t.size + 1)) := by
  obtain ⟨s', hp, hb'⟩ := addNodeP_balanced t.next key value s hb
  obtain ⟨t', h1, h2, h3, h4⟩ := addNode_sim t s s' key value hm hp
  exact ⟨t', s', h1, h2, addNodeP_bst _ _ _ _ _ hs hp, hb', hp, h3, h4⟩

theorem removeP_bst (key : T) (s s' : Shape T F) (hs : s.BST)
    (h : removeP key s = some s') : s'.BST := by
  rw [bst_iff] at hs ⊢
  obtain ⟨a, v, pre, post, _, e1, e2⟩ := removeP_cells key s s' h
  rw [e2]
  rw [e1] at hs
  exact ascending_delete pre post _ hs

theorem removeP_count (key : T) (s s' : Shape T F) (h : removeP key s = some s') :
    s'.count + 1 = s.count := by
  rw [count_cells, count_cells]
  obtain ⟨a, v, pre, post, _, e1, e2⟩ := removeP_cells key s s' h
  rw [e1, e2]
  simp
  omega

/-- The method `removeNode` on a valid tree with the key: it returns, and the tree is
valid afterwards. -/
theorem removeNode_full (t : AVLtree T F) (s : Shape T F) (key : T)
    (hm : Models t s) (hs : s.BST) (hb : s.Balanced) (hk : key ∈ s.keys) :
    ∃ t' s', removeNode t key = .ok t' ∧ Models t' s' ∧ s'.BST ∧ s'.Balanced ∧
      removeP key s = some s' ∧ t'.next = t.next ∧ t'.size = wrapInt (t.size - 1) := by
  have hh : hit key s ≠ none := fun e => (hit_none_iff key s hs).1 e hk
  obtain ⟨s', hp, hb'⟩ := removeP_balanced key s hb hh
  obtain ⟨t', h1, h2, h3, h4⟩ := removeNode_sim t s s' key hm hp
  exact ⟨t', s', h1, h2, removeP_bst _ _ _ hs hp, hb', hp, h3, h4⟩

/-- On a tree in BST order the search yields the value stored with the key. -/
theorem lookupP_iff (key : T) (s : Shape T F) (hs : s.BST) (v : F) :
    lookupP key s = some v ↔ ∃ a, (a, key, v) ∈ s.cells := by
  constructor
  · intro h
    obtain ⟨a, ha⟩ := lookupP_hit key s v h
    obtain ⟨v', hv', hl⟩ := hit_mem key s a ha
    rw [h] at hl
    simp only [Option.some.injEq] at hl
    subst hl
    exact ⟨a, hv'⟩
  · rintro ⟨a, ha⟩
    exact (mem_hit key s hs a v ha).2

theorem lookupP_congr (key : T) (s s' : Shape T F) (hs : s.BST) (hs' : s'.BST)
    (h : ∀ v, (∃ a, (a, key, v) ∈ s.cells) ↔ (∃ a, (a, key, v) ∈ s'.cells)) :
    lookupP key s' = lookupP key s := by
  apply Option.ext
  intro v
  simp only [Option.mem_def]
  rw [lookupP_iff key s hs, lookupP_iff key s' hs', h]

end Ordered

/-! ## Sequences of calls -/

theorem models_empty : Models (AVLtree.empty : AVLtree T F) nil :=
  ⟨rfl, trivial, trivial, by simp [Shape.addrs, ctxAddrs], by simp [Shape.addrs, ctxAddrs]⟩

theorem exTree_models : Models exTree exShape := by
  refine ⟨rfl, trivial, ?_, by decide, by decide⟩
  simp [exShape, exTree, exMem]

theorem exShape_bst : exShape.BST := by
  simp [exShape, Shape.BST, Shape.keys, Shape.toList]

theorem exShape_balanced : exShape.Balanced := by
  simp [exShape, Shape.Balanced]

section Ordered

variable [LinearOrder T]

theorem wrapInt_succ (a : Int) : wrapInt (wrapInt a + 1) = wrapInt (a + 1) := by
  simp only [wrapInt]
  omega

theorem wrapInt_pred (a : Int) : wrapInt (wrapInt a - 1) = wrapInt (a - 1) := by
  simp only [wrapInt]
  omega

theorem inv_empty : TreeInv (AVLtree.empty : AVLtree T F) :=
  ⟨nil, models_empty, trivial, trivial, by simp [AVLtree.empty, Shape.count, wrapInt]⟩

theorem addNode_inv (t : AVLtree T F) (key : T) (value : F) (h : TreeInv t) :
    ∃ t' p, addNode t key value = .ok (t', p) ∧ TreeInv t' := by
  obtain ⟨s, hm, hs, hb, hc⟩ := h
  obtain ⟨t', s', h1, h2, h3, h4, h5, _, h7⟩ := addNode_full t s key value hm hs hb
  refine ⟨t', _, h1, s', h2, h3, h4, ?_⟩
  rw [h7, hc, addNodeP_count _ _ _ _ _ h5]
  split_ifs
  · simp
  · rw [wrapInt_succ]
    simp

theorem addAll_inv : ∀ (kvs : List (T × F)) (t : AVLtree T F), TreeInv t →
    ∃ t', addAll t kvs = .ok t' ∧ TreeInv t'
  | [], t, h => ⟨t, rfl, h⟩
  | (k, v) :: rest, t, h => by
    obtain ⟨t1, p, h1, h2⟩ := addNode_inv t k v h
    obtain ⟨t', h3, h4⟩ := addAll_inv rest t1 h2
    exact ⟨t', by simp only [addAll, h1, h3], h4⟩

theorem removeNode_ok_mem (t t' : AVLtree T F) (s : Shape T F) (key : T) (hm : Models t s)
    (h : removeNode t key = .ok t') : ∃ a, hit key s = some a := by
  cases hh : hit key s with
  | none =>
    rw [removeNode_absent t s key hm hh] at h
    cases h
  | some a => exact ⟨a, rfl⟩

theorem removeNode_inv (t t' : AVLtree T F) (key : T) (h : TreeInv t)
    (hr : removeNode t key = .ok t') : TreeInv t' ∧ t'.size = wrapInt (t.size - 1) := by
  obtain ⟨s, hm, hs, hb, hc⟩ := h
  obtain ⟨a, ha⟩ := removeNode_ok_mem t t' s key hm hr
  obtain ⟨v, hv, _⟩ := hit_mem key s a ha
  have hk : key ∈ s.keys := (mem_keys s key).2 ⟨_, hv, rfl⟩
  obtain ⟨t'', s', h1, h2, h3, h4, h5, _, h7⟩ := removeNode_full t s key hm hs hb hk
  rw [hr] at h1
  simp only [Except.ok.injEq] at h1
  subst h1
  have hcount := removeP_count key s s' h5
  refine ⟨⟨s', h2, h3, h4, ?_⟩, h7⟩
  rw [h7, hc, wrapInt_pred]
  congr 1
  omega

theorem runOps_inv : ∀ (ops : List (Op T F)) (t t' : AVLtree T F), TreeInv t →
    runOps t ops = .ok t' → TreeInv t'
  | [], t, t', h, hr => by
    simp only [runOps, Except.ok.injEq] at hr
    subst hr
    exact h
  | Op.add k v :: rest, t, t', h, hr => by
    obtain ⟨t1, p, h1, h2⟩ := addNode_inv t k v h
    simp only [runOps, h1] at hr
    exact runOps_inv rest t1 t' h2 hr
  | Op.remove k :: rest, t, t', h, hr => by
    simp only [runOps] at hr
    split at hr
    · rename_i t1 h1
      exact runOps_inv rest t1 t' (removeNode_inv t t1 k h h1).1 hr
    · cases hr

end Ordered

/-! ## Keys, values and the in-order sequence -/

theorem mem_toList (s : Shape T F) (k : T) (v : F) :
    (k, v) ∈ s.toList ↔ ∃ a, (a, k, v) ∈ s.cells := by
  rw [toList_cells]
  simp

theorem models_root_nil {t : AVLtree T F} {s : Shape T F} (hm : Models t s)
    (h : t.root = none) : s = nil := by
  have hr := hm.root
  rw [h] at hr
  cases s with
  | nil => rfl
  | node a l k v hh r => simp at hr

section Ordered

variable [LinearOrder T]

theorem ascending_not_mem (pre post : List (Nat × T × F)) (a : Nat) (k : T) (v : F)
    (h : Ascending (pre ++ (a, k, v) :: post)) : ∀ c ∈ pre ++ post, c.2.1 ≠ k := by
  simp only [Ascending, List.pairwise_append, List.pairwise_cons, List.mem_cons] at h
  intro c hc
  rw [List.mem_append] at hc
  rcases hc with hc | hc
  · exact ne_of_lt (h.2.2 c hc _ (Or.inl rfl))
  · exact ne_of_gt (h.2.1.1 c hc)

theorem findGetValue_absent (t : AVLtree T F) (s : Shape T F) (key : T) (hm : Models t s)
    (hs : s.BST) (hk : key ∉ s.keys) : findGetValue t key = .error .KeyDoesNotExist := by
  rw [findGetValue_sim t s key hm, (lookupP_none key s).2 ((hit_none_iff key s hs).2 hk)]

theorem findGetValue_present (t : AVLtree T F) (s : Shape T F) (key : T) (v : F) (a : Nat)
    (hm : Models t s) (hs : s.BST) (hc : (a, key, v) ∈ s.cells) :
    findGetValue t key = .ok v := by
  rw [findGetValue_sim t s key hm, (mem_hit key s hs a v hc).2]

theorem findGetValue_congr (t t' : AVLtree T F) (s s' : Shape T F) (key : T)
    (hm : Models t s) (hm' : Models t' s') (hs : s.BST) (hs' : s'.BST)
    (h : ∀ v, (∃ a, (a, key, v) ∈ s.cells) ↔ (∃ a, (a, key, v) ∈ s'.cells)) :
    findGetValue t' key = findGetValue t key := by
  rw [findGetValue_sim t s key hm, findGetValue_sim t' s' key hm',
    lookupP_congr key s s' hs hs' h]

/-- The calls of `addNode` with keys that are new put the pairs into the tree. -/
theorem addAll_perm : ∀ (kvs : List (T × F)) (t : AVLtree T F) (s : Shape T F),
    Models t s → s.BST → s.Balanced → (kvs.map Prod.fst).Nodup →
    (∀ k ∈ kvs.map Prod.fst, k ∉ s.keys) →
    ∃ t' s', addAll t kvs = .ok t' ∧ Models t' s' ∧ s'.BST ∧ s'.Balanced ∧
      s'.toList.Perm (kvs ++ s.toList)
  | [], t, s, hm, hs, hb, _, _ => ⟨t, s, rfl, hm, hs, hb, List.Perm.refl _⟩
  | (k, v) :: rest, t, s, hm, hs, hb, hnd, hnew => by
    simp only [List.map_cons, List.nodup_cons, List.mem_cons, forall_eq_or_imp] at hnd hnew
    obtain ⟨t1, s1, h1, h2, h3, h4, h5, _, _⟩ := addNode_full t s k v hm hs hb
    have hh : hit k s = none := (hit_none_iff k s hs).2 hnew.1
    obtain ⟨pre, post, e1, e2, _⟩ := addNodeP_new _ k v s s1 hh h5
    have hnew1 : ∀ k' ∈ rest.map Prod.fst, k' ∉ s1.keys := by
      intro k' hk' hin
      rw [mem_keys, e2] at hin
      obtain ⟨c, hc, rfl⟩ := hin
      simp only [List.mem_append, List.mem_cons] at hc
      rcases hc with hc | rfl | hc
      · exact hnew.2 _ hk' ((mem_keys s _).2 ⟨c, by rw [e1]; simp [hc], rfl⟩)
      · exact hnd.1 hk'
      · exact hnew.2 _ hk' ((mem_keys s _).2 ⟨c, by rw [e1]; simp [hc], rfl⟩)
    obtain ⟨t', s', g1, g2, g3, g4, g5⟩ := addAll_perm rest t1 s1 h2 h3 h4 hnd.2 hnew1
    refine ⟨t', s', by simp only [addAll, h1, g1], g2, g3, g4, g5.trans ?_⟩
    rw [toList_cells s1, toList_cells s, e1, e2]
    simp only [List.map_append, List.map_cons, List.cons_append]
    rw [← List.append_assoc, ← List.append_assoc]
    exact List.perm_middle

end Ordered

/-! ## The tree a `throw` leaves behind -/

section Ordered

variable [LinearOrder T]

theorem removeNodeOutcome_result (t : AVLtree T F) (key : T) :
    (removeNodeOutcome t key).result = removeNode t key := by
  unfold removeNodeOutcome removeNode
  cases t.root with
  | none => rfl
  | some r =>
    simp only [bind, Except.bind]
    cases findNode t key with
    | error e => rfl
    | ok p =>
      simp only
      cases getKey t.mem p with
      | error e => rfl
      | ok k =>
        simp only
        by_cases hk : k = key
        · simp only [hk, ne_eq, not_true_eq_false, if_false]
          split <;> rename_i h <;> rw [h] <;> rfl
        · simp only [hk, ne_eq, not_false_eq_true, if_true]
          rfl

end Ordered

/-! ## The properties of the operations -/

section Ordered

variable [LinearOrder T]

/-- C1: every sequence of calls of `addNode` from the empty tree returns, and the tree
it ends with has a shape in BST order: at every node the keys of the left subtree are
smaller and the keys of the right subtree are larger than the key of the node.  Every
prefix of a sequence is a sequence, so this holds after each call. -/
theorem addNode_sequence_bst (kvs : List (T × F)) :
    ∃ t s, addAll (AVLtree.empty : AVLtree T F) kvs = .ok t ∧ Models t s ∧ s.BST := by
  obtain ⟨t, h1, s, hm, hs, _, _⟩ := addAll_inv kvs AVLtree.empty inv_empty
  exact ⟨t, s, h1, hm, hs⟩

/-- C2: every sequence of calls of `addNode` from the empty tree returns, and in the
tree it ends with the heights of the two sons of every node differ by at most 1 and
every stored height is 1 + max of the heights of the sons, an absent son counting as
`-1` (so a leaf has height 0). -/
theorem addNode_sequence_balanced (kvs : List (T × F)) :
    ∃ t s, addAll (AVLtree.empty : AVLtree T F) kvs = .ok t ∧ Models t s ∧ s.Balanced := by
  obtain ⟨t, h1, s, hm, _, hb, _⟩ := addAll_inv kvs AVLtree.empty inv_empty
  exact ⟨t, s, h1, hm, hb⟩

/-- C3: on a tree in BST order, in balance and with the right heights, `removeNode`
of a key of the tree returns, and the tree is in balance and has the right heights
afterwards; the node taken out may have no son, one son or two sons, with the
successor as its right son or deeper. -/
theorem removeNode_keeps_balance (t : AVLtree T F) (s : Shape T F) (key : T)
    (hm : Models t s) (hs : s.BST) (hb : s.Balanced) (hk : key ∈ s.keys) :
    ∃ t' s', removeNode t key = .ok t' ∧ Models t' s' ∧ s'.Balanced := by
  obtain ⟨t', s', h1, h2, _, h4, _⟩ := removeNode_full t s key hm hs hb hk
  exact ⟨t', s', h1, h2, h4⟩

/-- C4: on a valid tree, `removeNode` of a key of the tree returns; the in-order
sequence of pairs afterwards is the one before without the pair of the key, so the
tree is in BST order and `findGetValue` gives for every other key what it gave before,
and `findGetValue` of the key fails with `KeyDoesNotExist`. -/
theorem removeNode_inorder (t : AVLtree T F) (s : Shape T F) (key : T)
    (hm : Models t s) (hs : s.BST) (hb : s.Balanced) (hk : key ∈ s.keys) :
    ∃ t' s' pre post v, removeNode t key = .ok t' ∧ Models t' s' ∧
      s.toList = pre ++ (key, v) :: post ∧ s'.toList = pre ++ post ∧ s'.BST ∧
      (∀ k', k' ≠ key → findGetValue t' k' = findGetValue t k') ∧
      findGetValue t' key = .error .KeyDoesNotExist := by
  obtain ⟨t', s', h1, h2, h3, _, h5, _, _⟩ := removeNode_full t s key hm hs hb hk
  obtain ⟨a, v, pre, post, _, e1, e2⟩ := removeP_cells key s s' h5
  have hasc := (bst_iff s).1 hs
  rw [e1] at hasc
  refine ⟨t', s', pre.map Prod.snd, post.map Prod.snd, v, h1, h2, ?_, ?_, h3, ?_, ?_⟩
  · rw [toList_cells, e1]
    simp
  · rw [toList_cells, e2]
    simp
  · intro k' hne
    apply findGetValue_congr t t' s s' k' hm h2 hs h3
    intro v'
    rw [e1, e2]
    simp [hne]
  · apply findGetValue_absent t' s' key h2 h3
    intro hin
    rw [mem_keys, e2] at hin
    obtain ⟨c, hc, hck⟩ := hin
    exact ascending_not_mem pre post a key v hasc c hc hck

/-- C6: on a valid tree `addNode` returns; afterwards `findGetValue` of the key gives
the value, the node returned has the key and the value, and `findGetValue` of every
other key gives what it gave before, a value or `KeyDoesNotExist`. -/
theorem addNode_then_find (t : AVLtree T F) (s : Shape T F) (key : T) (value : F)
    (hm : Models t s) (hs : s.BST) (hb : s.Balanced) :
    ∃ t' p, addNode t key value = .ok (t', p) ∧ findGetValue t' key = .ok value ∧
      getKey t'.mem p = .ok key ∧ getValue t'.mem p = .ok value ∧
      (∀ k', k' ≠ key → findGetValue t' k' = findGetValue t k') := by
  obtain ⟨t', s', h1, h2, h3, _, h5, _, _⟩ := addNode_full t s key value hm hs hb
  have hcell : ((hit key s).getD t.next, key, value) ∈ s'.cells ∧
      ∀ k', k' ≠ key → ∀ v', (∃ a, (a, k', v') ∈ s.cells) ↔ (∃ a, (a, k', v') ∈ s'.cells) := by
    cases hh : hit key s with
    | none =>
      obtain ⟨pre, post, e1, e2, _⟩ := addNodeP_new _ key value s s' hh h5
      rw [e1, e2]
      refine ⟨by simp, ?_⟩
      intro k' hne v'
      simp [hne]
    | some a =>
      obtain ⟨v0, pre, post, e1, e2⟩ := addNodeP_old _ key value s s' a hh h5
      rw [e1, e2]
      refine ⟨by simp, ?_⟩
      intro k' hne v'
      simp [hne]
  refine ⟨t', _, h1, findGetValue_present t' s' key value _ h2 h3 hcell.1,
    (h2.cell _ key value hcell.1).1, (h2.cell _ key value hcell.1).2, ?_⟩
  intro k' hne
  exact findGetValue_congr t t' s s' k' hm h2 hs h3 (hcell.2 k' hne)

/-- C7: on a valid tree with the key, `addNode` returns the node of the key with the
new value in it; no node is created, the size is the same, and the tree is the same
but for that value: every node keeps its address, key, sons and stored height. -/
theorem addNode_existing_key_overwrites (t : AVLtree T F) (s : Shape T F) (key : T)
    (v2 : F) (hm : Models t s) (hs : s.BST) (hb : s.Balanced) (hk : key ∈ s.keys) :
    ∃ t' a path l v h r, s = plug path (node a l key v h r) ∧
      addNode t key v2 = .ok (t', some a) ∧ Models t' (plug path (node a l key v2 h r)) ∧
      t'.getSize = t.getSize ∧ t'.next = t.next := by
  cases hh : hit key s with
  | none => exact absurd hk ((hit_none_iff key s hs).1 hh)
  | some a =>
    obtain ⟨path, l, v, h, r, e1, e2⟩ := addNodeP_same t.next key v2 s a hb hh
    obtain ⟨t', h1, h2, h3, h4⟩ := addNode_sim t s _ key v2 hm e2
    rw [hh] at h1 h3 h4
    refine ⟨t', a, path, l, v, h, r, e1, h1, h2, ?_, ?_⟩
    · simpa [AVLtree.getSize] using h4
    · simpa using h3

/-- C8: on every tree, the empty tree too, `removeNode` of a key that is not in the
tree fails with `KeyDoesNotExist` and leaves the tree as it was: the `throw` that runs
is one of the two at the start of the method, and the tree at that statement is the
tree before the call, with the same root, size and memory, that is the same nodes,
links, values and heights.  Before the `throw` only `findNode` and `getKey` have run. -/
theorem removeNode_absent_key_fails (t : AVLtree T F) (s : Shape T F) (key : T)
    (hm : Models t s) (hk : key ∉ s.keys) :
    removeNodeOutcome t key = .threw .KeyDoesNotExist t ∧
      removeNode t key = .error .KeyDoesNotExist ∧
      (t.root = none ∨
        ∃ p k, findNode t key = .ok p ∧ getKey t.mem p = .ok k ∧ k ≠ key) := by
  have hh : hit key s = none := by
    cases hq : hit key s with
    | none => rfl
    | some a =>
      obtain ⟨v, hv, _⟩ := hit_mem key s a hq
      exact absurd ((mem_keys s key).2 ⟨_, hv, rfl⟩) hk
  have hpre : t.root = none ∨
      ∃ p k, findNode t key = .ok p ∧ getKey t.mem p = .ok k ∧ k ≠ key := by
    cases s with
    | nil =>
      left
      exact hm.root
    | node a0 l0 k0 v0 h0 r0 =>
      right
      obtain ⟨hf, hma, hne⟩ := findNode_sim key t (node a0 l0 k0 v0 h0 r0) hm (by simp)
      rcases hq : descend key (node a0 l0 k0 v0 h0 r0) [] with ⟨path, s0⟩
      rw [hq] at hf hma hne
      simp only at hf hma hne
      cases s0 with
      | nil => exact absurd rfl hne
      | node a l k v h r =>
        have hsub := hma.sub
        simp only [holds_node] at hsub
        refine ⟨some a, k, hf, by simp [getKey, deref, hsub.1, Except.map], ?_⟩
        intro e
        simp [hit, hq, e] at hh
  refine ⟨?_, removeNode_absent t s key hm hh, hpre⟩
  rcases hpre with hr | ⟨p, k, hf, hg, hne⟩
  · simp only [removeNodeOutcome, hr]
  · cases hr : t.root with
    | none => simp only [removeNodeOutcome, hr]
    | some r =>
      simp only [removeNodeOutcome, hr, hf, hg, ne_eq, hne, not_false_eq_true, if_true]

/-- C10: on a tree in BST order `findGetValue` fails with `KeyDoesNotExist` exactly
when the tree is empty or the key is the key of no node; else it returns the value
stored with the key. -/
theorem findGetValue_fails_iff_absent (t : AVLtree T F) (s : Shape T F) (key : T)
    (hm : Models t s) (hs : s.BST) :
    (findGetValue t key = .error .KeyDoesNotExist ↔ (t.root = none ∨ key ∉ s.keys)) ∧
      (∀ v, (key, v) ∈ s.toList → findGetValue t key = .ok v) ∧
      (key ∈ s.keys → ∃ v, (key, v) ∈ s.toList) := by
  refine ⟨⟨?_, ?_⟩, ?_, ?_⟩
  · intro h
    right
    intro hk
    rw [mem_keys] at hk
    obtain ⟨⟨a, k, v⟩, hc, rfl⟩ := hk
    rw [findGetValue_present t s _ v a hm hs hc] at h
    cases h
  · rintro (h | h)
    · have := models_root_nil hm h
      subst this
      exact findGetValue_absent t nil key hm hs (by simp [Shape.keys, Shape.toList])
    · exact findGetValue_absent t s key hm hs h
  · intro v hv
    obtain ⟨a, ha⟩ := (mem_toList s key v).1 hv
    exact findGetValue_present t s key v a hm hs ha
  · intro hk
    rw [mem_keys] at hk
    obtain ⟨⟨a, k, v⟩, hc, rfl⟩ := hk
    exact ⟨v, (mem_toList s _ v).2 ⟨a, hc⟩⟩

end Ordered

/-! ## The properties on the example tree -/

theorem removeNode_keeps_balance_witness :
    2 ∈ exShape.keys ∧
      ∃ t' s', removeNode exTree 2 = .ok t' ∧ Models t' s' ∧ s'.Balanced :=
  ⟨by decide, removeNode_keeps_balance exTree exShape 2 exTree_models exShape_bst
    exShape_balanced (by decide)⟩

theorem removeNode_inorder_witness :
    2 ∈ exShape.keys ∧
      ∃ t' s' pre post v, removeNode exTree 2 = .ok t' ∧ Models t' s' ∧
        exShape.toList = pre ++ (2, v) :: post ∧ s'.toList = pre ++ post ∧ s'.BST ∧
        (∀ k', k' ≠ 2 → findGetValue t' k' = findGetValue exTree k') ∧
        findGetValue t' 2 = .error .KeyDoesNotExist :=
  ⟨by decide, removeNode_inorder exTree exShape 2 exTree_models exShape_bst
    exShape_balanced (by decide)⟩

theorem addNode_then_find_witness :
    ∃ t' p, addNode exTree 5 50 = .ok (t', p) ∧ findGetValue t' 5 = .ok 50 ∧
      getKey t'.mem p = .ok 5 ∧ getValue t'.mem p = .ok 50 ∧
      (∀ k', k' ≠ 5 → findGetValue t' k' = findGetValue exTree k') :=
  addNode_then_find exTree exShape 5 50 exTree_models exShape_bst exShape_balanced

theorem addNode_existing_key_overwrites_witness :
    3 ∈ exShape.keys ∧
      ∃ t' a path l v h r, exShape = plug path (node a l 3 v h r) ∧
        addNode exTree 3 33 = .ok (t', some a) ∧
        Models t' (plug path (node a l 3 33 h r)) ∧
        t'.getSize = exTree.getSize ∧ t'.next = exTree.next :=
  ⟨by decide, addNode_existing_key_overwrites exTree exShape 3 33 exTree_models exShape_bst
    exShape_balanced (by decide)⟩

theorem removeNode_absent_key_fails_witness :
    7 ∉ exShape.keys ∧ removeNodeOutcome exTree 7 = .threw .KeyDoesNotExist exTree ∧
      removeNode exTree 7 = .error .KeyDoesNotExist ∧
      (exTree.root = none ∨
        ∃ p k, findNode exTree 7 = .ok p ∧ getKey exTree.mem p = .ok k ∧ k ≠ 7) :=
  ⟨by decide, removeNode_absent_key_fails exTree exShape 7 exTree_models (by decide)⟩

theorem findGetValue_fails_iff_absent_witness :
    (findGetValue exTree 1 = .error .KeyDoesNotExist ↔
        (exTree.root = none ∨ 1 ∉ exShape.keys)) ∧
      (∀ v, (1, v) ∈ exShape.toList → findGetValue exTree 1 = .ok v) ∧
      (1 ∈ exShape.keys → ∃ v, (1, v) ∈ exShape.toList) :=
  findGetValue_fails_iff_absent exTree exShape 1 exTree_models exShape_bst

/-! ## The record of the rotations leaves the methods as they are -/

theorem checkBalanceLoopLog_fst : ∀ (fuel : Nat) (t : AVLtree T F) (p : Ptr),
    (checkBalanceLoopLog fuel t p).map Prod.fst = checkBalanceLoop fuel t p
  | 0, t, none => rfl
  | 0, t, some a => rfl
  | fuel + 1, t, none => rfl
  | fuel + 1, t, some a => by
    have ih := checkBalanceLoopLog_fst fuel
    simp only [checkBalanceLoopLog, checkBalanceLoop, bind, Except.bind, pure, Except.pure]
    cases isBalanced t.mem (some a) with
    | error e => rfl
    | ok b =>
      cases b with
      | true =>
        simp only [if_true]
        cases updateHeight t.mem (some a) with
        | error e => rfl
        | ok m =>
          simp only
          cases NodeMapTree.getParent m (some a) with
          | error e => rfl
          | ok q => exact ih _ _
      | false =>
        simp only [Bool.false_eq_true, if_false]
        cases getBalanceFactor t.mem (some a) with
        | error e => rfl
        | ok bf =>
          simp only
          cases NodeMapTree.getHeight t.mem (some a) with
          | error e => rfl
          | ok hT =>
            simp only
            by_cases h2 : bf = 2
            · simp only [h2, if_true]
              cases getSonLeft t.mem (some a) with
              | error e => rfl
              | ok ls =>
                simp only
                cases getBalanceFactor t.mem ls with
                | error e => rfl
                | ok f =>
                  simp only
                  by_cases hf : f ≥ 0
                  · simp only [hf, if_true]
                    cases t.reBalanceLL (some a) with
                    | error e => rfl
                    | ok v =>
                      obtain ⟨t1, lr⟩ := v
                      simp only
                      cases NodeMapTree.getHeight t1.mem lr with
                      | error e => rfl
                      | ok nh =>
                        simp only
                        by_cases hh : nh = hT
                        · simp only [hh, if_true, Except.map]
                        · simp only [hh, if_false]
                          cases NodeMapTree.getParent t1.mem lr with
                          | error e => rfl
                          | ok q =>
                            simp only
                            rw [← ih t1 q]
                            cases checkBalanceLoopLog fuel t1 q with
                            | error e => rfl
                            | ok v => rfl
                  · simp only [hf, if_false]
                    cases t.reBalanceLR (some a) with
                    | error e => rfl
                    | ok v =>
                      obtain ⟨t1, lr⟩ := v
                      simp only
                      cases NodeMapTree.getHeight t1.mem lr with
                      | error e => rfl
                      | ok nh =>
                        simp only
                        by_cases hh : nh = hT
                        · simp only [hh, if_true, Except.map]
                        · simp only [hh, if_false]
                          cases NodeMapTree.getParent t1.mem lr with
                          | error e => rfl
                          | ok q =>
                            simp only
                            rw [← ih t1 q]
                            cases checkBalanceLoopLog fuel t1 q with
                            | error e => rfl
                            | ok v => rfl
            · simp only [h2, if_false]
              cases getSonRight t.mem (some a) with
              | error e => rfl
              | ok rs =>
                simp only
                cases getBalanceFactor t.mem rs with
                | error e => rfl
                | ok f =>
                  simp only
                  by_cases hf : f = 1
                  · simp only [hf, if_true]
                    cases t.reBalanceRL (some a) with
                    | error e => rfl
                    | ok v =>
                      obtain ⟨t1, lr⟩ := v
                      simp only
                      cases NodeMapTree.getHeight t1.mem lr with
                      | error e => rfl
                      | ok nh =>
                        simp only
                        by_cases hh : nh = hT
                        · simp only [hh, if_true, Except.map]
                        · simp only [hh, if_false]
                          cases NodeMapTree.getParent t1.mem lr with
                          | error e => rfl
                          | ok q =>
                            simp only
                            rw [← ih t1 q]
                            cases checkBalanceLoopLog fuel t1 q with
                            | error e => rfl
                            | ok v => rfl
                  · simp only [hf, if_false]
                    cases t.reBalanceRR (some a) with
                    | error e => rfl
                    | ok v =>
                      obtain ⟨t1, lr⟩ := v
                      simp only
                      cases NodeMapTree.getHeight t1.mem lr with
                      | error e => rfl
                      | ok nh =>
                        simp only
                        by_cases hh : nh = hT
                        · simp only [hh, if_true, Except.map]
                        · simp only [hh, if_false]
                          cases NodeMapTree.getParent t1.mem lr with
                          | error e => rfl
                          | ok q =>
                            simp only
                            rw [← ih t1 q]
                            cases checkBalanceLoopLog fuel t1 q with
                            | error e => rfl
                            | ok v => rfl

theorem checkBalanceLog_fst (t : AVLtree T F) (p : Ptr) :
    (checkBalanceLog t p).map Prod.fst = checkBalance t p :=
  checkBalanceLoopLog_fst _ t p

section Ordered

variable [LinearOrder T]

theorem removeNodeLog_fst (t : AVLtree T F) (key : T) :
    (removeNodeLog t key).map Prod.fst = removeNode t key := by
  simp only [removeNodeLog, removeNode, ← checkBalanceLog_fst]
  cases t.root with
  | none => rfl
  | some r =>
    simp only [bind, Except.bind, pure, Except.pure]
    cases findNode t key with
    | error e => rfl
    | ok p =>
      simp only
      cases getKey t.mem p with
      | error e => rfl
      | ok k =>
        simp only
        by_cases hk : k = key
        · simp only [hk, ne_eq, not_true_eq_false, if_false]
          cases getNumOfSons t.mem p with
          | error e => rfl
          | ok n =>
            simp only
            split_ifs <;> (repeat' (first | rfl | split))
        · simp only [ne_eq, hk, not_false_eq_true, if_true]
          rfl

theorem addNodeLog_fst (t : AVLtree T F) (key : T) (value : F) :
    (addNodeLog t key value).map (fun x => (x.1, x.2.1)) = addNode t key value := by
  simp only [addNodeLog, addNode, ← checkBalanceLog_fst]
  cases t.root with
  | none => rfl
  | some r =>
    simp only [bind, Except.bind, pure, Except.pure]
    repeat' (first | rfl | split)
    all_goals simp_all [Except.map]

end Ordered

/-! ## The record of the rotations on the memory and on the tree -/

theorem visitEv_balanced (a : Nat) (l r : Shape T F) (k : T) (v : F) (h : Int)
    (hbal : -1 ≤ l.hgt - r.hgt ∧ l.hgt - r.hgt ≤ 1) : visitEv (node a l k v h r) = none := by
  simp only [visitEv, hbal, and_self, if_true]

theorem visitEv_rot (a : Nat) (l r s' : Shape T F) (k : T) (v : F) (h : Int)
    (hbal : ¬ (-1 ≤ l.hgt - r.hgt ∧ l.hgt - r.hgt ≤ 1))
    (hr : rebalance (node a l k v h r) = some s') :
    visitEv (node a l k v h r) =
      some { kind := rotKind (node a l k v h r), node := some a, BF := l.hgt - r.hgt,
             highTemp := h, localRoot := s'.ptr, newHeight := s'.hgt } := by
  simp only [visitEv, hbal, if_false, hr]

theorem map_log_nil (e : Except Failure (AVLtree T F × List RotEvent)) :
    e.map (fun x => (x.1, [] ++ x.2)) = e := by
  cases e <;> rfl

theorem visitLog_sim (t : AVLtree T F) (path : List (Frame T F)) (s s' : Shape T F)
    (c : Bool) (hm : ModelsAt t path s) (hv : visit s = some (c, s')) (fuel : Nat) :
    ∃ t', ModelsAt t' path s' ∧ t'.next = t.next ∧ t'.size = t.size ∧
      checkBalanceLoopLog (fuel + 1) t s.ptr =
        if c then (checkBalanceLoopLog fuel t' (ctxPtr path none)).map
            (fun x => (x.1, (visitEv s).toList ++ x.2))
        else .ok (t', (visitEv s).toList) := by
  cases s with
  | nil => simp [visit] at hv
  | node a l k v h r =>
    have hbf := getBalanceFactor_node _ _ a l r k v h hm.sub
    have hsub := hm.sub
    have hctx := hm.ctx
    have hroot := hm.root
    simp only [holds_node] at hsub
    simp only [ptr_node] at hctx hroot
    by_cases hbal : -1 ≤ l.hgt - r.hgt ∧ l.hgt - r.hgt ≤ 1
    · rw [visitEv_balanced a l r k v h hbal]
      simp only [visit, hbal, and_self, if_true, Option.some.injEq, Prod.mk.injEq] at hv
      obtain ⟨rfl, rfl⟩ := hv
      refine ⟨t.withMem (store t.mem a
        { key := k, value := v, height := (1 + max l.hgt r.hgt), sonLeft := l.ptr,
          sonRight := r.ptr, parent := ctxPtr path none }), ?_, rfl, rfl, ?_⟩
      · have hnd := hm.nodup
        simp only [addrs_node, List.nodup_cons, List.nodup_append, List.mem_cons,
          List.mem_append, not_or, List.disjoint_cons_left, List.disjoint_cons_right,
          List.disjoint_append_left, List.disjoint_append_right, List.cons_append,
          List.append_assoc] at hnd
        refine hm.transfer (fun x => Nat.le_refl _) (Nat.le_refl _) ?_
        simp [withMem, hnd, hsub, hroot, hctx]
      · simp only [Option.toList, if_true, map_log_nil]
        simp [checkBalanceLoopLog, isBalanced, hbf, bind, Except.bind, pure, Except.pure, hbal,
          updateHeight, deref, hsub.1, hsub.2.1.down, hsub.2.2.down, NodeMapTree.modify,
          getParent, Except.map]
    · simp only [visit, hbal, if_false] at hv
      have hloop : ∀ (t1 : AVLtree T F) (lr : Ptr) (s1 : Shape T F) (kind : Rotation),
          ModelsAt t1 path s1 → s1.ptr = lr → s1 ≠ nil →
          (do
            let newHeight ← NodeMapTree.getHeight t1.mem lr
            if newHeight = h then
              pure (t1, [RotEvent.mk kind (some a) (l.hgt - r.hgt) h lr newHeight])
            else do
              let (t2, log) ← checkBalanceLoopLog fuel t1 (← NodeMapTree.getParent t1.mem lr)
              pure (t2, RotEvent.mk kind (some a) (l.hgt - r.hgt) h lr newHeight :: log)) =
            if decide (s1.hgt ≠ h) then
              (checkBalanceLoopLog fuel t1 (ctxPtr path none)).map (fun x => (x.1,
                (some (RotEvent.mk kind (some a) (l.hgt - r.hgt) h s1.ptr s1.hgt)).toList ++ x.2))
            else .ok (t1, (some (RotEvent.mk kind (some a) (l.hgt - r.hgt) h s1.ptr s1.hgt)).toList) := by
        intro t1 lr s1 kind h1 hlr hne
        cases s1 with
        | nil => exact absurd rfl hne
        | node a1 l1 k1 v1 h1' r1 =>
          simp only [ptr_node] at hlr
          subst hlr
          simp only [h1.getHeight, h1.getParent, hgt_node, bind, Except.bind, ptr_node]
          by_cases hh : h1' = h
          · simp [hh, pure, Except.pure, Option.toList]
          · simp only [hh, if_false, ne_eq, not_false_eq_true, decide_True, if_true,
              Option.toList, List.singleton_append]
            cases checkBalanceLoopLog fuel t1 (ctxPtr path none) <;> rfl
      have hnb : checkBalanceLoopLog (fuel + 1) t (some a) =
          (do
            let (t1, localRoot, kind) ←
              if l.hgt - r.hgt = 2 then do
                let leftSon ← getSonLeft t.mem (some a)
                if (← getBalanceFactor t.mem leftSon) ≥ 0 then do
                  let (t1, localRoot) ← reBalanceLL t (some a)
                  pure (t1, localRoot, Rotation.LL)
                else do
                  let (t1, localRoot) ← reBalanceLR t (some a)
                  pure (t1, localRoot, Rotation.LR)
              else do
                let rightSon ← getSonRight t.mem (some a)
                if (← getBalanceFactor t.mem rightSon) = 1 then do
                  let (t1, localRoot) ← reBalanceRL t (some a)
                  pure (t1, localRoot, Rotation.RL)
                else do
                  let (t1, localRoot) ← reBalanceRR t (some a)
                  pure (t1, localRoot, Rotation.RR)
            let newHeight ← NodeMapTree.getHeight t1.mem localRoot
            if newHeight = h then
              pure (t1, [RotEvent.mk kind (some a) (l.hgt - r.hgt) h localRoot newHeight])
            else do
              let (t2, log) ←
                checkBalanceLoopLog fuel t1 (← NodeMapTree.getParent t1.mem localRoot)
              pure (t2, RotEvent.mk kind (some a) (l.hgt - r.hgt) h localRoot newHeight :: log)) := by
        simp only [checkBalanceLoopLog, isBalanced, hbf, bind, Except.bind, pure, Except.pure,
          hbal, decide_False, Bool.false_eq_true, if_false, getHeight, deref, hsub.1, Except.map]
      rw [ptr_node, hnb]
      by_cases h2 : l.hgt - r.hgt = 2
      · cases l with
        | nil =>
          simp only [rebalance, h2, if_true, Shape.bf] at hv
          cases hv
        | node la ll lk lv lh lr =>
          have hbl := getBalanceFactor_node _ _ la ll lr lk lv lh hsub.2.1
          by_cases hf : ll.hgt - lr.hgt ≥ 0
          · obtain ⟨t', heq, hm', hn, hs⟩ := reBalanceLL_sim t path la a ll lr r lk k lv v lh h hm
            have hk : rotKind (node a (node la ll lk lv lh lr) k v h r) = Rotation.LL := by
              simp only [rotKind, h2, if_true, Shape.bf, hf]
            have hreb : rebalance (node a (node la ll lk lv lh lr) k v h r) =
                rotLL (node a (node la ll lk lv lh lr) k v h r) := by
              simp only [rebalance, h2, if_true, Shape.bf, hf]
            rw [hreb] at hv
            cases hrot : rotLL (node a (node la ll lk lv lh lr) k v h r) with
            | none => simp [hrot] at hv
            | some s2 =>
              simp only [hrot, Option.some.injEq, Prod.mk.injEq] at hv
              obtain ⟨rfl, rfl⟩ := hv
              have hs2 : s2 = node la ll lk lv (1 + max ll.hgt (1 + max lr.hgt r.hgt))
                  (node a lr k v (1 + max lr.hgt r.hgt) r) := by
                simpa [rotLL] using hrot.symm
              rw [← hs2] at hm'
              rw [visitEv_rot _ _ _ s2 _ _ _ hbal (hreb.trans hrot), hk]
              refine ⟨t', hm', hn, hs, ?_⟩
              rw [if_pos h2]
              simp only [if_true, getSonLeft, deref, hsub.1, Except.map, bind, Except.bind,
                ptr_node, hbl, hf, heq, pure, Except.pure]
              have := hloop t' s2.ptr s2 Rotation.LL hm' rfl (by rw [hs2]; simp)
              simp only [bind, Except.bind, pure, Except.pure] at this
              rw [hs2] at this ⊢
              simpa only [ptr_node] using this
          · cases lr with
            | nil =>
              simp only [rebalance, h2, if_true, Shape.bf, hf, if_false, rotLR] at hv
              cases hv
            | node lra lrl lrk lrv lrh lrr =>
              obtain ⟨t', heq, hm', hn, hs⟩ := reBalanceLR_sim t path la lra a ll lrl lrr r lk lrk k lv lrv v lh lrh h hm
              have hk : rotKind (node a (node la ll lk lv lh (node lra lrl lrk lrv lrh lrr)) k v h r) = Rotation.LR := by
                simp only [rotKind, h2, if_true, Shape.bf, hf, if_false]
              have hreb : rebalance (node a (node la ll lk lv lh (node lra lrl lrk lrv lrh lrr)) k v h r) =
                  rotLR (node a (node la ll lk lv lh (node lra lrl lrk lrv lrh lrr)) k v h r) := by
                simp only [rebalance, h2, if_true, Shape.bf, hf, if_false]
              rw [hreb] at hv
              cases hrot : rotLR (node a (node la ll lk lv lh (node lra lrl lrk lrv lrh lrr)) k v h r) with
              | none => simp [hrot] at hv
              | some s2 =>
                simp only [hrot, Option.some.injEq, Prod.mk.injEq] at hv
                obtain ⟨rfl, rfl⟩ := hv
                have hs2 : s2 = node lra (node la ll lk lv (1 + max ll.hgt lrl.hgt) lrl) lrk lrv
                              (1 + max (1 + max ll.hgt lrl.hgt) (1 + max lrr.hgt r.hgt))
                              (node a lrr k v (1 + max lrr.hgt r.hgt) r) := by
                  simpa [rotLR] using hrot.symm
                rw [← hs2] at hm'
                rw [visitEv_rot _ _ _ s2 _ _ _ hbal (hreb.trans hrot), hk]
                refine ⟨t', hm', hn, hs, ?_⟩
                rw [if_pos h2]
                simp only [if_true, if_false, getSonLeft, deref, hsub.1, Except.map, bind, Except.bind,
                  ptr_node, hbl, hf, heq, pure, Except.pure]
                have := hloop t' s2.ptr s2 Rotation.LR hm' rfl (by rw [hs2]; simp)
                simp only [bind, Except.bind, pure, Except.pure] at this
                rw [hs2] at this ⊢
                simpa only [ptr_node] using this
      · cases r with
        | nil =>
          simp only [rebalance, h2, if_false, Shape.bf] at hv
          cases hv
        | node ra rl rk rv rh rr =>
          have hbr := getBalanceFactor_node _ _ ra rl rr rk rv rh hsub.2.2
          by_cases hf : rl.hgt - rr.hgt = 1
          · cases rl with
            | nil =>
              simp only [rebalance, h2, if_false, Shape.bf, hf, if_true, rotRL] at hv
              cases hv
            | node rla rll rlk rlv rlh rlr =>
              obtain ⟨t', heq, hm', hn, hs⟩ := reBalanceRL_sim t path ra rla a l rll rlr rr rk rlk k rv rlv v rh rlh h hm
              have hk : rotKind (node a l k v h (node ra (node rla rll rlk rlv rlh rlr) rk rv rh rr)) = Rotation.RL := by
                simp only [rotKind, h2, if_false, Shape.bf, hf, if_true]
              have hreb : rebalance (node a l k v h (node ra (node rla rll rlk rlv rlh rlr) rk rv rh rr)) =
                  rotRL (node a l k v h (node ra (node rla rll rlk rlv rlh rlr) rk rv rh rr)) := by
                simp only [rebalance, h2, if_false, Shape.bf, hf, if_true]
              rw [hreb] at hv
              cases hrot : rotRL (node a l k v h (node ra (node rla rll rlk rlv rlh rlr) rk rv rh rr)) with
              | none => simp [hrot] at hv
              | some s2 =>
                simp only [hrot, Option.some.injEq, Prod.mk.injEq] at hv
                obtain ⟨rfl, rfl⟩ := hv
                have hs2 : s2 = node rla (node a l k v (1 + max l.hgt rll.hgt) rll) rlk rlv
                              (1 + max (1 + max l.hgt rll.hgt) (1 + max rlr.hgt rr.hgt))
                              (node ra rlr rk rv (1 + max rlr.hgt rr.hgt) rr) := by
                  simpa [rotRL] using hrot.symm
                rw [← hs2] at hm'
                rw [visitEv_rot _ _ _ s2 _ _ _ hbal (hreb.trans hrot), hk]
                refine ⟨t', hm', hn, hs, ?_⟩
                rw [if_neg h2]
                simp only [if_true, if_false, getSonRight, deref, hsub.1, Except.map, bind, Except.bind,
                  ptr_node, hbr, hf, heq, pure, Except.pure]
                have := hloop t' s2.ptr s2 Rotation.RL hm' rfl (by rw [hs2]; simp)
                simp only [bind, Except.bind, pure, Except.pure] at this
                rw [hs2] at this ⊢
                simpa only [ptr_node] using this
          · obtain ⟨t', heq, hm', hn, hs⟩ := reBalanceRR_sim t path ra a rl rr l rk k rv v rh h hm
            have hk : rotKind (node a l k v h (node ra rl rk rv rh rr)) = Rotation.RR := by
              simp only [rotKind, h2, if_false, Shape.bf, hf]
            have hreb : rebalance (node a l k v h (node ra rl rk rv rh rr)) =
                rotRR (node a l k v h (node ra rl rk rv rh rr)) := by
              simp only [rebalance, h2, if_false, Shape.bf, hf]
            rw [hreb] at hv
            cases hrot : rotRR (node a l k v h (node ra rl rk rv rh rr)) with
            | none => simp [hrot] at hv
            | some s2 =>
              simp only [hrot, Option.some.injEq, Prod.mk.injEq] at hv
              obtain ⟨rfl, rfl⟩ := hv
              have hs2 : s2 = node ra (node a l k v (1 + max l.hgt rl.hgt) rl) rk rv
                          (1 + max (1 + max l.hgt rl.hgt) rr.hgt) rr := by
                simpa [rotRR] using hrot.symm
              rw [← hs2] at hm'
              rw [visitEv_rot _ _ _ s2 _ _ _ hbal (hreb.trans hrot), hk]
              refine ⟨t', hm', hn, hs, ?_⟩
              rw [if_neg h2]
              simp only [if_true, if_false, getSonRight, deref, hsub.1, Except.map, bind, Except.bind,
                ptr_node, hbr, hf, heq, pure, Except.pure]
              have := hloop t' s2.ptr s2 Rotation.RR hm' rfl (by rw [hs2]; simp)
              simp only [bind, Except.bind, pure, Except.pure] at this
              rw [hs2] at this ⊢
              simpa only [ptr_node] using this

theorem checkBalanceLoopLog_none (fuel : Nat) (t : AVLtree T F) :
    checkBalanceLoopLog fuel t none = .ok (t, []) := by
  cases fuel <;> rfl

theorem climbLog_sim : ∀ (path : List (Frame T F)) (t : AVLtree T F) (s r : Shape T F)
    (fuel : Nat), ModelsAt t path s → climb path s = some r → path.length < fuel →
    ∃ t', checkBalanceLoopLog fuel t s.ptr = .ok (t', climbLog path s) ∧ Models t' r ∧
      t'.next = t.next ∧ t'.size = t.size
  | [], t, s, r, fuel, hm, hc, hf => by
    obtain ⟨fuel, rfl⟩ : ∃ n, fuel = n + 1 := ⟨fuel - 1, by simp at hf; omega⟩
    simp only [climb, Option.map_eq_some', Prod.exists, exists_eq_right] at hc
    obtain ⟨c, hv⟩ := hc
    obtain ⟨t', hm', hn, hs, heq⟩ := visitLog_sim t [] s r c hm hv fuel
    refine ⟨t', ?_, hm', hn, hs⟩
    rw [heq]
    cases c <;> simp [checkBalanceLoopLog_none, climbLog, Except.map]
  | f :: fs, t, s, r, fuel, hm, hc, hf => by
    obtain ⟨fuel, rfl⟩ : ∃ n, fuel = n + 1 := ⟨fuel - 1, by simp at hf; omega⟩
    simp only [climb] at hc
    cases hv : visit s with
    | none => simp [hv] at hc
    | some cs =>
      obtain ⟨c, s'⟩ := cs
      obtain ⟨t', hm', hn, hs, heq⟩ := visitLog_sim t (f :: fs) s s' c hm hv fuel
      cases c with
      | true =>
        simp only [hv] at hc
        obtain ⟨t'', h1, h2, h3, h4⟩ :=
          climbLog_sim fs t' (f.fill s') r fuel hm'.up hc (by simp at hf; omega)
        refine ⟨t'', ?_, h2, by omega, by omega⟩
        rw [heq]
        simp only [if_true, ctxPtr_cons, climbLog, hv]
        have h1' : checkBalanceLoopLog fuel t' (some f.addr) =
            .ok (t'', climbLog fs (f.fill s')) := by
          cases f <;> simpa using h1
        rw [h1']
        rfl
      | false =>
        simp only [hv, Option.some.injEq] at hc
        subst hc
        refine ⟨t', ?_, hm'.toModels, hn, hs⟩
        rw [heq]
        simp [climbLog, hv]

theorem finishLog_sim (t : AVLtree T F) (path : List (Frame T F)) (s1 s' : Shape T F)
    (hm : ModelsAt t path s1) (hf : finish (path, s1) = some s') :
    ∃ t', Models t' s' ∧ t'.next = t.next ∧ t'.size = t.size ∧
      ((ctxPtr path none).isSome = true →
        checkBalanceLog t (ctxPtr path none) = .ok (t', finishLog (path, s1))) ∧
      ((ctxPtr path none).isSome = false → t' = t ∧ finishLog (path, s1) = []) := by
  cases path with
  | nil =>
    simp only [finish, Option.some.injEq] at hf
    subst hf
    exact ⟨t, hm, rfl, rfl, by simp, by simp [finishLog]⟩
  | cons f fs =>
    simp only [finish] at hf
    have hsz := hm.size_le
    obtain ⟨t', h1, h2, h3, h4⟩ := climbLog_sim fs t (f.fill s1) s' (t.next + 1) hm.up hf
      (by simp at hsz; omega)
    refine ⟨t', h2, h3, h4, fun _ => ?_, by simp⟩
    simp only [checkBalanceLog, ctxPtr_cons, finishLog]
    cases f <;> simpa using h1

section Ordered

variable [LinearOrder T]

theorem addNodeLog_sim (t : AVLtree T F) (s s' : Shape T F) (key : T) (value : F)
    (hm : Models t s) (hp : addNodeP t.next key value s = some s') :
    ∃ t', addNodeLog t key value =
        .ok (t', some ((hit key s).getD t.next), addNodeLogP t.next key value s) ∧
      Models t' s' ∧
      t'.next = t.next + (if (hit key s).isSome then 0 else 1) ∧
      t'.size = (if (hit key s).isSome then t.size else wrapInt (t.size + 1)) := by
  cases s with
  | nil =>
    have hr := hm.root
    simp only [ctxRoot_nil, ptr_nil] at hr
    simp only [addNodeP, Option.some.injEq] at hp
    subst hp
    refine ⟨_, by simp [addNodeLog, addNodeLogP, hr, newNode, hit, descend, pure, Except.pure]; rfl, ?_, ?_, ?_⟩
    · refine hm.transfer_alloc (fun x => ?_) (Nat.le_refl _) ?_
      · simp [leaf]
      · simp [leaf]
    · simp [hit, descend]
    · simp [hit, descend]
  | node a l k v h r =>
    obtain ⟨hfind, hm0, hne⟩ := findNode_sim key t (node a l k v h r) hm (by simp)
    have hr := hm.root
    simp only [ctxRoot_nil, ptr_node] at hr
    simp only [addNodeP] at hp
    have hhit : hit key (node a l k v h r) =
        match (descend key (node a l k v h r) []).2 with
        | nil => none
        | node a _ k _ _ _ => if k = key then some a else none := rfl
    have hlogP : addNodeLogP t.next key value (node a l k v h r) =
        finishLog ((descend key (node a l k v h r) []).1,
          attach t.next key value (descend key (node a l k v h r) []).2) := rfl
    rw [hlogP]
    rcases hd : descend key (node a l k v h r) [] with ⟨path, s0⟩
    rw [hd] at hfind hm0 hne hp hhit
    simp only at hfind hm0 hne hp hhit
    cases s0 with
    | nil => exact absurd rfl hne
    | node a0 l0 k0 v0 h0 r0 =>
      have hm00 := hm0
      obtain ⟨hroot, hctx, hsub, hnd, hfr⟩ := hm0
      simp only [holds_node] at hsub
      obtain ⟨ha0, hl0, hr0⟩ := hsub
      have dl0 := hl0.down
      have dr0 := hr0.down
      have hsk := hctx.skel
      have hnx : t.next ∉ (node a0 l0 k0 v0 h0 r0).addrs ++ ctxAddrs path :=
        fun hx => Nat.lt_irrefl _ (hfr _ hx)
      simp only [addrs_node, List.nodup_cons, List.nodup_append, List.mem_cons, List.mem_append,
        not_or, List.disjoint_cons_left, List.disjoint_cons_right, List.disjoint_append_left,
        List.disjoint_append_right, List.cons_append, List.append_assoc] at hnd hnx
      simp only [ptr_node] at hctx hroot hfind
      have hra : some a = ctxRoot path (some a0) := hr.symm.trans hroot
      rcases lt_trichotomy key k0 with hlt | heq | hgt
      · have hne' : ¬ key = k0 := ne_of_lt hlt
        have hne'' : ¬ k0 = key := fun e => hne' e.symm
        have hng : ¬ k0 < key := not_lt.mpr (le_of_lt hlt)
        simp only [hne'', if_false, Option.isSome_none, Option.getD_none] at hhit
        simp [addNodeLog, hr, hfind, bind, Except.bind, getKey, deref, ha0, Except.map,
          NodeMapTree.modify, withMem, updateHeight, dl0, dr0, hnd, hnx, getParent, pure,
          Except.pure, hhit, hne', hlt, hng, newNode, updateLeftSon, getHeight]
        generalize ht4 : AVLtree.mk _ (t.next + 1) (some a) (wrapInt (t.size + 1)) = t4
        have hm4 : ModelsAt t4 path (attach t.next key value (node a0 l0 k0 v0 h0 r0)) := by
          subst ht4
          refine hm00.transfer_alloc (fun x => ?_) (Nat.le_refl _) ?_
          · simp only [attach, hne', hng, gt_iff_lt, if_false, leaf, addrs_node, addrs_nil,
              List.count_cons, List.count_append, List.count_nil]
            omega
          · simp [attach, hne', hng, leaf, hnd, hnx, hr0, hctx, hra]
        obtain ⟨t', hM, hn, hs, hc1, hc2⟩ := finishLog_sim t4 path _ s' hm4 hp
        refine ⟨t', ?_, hM, ?_, ?_⟩
        · by_cases hpar : (ctxPtr path none).isSome = true
          · simp [hpar, hc1 hpar]
          · simp only [Bool.not_eq_true] at hpar
            simp [hpar, (hc2 hpar).1, (hc2 hpar).2]
        · rw [hn, ← ht4]
        · rw [hs, ← ht4]
      · subst heq
        simp only [if_true, Option.isSome_some, Option.getD_some] at hhit
        simp [addNodeLog, hr, hfind, bind, Except.bind, getKey, deref, ha0, Except.map, updateValue,
          NodeMapTree.modify, withMem, updateHeight, dl0, dr0, hnd, getParent, pure, Except.pure,
          hhit]
        generalize ht4 : AVLtree.mk _ t.next (some a) t.size = t4
        have hm4 : ModelsAt t4 path (attach t.next key value (node a0 l0 key v0 h0 r0)) := by
          subst ht4
          refine hm00.transfer (fun x => ?_) (Nat.le_refl _) ?_
          · simp [attach]
          · simp [attach, hnd, hl0, hr0, hctx, hra]
        obtain ⟨t', hM, hn, hs, hc1, hc2⟩ := finishLog_sim t4 path _ s' hm4 hp
        refine ⟨t', ?_, hM, ?_, ?_⟩
        · by_cases hpar : (ctxPtr path none).isSome = true
          · simp [hpar, hc1 hpar]
          · simp only [Bool.not_eq_true] at hpar
            simp [hpar, (hc2 hpar).1, (hc2 hpar).2]
        · rw [hn, ← ht4]
        · rw [hs, ← ht4]
      · have hne' : ¬ key = k0 := ne_of_gt hgt
        have hne'' : ¬ k0 = key := fun e => hne' e.symm
        have hnl : ¬ key < k0 := not_lt.mpr (le_of_lt hgt)
        simp only [hne'', if_false, Option.isSome_none, Option.getD_none] at hhit
        simp [addNodeLog, hr, hfind, bind, Except.bind, getKey, deref, ha0, Except.map,
          NodeMapTree.modify, withMem, updateHeight, dl0, dr0, hnd, hnx, getParent, pure,
          Except.pure, hhit, hne', hgt, hnl, newNode, updateRightSon, getHeight]
        generalize ht4 : AVLtree.mk _ (t.next + 1) (some a) (wrapInt (t.size + 1)) = t4
        have hm4 : ModelsAt t4 path (attach t.next key value (node a0 l0 k0 v0 h0 r0)) := by
          subst ht4
          refine hm00.transfer_alloc (fun x => ?_) (Nat.le_refl _) ?_
          · simp only [attach, hne', hgt, if_false, if_true, leaf, addrs_node, addrs_nil,
              List.count_cons, List.count_append, List.count_nil]
            omega
          · simp [attach, hne', hgt, leaf, hnd, hnx, hl0, hctx, hra]
        obtain ⟨t', hM, hn, hs, hc1, hc2⟩ := finishLog_sim t4 path _ s' hm4 hp
        refine ⟨t', ?_, hM, ?_, ?_⟩
        · by_cases hpar : (ctxPtr path none).isSome = true
          · simp [hpar, hc1 hpar]
          · simp only [Bool.not_eq_true] at hpar
            simp [hpar, (hc2 hpar).1, (hc2 hpar).2]
        · rw [hn, ← ht4]
        · rw [hs, ← ht4]

end Ordered

theorem detachLog_sim (t : AVLtree T F) (path path' : List (Frame T F)) (a : Nat) (k : T)
    (v : F) (h : Int) (l r s' : Shape T F)
    (hm : ModelsAt t path (node a l k v h r))
    (hd : detach path (node a l k v h r) = some (path', s')) :
    ∃ t', (do
        let numOfSons ← getNumOfSons t.mem (some a)
        let (t1, parentNodeToRemove) ←
          if numOfSons = 0 then removeLeaf t (some a) else pure (t, (none : Ptr))
        let (t2, parentNodeToRemove) ←
          if numOfSons = 1 then removeOneSon t1 (some a)
          else pure (t1, parentNodeToRemove)
        let (t3, parentNodeToRemove) ←
          if numOfSons > 1 then removeNodeInTheMiddle t2 (some a)
          else pure (t2, parentNodeToRemove)
        if parentNodeToRemove.isSome then checkBalanceLog t3 parentNodeToRemove
        else pure (t3, [])) =
        (if (ctxPtr path' none).isSome then checkBalanceLog t' (ctxPtr path' none)
          else pure (t', [])) ∧
      ModelsAt t' path' s' ∧ t'.next = t.next ∧ t'.size = wrapInt (t.size - 1) := by
  cases l with
  | nil =>
    cases r with
    | nil =>
      simp only [detach, ptr_nil, Option.isSome_none, Bool.false_eq_true, if_false, add_zero,
        if_true, Option.some.injEq, Prod.mk.injEq] at hd
      obtain ⟨rfl, rfl⟩ := hd
      obtain ⟨t', h1, h2, h3, h4⟩ := removeLeaf_sim t path a k v h hm
      exact ⟨t', by simp [hm.getNumOfSons, bind, Except.bind, h1, pure, Except.pure], h2, h3, h4⟩
    | node rn rl rk rv rh rr =>
      simp only [detach, ptr_nil, ptr_node, Option.isSome_none, Option.isSome_some,
        Bool.false_eq_true, if_false, if_true, zero_add, one_ne_zero, Option.some.injEq,
        Prod.mk.injEq] at hd
      obtain ⟨rfl, rfl⟩ := hd
      obtain ⟨t', h1, h2, h3, h4⟩ := removeOneSon_sim_right t path a rn k rk v rv h rh rl rr hm
      exact ⟨t', by simp [hm.getNumOfSons, bind, Except.bind, h1, pure, Except.pure], h2, h3, h4⟩
  | node ln ll lk lv lh lr =>
    cases r with
    | nil =>
      simp only [detach, ptr_nil, ptr_node, Option.isSome_none, Option.isSome_some,
        Bool.false_eq_true, if_false, if_true, add_zero, one_ne_zero, Option.some.injEq,
        Prod.mk.injEq] at hd
      obtain ⟨rfl, rfl⟩ := hd
      obtain ⟨t', h1, h2, h3, h4⟩ := removeOneSon_sim_left t path a ln k lk v lv h lh ll lr hm
      exact ⟨t', by simp [hm.getNumOfSons, bind, Except.bind, h1, pure, Except.pure], h2, h3, h4⟩
    | node rn rl rk rv rh rr =>
      have h20 : ¬ ((1 : Int) + 1 = 0) := by omega
      have h21 : ¬ ((1 : Int) + 1 = 1) := by omega
      simp only [detach, ptr_node, Option.isSome_some, if_true, h20, h21, if_false] at hd
      obtain ⟨t', h1, h2, h3, h4⟩ :=
        removeNodeInTheMiddle_sim t path path' a rn k rk v rv h rh _ rl rr s' hm hd
      exact ⟨t', by simp [hm.getNumOfSons, bind, Except.bind, h1, pure, Except.pure], h2, h3, h4⟩

section Ordered

variable [LinearOrder T]

theorem removeNodeLog_sim (t : AVLtree T F) (s s' : Shape T F) (key : T)
    (hm : Models t s) (hp : removeP key s = some s') :
    ∃ t', removeNodeLog t key = .ok (t', removeLogP key s) ∧ Models t' s' ∧
      t'.next = t.next ∧
      t'.size = wrapInt (t.size - 1) := by
  cases s with
  | nil => simp [removeP, descend] at hp
  | node a l k v h r =>
    obtain ⟨hfind, hm0, hne⟩ := findNode_sim key t (node a l k v h r) hm (by simp)
    have hr := hm.root
    simp only [ctxRoot_nil, ptr_node] at hr
    simp only [removeP] at hp
    rcases hd : descend key (node a l k v h r) [] with ⟨path, s0⟩
    rw [hd] at hfind hm0 hne hp
    simp only at hfind hm0 hne hp
    cases s0 with
    | nil => exact absurd rfl hne
    | node a0 l0 k0 v0 h0 r0 =>
      simp only at hp
      by_cases hk : k0 = key
      · simp only [hk, ne_eq, not_true_eq_false, if_false] at hp
        cases hdt : detach path (node a0 l0 key v0 h0 r0) with
        | none => simp [hk, hdt] at hp
        | some z =>
          obtain ⟨path', s1⟩ := z
          subst hk
          simp only [hdt] at hp
          obtain ⟨t1, h1, hm1, hn1, hs1⟩ := detachLog_sim t path path' a0 k0 v0 h0 l0 r0 s1 hm0 hdt
          obtain ⟨t', hM, hn, hs, hc1, hc2⟩ := finishLog_sim t1 path' s1 s' hm1 hp
          refine ⟨t', ?_, hM, by omega, by omega⟩
          have hkey : getKey t.mem (some a0) = .ok k0 := by
            have := hm0.sub
            simp only [holds_node] at this
            simp [getKey, deref, this.1, Except.map]
          simp only [removeNodeLog, removeLogP, hd, hdt, hr, hfind, ptr_node, bind, Except.bind, hkey, ne_eq,
            not_true_eq_false, if_false]
          simp only [bind, Except.bind] at h1
          rw [h1]
          by_cases hpar : (ctxPtr path' none).isSome = true
          · simp [hpar, hc1 hpar]
          · simp only [Bool.not_eq_true] at hpar
            simp [hpar, (hc2 hpar).1, (hc2 hpar).2, pure, Except.pure]
      · simp [hk] at hp

end Ordered

/-! ## Arithmetic of the rotations in `addNode` -/

theorem ins_bal (L R hl0 hr0 : Int) (hb0 : -1 ≤ hl0 - hr0 ∧ hl0 - hr0 ≤ 1)
    (hbal : -1 ≤ L - R ∧ L - R ≤ 1)
    (hg : (R = hr0 ∧ (L = hl0 ∨ L = hl0 + 1)) ∨ (L = hl0 ∧ (R = hr0 ∨ R = hr0 + 1))) :
    1 + max L R = 1 + max hl0 hr0 ∨ (1 + max L R = 1 + max hl0 hr0 + 1 ∧ L ≠ R) := by
  rcases max_cases hl0 hr0 with ⟨e, e'⟩ | ⟨e, e'⟩ <;> rw [e] <;> clear e <;>
    rcases max_cases L R with ⟨e, e''⟩ | ⟨e, e''⟩ <;> rw [e] <;> clear e <;> omega

theorem ins_LL (A B C lh hl0 hr0 h : Int)
    (hb1 : -1 ≤ A - B ∧ A - B ≤ 1) (hh1 : lh = 1 + max A B)
    (h2 : lh - C = 2) (hf : A - B ≥ 0)
    (hb0 : -1 ≤ hl0 - hr0 ∧ hl0 - hr0 ≤ 1) (hh : h = 1 + max hl0 hr0)
    (hg : (C = hr0 ∧ (lh = hl0 ∨ (lh = hl0 + 1 ∧ A ≠ B))) ∨
      (lh = hl0 ∧ (C = hr0 ∨ C = hr0 + 1))) :
    1 + max A (1 + max B C) = h := by
  have e1 : max A B = A := max_eq_left (by omega)
  rw [e1] at hh1
  have e0 : max hl0 hr0 = hl0 := max_eq_left (by omega)
  rw [e0] at hh
  have e2 : max B C = B := max_eq_left (by omega)
  have e3 : max A (1 + B) = 1 + B := max_eq_right (by omega)
  rw [e2, e3]
  clear e1 e0 e2 e3
  omega

theorem ins_LR (A D E C lrh lh hl0 hr0 h : Int)
    (hb1 : -1 ≤ A - lrh ∧ A - lrh ≤ 1) (hh1 : lh = 1 + max A lrh)
    (hh2 : lrh = 1 + max D E)
    (h2 : lh - C = 2) (hf : ¬ A - lrh ≥ 0)
    (hb0 : -1 ≤ hl0 - hr0 ∧ hl0 - hr0 ≤ 1) (hh : h = 1 + max hl0 hr0)
    (hg : (C = hr0 ∧ (lh = hl0 ∨ (lh = hl0 + 1 ∧ A ≠ lrh))) ∨
      (lh = hl0 ∧ (C = hr0 ∨ C = hr0 + 1))) :
    1 + max (1 + max A D) (1 + max E C) = h := by
  have e1 : max A lrh = lrh := max_eq_right (by omega)
  rw [e1] at hh1
  have e0 : max hl0 hr0 = hl0 := max_eq_left (by omega)
  rw [e0] at hh
  have hD := le_max_left D E
  have hE := le_max_right D E
  have e5 : max D E = A := by omega
  rw [e5] at hh2 hD hE
  have e2 : max A D = A := max_eq_left (by omega)
  have e3 : max E C = C := max_eq_right (by omega)
  have e6 : max (1 + A) (1 + C) = 1 + A := max_eq_left (by omega)
  rw [e2, e3, e6]
  clear e1 e0 e5 e2 e3 e6
  omega

theorem ins_RL (L D E R rlh rh hl0 hr0 h : Int)
    (hh1 : rh = 1 + max rlh R)
    (hh2 : rlh = 1 + max D E)
    (h2 : L - rh = -2) (hf : rlh - R = 1)
    (hb0 : -1 ≤ hl0 - hr0 ∧ hl0 - hr0 ≤ 1) (hh : h = 1 + max hl0 hr0)
    (hg : (rh = hr0 ∧ (L = hl0 ∨ L = hl0 + 1)) ∨
      (L = hl0 ∧ (rh = hr0 ∨ (rh = hr0 + 1 ∧ rlh ≠ R)))) :
    1 + max (1 + max L D) (1 + max E R) = h := by
  have e1 : max rlh R = rlh := max_eq_left (by omega)
  rw [e1] at hh1
  have e0 : max hl0 hr0 = hr0 := max_eq_right (by omega)
  rw [e0] at hh
  have hD := le_max_left D E
  have hE := le_max_right D E
  have e5 : max D E = L := by omega
  rw [e5] at hh2 hD hE
  have e2 : max L D = L := max_eq_left (by omega)
  have e3 : max E R = R := max_eq_right (by omega)
  have e6 : max (1 + L) (1 + R) = 1 + L := max_eq_left (by omega)
  rw [e2, e3, e6]
  clear e1 e0 e5 e2 e3 e6
  omega

theorem ins_RR (L X R rh hl0 hr0 h : Int)
    (hb1 : -1 ≤ X - R ∧ X - R ≤ 1) (hh1 : rh = 1 + max X R)
    (h2 : L - rh = -2) (hf : ¬ X - R = 1)
    (hb0 : -1 ≤ hl0 - hr0 ∧ hl0 - hr0 ≤ 1) (hh : h = 1 + max hl0 hr0)
    (hg : (rh = hr0 ∧ (L = hl0 ∨ L = hl0 + 1)) ∨
      (L = hl0 ∧ (rh = hr0 ∨ (rh = hr0 + 1 ∧ X ≠ R)))) :
    1 + max (1 + max L X) R = h := by
  have e1 : max X R = R := max_eq_right (by omega)
  rw [e1] at hh1
  have e0 : max hl0 hr0 = hr0 := max_eq_right (by omega)
  rw [e0] at hh
  have e2 : max L X = X := max_eq_right (by omega)
  have e3 : max (1 + X) R = R := max_eq_right (by omega)
  rw [e2, e3]
  clear e1 e0 e2 e3
  omega

/-! ## The rotation at a node out of balance -/

theorem rebalance_LL (a la : Nat) (ll lr r : Shape T F) (k lk : T) (v lv : F) (h lh : Int)
    (h2 : lh - r.hgt = 2) (hf : ll.hgt - lr.hgt ≥ 0) :
    rebalance (node a (node la ll lk lv lh lr) k v h r) =
        some (node la ll lk lv (1 + max ll.hgt (1 + max lr.hgt r.hgt))
          (node a lr k v (1 + max lr.hgt r.hgt) r)) ∧
      rotKind (node a (node la ll lk lv lh lr) k v h r) = Rotation.LL := by
  simp only [rebalance, rotKind, hgt_node, h2, if_true, Shape.bf, hf, rotLL, and_self]

theorem rebalance_LR (a la lra : Nat) (ll lrl lrr r : Shape T F) (k lk lrk : T)
    (v lv lrv : F) (h lh lrh : Int) (h2 : lh - r.hgt = 2) (hf : ¬ ll.hgt - lrh ≥ 0) :
    rebalance (node a (node la ll lk lv lh (node lra lrl lrk lrv lrh lrr)) k v h r) =
        some (node lra (node la ll lk lv (1 + max ll.hgt lrl.hgt) lrl) lrk lrv
          (1 + max (1 + max ll.hgt lrl.hgt) (1 + max lrr.hgt r.hgt))
          (node a lrr k v (1 + max lrr.hgt r.hgt) r)) ∧
      rotKind (node a (node la ll lk lv lh (node lra lrl lrk lrv lrh lrr)) k v h r) =
        Rotation.LR := by
  simp only [rebalance, rotKind, hgt_node, h2, if_true, Shape.bf, hf, if_false, rotLR,
    and_self]

theorem rebalance_RL (a ra rla : Nat) (l rll rlr rr : Shape T F) (k rk rlk : T)
    (v rv rlv : F) (h rh rlh : Int) (h2 : ¬ l.hgt - rh = 2) (hf : rlh - rr.hgt = 1) :
    rebalance (node a l k v h (node ra (node rla rll rlk rlv rlh rlr) rk rv rh rr)) =
        some (node rla (node a l k v (1 + max l.hgt rll.hgt) rll) rlk rlv
          (1 + max (1 + max l.hgt rll.hgt) (1 + max rlr.hgt rr.hgt))
          (node ra rlr rk rv (1 + max rlr.hgt rr.hgt) rr)) ∧
      rotKind (node a l k v h (node ra (node rla rll rlk rlv rlh rlr) rk rv rh rr)) =
        Rotation.RL := by
  simp only [rebalance, rotKind, hgt_node, h2, if_false, Shape.bf, hf, if_true, rotRL,
    and_self]

theorem rebalance_RR (a ra : Nat) (l rl rr : Shape T F) (k rk : T) (v rv : F) (h rh : Int)
    (h2 : ¬ l.hgt - rh = 2) (hf : ¬ rl.hgt - rr.hgt = 1) :
    rebalance (node a l k v h (node ra rl rk rv rh rr)) =
        some (node ra (node a l k v (1 + max l.hgt rl.hgt) rl) rk rv
          (1 + max (1 + max l.hgt rl.hgt) rr.hgt) rr) ∧
      rotKind (node a l k v h (node ra rl rk rv rh rr)) = Rotation.RR := by
  simp only [rebalance, rotKind, hgt_node, h2, if_false, Shape.bf, hf, rotRR, and_self]

theorem visit_rot (a : Nat) (l r s' : Shape T F) (k : T) (v : F) (h : Int)
    (hbal : ¬ (-1 ≤ l.hgt - r.hgt ∧ l.hgt - r.hgt ≤ 1))
    (hr : rebalance (node a l k v h r) = some s') :
    visit (node a l k v h r) = some (decide (s'.hgt ≠ h), s') := by
  simp only [visit]
  rw [if_neg hbal, hr]

theorem visit_bal (a : Nat) (l r : Shape T F) (k : T) (v : F) (h : Int)
    (hbal : -1 ≤ l.hgt - r.hgt ∧ l.hgt - r.hgt ≤ 1) :
    visit (node a l k v h r) = some (true, node a l k v (1 + max l.hgt r.hgt) r) := by
  simp only [visit]
  rw [if_pos hbal]

/-! ## The walk of `checkBalance` in `addNode` -/

theorem grown_heights (s : Shape T F) (H0 : Int) (h : Grown s H0) :
    s.hgt = H0 ∨ s.hgt = H0 + 1 := by
  rcases h with h | ⟨h, _⟩
  · exact Or.inl h
  · exact Or.inr h

/-- One round of `checkBalance` in `addNode`: a node in balance gets its height and
the walk goes on; a node out of balance is rotated, the subtree then has the height
the node stored, and the walk stops. -/
theorem visit_ins (path : List (Frame T F)) (s : Shape T F) (hw : WalkIns path s) :
    ∃ c s', visit s = some (c, s') ∧
      ((c = true ∧ visitEv s = none ∧ s'.Balanced ∧ Grown s' s.hgt) ∨
       (c = false ∧ ∃ e, visitEv s = some e ∧ e.newHeight = e.highTemp)) := by
  cases s with
  | nil => exact absurd hw (by simp [WalkIns])
  | node a l k v h r =>
    obtain ⟨hl, hr, hl0, hr0, hb0, hh, hp, hg⟩ := hw
    have hg' : (r.hgt = hr0 ∧ (l.hgt = hl0 ∨ l.hgt = hl0 + 1)) ∨
        (l.hgt = hl0 ∧ (r.hgt = hr0 ∨ r.hgt = hr0 + 1)) := by
      rcases hg with ⟨g1, g2⟩ | ⟨g1, g2⟩
      · exact Or.inl ⟨g1, grown_heights _ _ g2⟩
      · exact Or.inr ⟨g1, grown_heights _ _ g2⟩
    by_cases hbal : -1 ≤ l.hgt - r.hgt ∧ l.hgt - r.hgt ≤ 1
    · refine ⟨true, _, visit_bal a l r k v h hbal, Or.inl ⟨rfl, visitEv_balanced a l r k v h hbal,
        ⟨hbal, rfl, hl, hr⟩, ?_⟩⟩
      simp only [Grown, hgt_node, Tilted]
      rw [hh]
      exact ins_bal _ _ _ _ hb0 hbal hg'
    · have hstop : ∀ s', rebalance (node a l k v h r) = some s' → s'.hgt = h →
          ∃ c s', visit (node a l k v h r) = some (c, s') ∧
            ((c = true ∧ visitEv (node a l k v h r) = none ∧ s'.Balanced ∧
                Grown s' (node a l k v h r).hgt) ∨
             (c = false ∧ ∃ e, visitEv (node a l k v h r) = some e ∧
                e.newHeight = e.highTemp)) := by
        intro s' hreb hhgt
        refine ⟨false, s', ?_, Or.inr ⟨rfl, _, visitEv_rot a l r s' k v h hbal hreb, hhgt⟩⟩
        rw [visit_rot a l r s' k v h hbal hreb]
        simp [hhgt]
      by_cases h2 : l.hgt - r.hgt = 2
      · have hlne := hl.ne_nil (by have := hr.hgt_ge; omega)
        cases l with
        | nil => exact absurd rfl hlne
        | node la ll lk lv lh lr =>
          obtain ⟨hb1, hh1, hll, hlr⟩ := hl
          simp only [hgt_node] at h2 hg' hbal
          have hgl : (r.hgt = hr0 ∧ (lh = hl0 ∨ (lh = hl0 + 1 ∧ ll.hgt ≠ lr.hgt))) ∨
              (lh = hl0 ∧ (r.hgt = hr0 ∨ r.hgt = hr0 + 1)) := by
            rcases hg with ⟨g1, g2⟩ | ⟨g1, g2⟩
            · exact Or.inl ⟨g1, g2⟩
            · exact Or.inr ⟨g1, grown_heights _ _ g2⟩
          by_cases hf : ll.hgt - lr.hgt ≥ 0
          · refine hstop _ (rebalance_LL a la ll lr r k lk v lv h lh h2 hf).1 ?_
            simp only [hgt_node]
            exact ins_LL _ _ _ lh hl0 hr0 h hb1 hh1 h2 hf hb0 hh hgl
          · have hlrne := hlr.ne_nil (by have := hll.hgt_ge; omega)
            cases lr with
            | nil => exact absurd rfl hlrne
            | node lra lrl lrk lrv lrh lrr =>
              obtain ⟨hb2, hh2, hlrl, hlrr⟩ := hlr
              simp only [hgt_node] at hf hb1 hh1 hgl
              refine hstop _
                (rebalance_LR a la lra ll lrl lrr r k lk lrk v lv lrv h lh lrh h2 hf).1 ?_
              simp only [hgt_node]
              exact ins_LR _ _ _ _ lrh lh hl0 hr0 h hb1 hh1 hh2 h2 hf hb0 hh hgl
      · have h2n : l.hgt - r.hgt = -2 := by omega
        have hrne := hr.ne_nil (by have := hl.hgt_ge; omega)
        cases r with
        | nil => exact absurd rfl hrne
        | node ra rl rk rv rh rr =>
          obtain ⟨hb1, hh1, hrl, hrr⟩ := hr
          simp only [hgt_node] at h2 h2n hg' hbal
          have hgr : (rh = hr0 ∧ (l.hgt = hl0 ∨ l.hgt = hl0 + 1)) ∨
              (l.hgt = hl0 ∧ (rh = hr0 ∨ (rh = hr0 + 1 ∧ rl.hgt ≠ rr.hgt))) := by
            rcases hg with ⟨g1, g2⟩ | ⟨g1, g2⟩
            · exact Or.inl ⟨g1, grown_heights _ _ g2⟩
            · exact Or.inr ⟨g1, g2⟩
          by_cases hf : rl.hgt - rr.hgt = 1
          · have hrlne := hrl.ne_nil (by have := hrr.hgt_ge; omega)
            cases rl with
            | nil => exact absurd rfl hrlne
            | node rla rll rlk rlv rlh rlr =>
              obtain ⟨hb2, hh2, hrll, hrlr⟩ := hrl
              simp only [hgt_node] at hf hb1 hh1 hgr
              refine hstop _
                (rebalance_RL a ra rla l rll rlr rr k rk rlk v rv rlv h rh rlh h2 hf).1 ?_
              simp only [hgt_node]
              exact ins_RL _ _ _ _ rlh rh hl0 hr0 h hh1 hh2 h2n hf hb0 hh hgr
          · refine hstop _ (rebalance_RR a ra l rl rr k rk v rv h rh h2 hf).1 ?_
            simp only [hgt_node]
            exact ins_RR _ _ _ rh hl0 hr0 h hb1 hh1 h2n hf hb0 hh hgr

theorem walkIns_up (f : Frame T F) (fs : List (Frame T F)) (s' : Shape T F) (H0 : Int)
    (hp : PathOK (f :: fs) H0) (hb : s'.Balanced) (hg : Grown s' H0) :
    WalkIns fs (f.fill s') := by
  cases f with
  | L a k v h r =>
    obtain ⟨h1, h2, h3, h4⟩ := hp
    exact ⟨hb, h1, H0, r.hgt, h2, h3, h4, Or.inl ⟨rfl, hg⟩⟩
  | R a l k v h =>
    obtain ⟨h1, h2, h3, h4⟩ := hp
    exact ⟨h1, hb, l.hgt, H0, h2, h3, h4, Or.inr ⟨rfl, hg⟩⟩

theorem walkIns_pathOK (path : List (Frame T F)) (s : Shape T F) (hw : WalkIns path s) :
    PathOK path s.hgt := by
  cases s with
  | nil => exact absurd hw (by simp [WalkIns])
  | node a l k v h r =>
    obtain ⟨_, _, _, _, _, _, hp, _⟩ := hw
    exact hp

/-- In `addNode` the walk of `checkBalance` makes at most one rotation, and after it
the subtree has the height that the node out of balance stored. -/
theorem climbLog_ins : ∀ (path : List (Frame T F)) (s : Shape T F), WalkIns path s →
    (climbLog path s).length ≤ 1 ∧ ∀ e ∈ climbLog path s, e.newHeight = e.highTemp
  | [], s, hw => by
    obtain ⟨c, s', _, h | h⟩ := visit_ins [] s hw
    · simp [climbLog, h.2.1]
    · obtain ⟨_, e, he, hs⟩ := h
      simp [climbLog, he, hs]
  | f :: fs, s, hw => by
    have hp := walkIns_pathOK _ _ hw
    obtain ⟨c, s', hv, h | h⟩ := visit_ins (f :: fs) s hw
    · obtain ⟨rfl, he, hb, hg⟩ := h
      have ih := climbLog_ins fs (f.fill s') (walkIns_up f fs s' s.hgt hp hb hg)
      simpa [climbLog, hv, he] using ih
    · obtain ⟨rfl, e, he, hs⟩ := h
      simp [climbLog, hv, he, hs]

theorem attach_grown [LinearOrder T] (nx : Nat) (key : T) (value : F) (a : Nat)
    (l r : Shape T F) (k : T) (v : F) (h : Int) (hb : (node a l k v h r).Balanced)
    (hstop : k = key ∨ (key < k ∧ l = nil) ∨ (k < key ∧ r = nil)) :
    Grown (attach nx key value (node a l k v h r)) h := by
  obtain ⟨h1, h2, hl, hr⟩ := hb
  have hlg := hl.hgt_ge
  have hrg := hr.hgt_ge
  rcases hstop with e | ⟨e, rfl⟩ | ⟨e, rfl⟩
  · left
    simp only [attach, e, if_true, hgt_node]
    exact h2.symm
  · simp only [Grown, attach, ne_of_lt e, if_false, not_lt_of_gt e, gt_iff_lt, hgt_node,
      hgt_nil, Tilted, leaf] at *
    rcases max_cases (-1) r.hgt with ⟨e1, _⟩ | ⟨e1, _⟩ <;> rw [e1] at h2 <;>
      rcases max_cases 0 r.hgt with ⟨e2, _⟩ | ⟨e2, _⟩ <;> rw [e2] <;> omega
  · simp only [Grown, attach, ne_of_gt e, if_false, e, if_true, gt_iff_lt, hgt_node,
      hgt_nil, Tilted, leaf] at *
    rcases max_cases l.hgt (-1) with ⟨e1, _⟩ | ⟨e1, _⟩ <;> rw [e1] at h2 <;>
      rcases max_cases l.hgt 0 with ⟨e2, _⟩ | ⟨e2, _⟩ <;> rw [e2] <;> omega

theorem addNodeLogP_ins [LinearOrder T] (nx : Nat) (key : T) (value : F) (s : Shape T F)
    (hb : s.Balanced) :
    (addNodeLogP nx key value s).length ≤ 1 ∧
      ∀ e ∈ addNodeLogP nx key value s, e.newHeight = e.highTemp := by
  cases s with
  | nil => simp [addNodeLogP]
  | node a0 l0 k0 v0 h0 r0 =>
    obtain ⟨a, l, k, v, h, r, hd, hpl, _, hstop⟩ :=
      descend_spec key (node a0 l0 k0 v0 h0 r0) [] (by simp) trivial
    rcases hq : descend key (node a0 l0 k0 v0 h0 r0) [] with ⟨path, s0⟩
    rw [hq] at hd hpl
    simp only at hd hpl
    subst hd
    rw [plug_nil] at hpl
    rw [← hpl] at hb
    obtain ⟨hb0, hp⟩ := (balanced_plug _ _).1 hb
    obtain ⟨hb1, _⟩ := attach_balanced nx key value a l r k v h hb0 hstop
    have hg := attach_grown nx key value a l r k v h hb0 hstop
    simp only [addNodeLogP, hq]
    cases path with
    | nil => simp [finishLog]
    | cons f fs =>
      simp only [finishLog]
      exact climbLog_ins fs _ (walkIns_up f fs _ h hp hb1 hg)

/-! ## Every rotation is at a node with the balance factor 2 or -2 -/

theorem visitEv_walk (path : List (Frame T F)) (s : Shape T F) (hw : Walk path s)
    (e : RotEvent) (he : visitEv s = some e) :
    (e.BF = 2 ∧ (e.kind = Rotation.LL ∨ e.kind = Rotation.LR)) ∨
      (e.BF = -2 ∧ (e.kind = Rotation.RL ∨ e.kind = Rotation.RR)) := by
  cases s with
  | nil => exact absurd hw (by simp [Walk])
  | node a l k v h r =>
    obtain ⟨hl, hr, hl0, hr0, hb0, hp, hch, hst⟩ := hw
    by_cases hbal : -1 ≤ l.hgt - r.hgt ∧ l.hgt - r.hgt ≤ 1
    · rw [visitEv_balanced a l r k v h hbal] at he
      cases he
    · cases hreb : rebalance (node a l k v h r) with
      | none => simp [visitEv, hbal, hreb] at he
      | some s' =>
        rw [visitEv_rot a l r s' k v h hbal hreb, Option.some.injEq] at he
        subst he
        simp only
        by_cases h2 : l.hgt - r.hgt = 2
        · left
          refine ⟨h2, ?_⟩
          simp only [rotKind, h2, if_true]
          cases l.bf with
          | none => exact Or.inl rfl
          | some f => by_cases hf : f ≥ 0 <;> simp [hf]
        · right
          refine ⟨by omega, ?_⟩
          simp only [rotKind, h2, if_false]
          cases r.bf with
          | none => exact Or.inr rfl
          | some f => by_cases hf : f = 1 <;> simp [hf]

theorem climbLog_walk : ∀ (path : List (Frame T F)) (s : Shape T F), Walk path s →
    ∀ e ∈ climbLog path s,
      (e.BF = 2 ∧ (e.kind = Rotation.LL ∨ e.kind = Rotation.LR)) ∨
        (e.BF = -2 ∧ (e.kind = Rotation.RL ∨ e.kind = Rotation.RR))
  | [], s, hw, e, he => by
    simp only [climbLog, Option.mem_toList, Option.mem_def] at he
    exact visitEv_walk [] s hw e he
  | f :: fs, s, hw, e, he => by
    obtain ⟨c, s', hv, hb, _, hstop, hgo⟩ := visit_walk (f :: fs) s hw
    cases c with
    | false =>
      simp only [climbLog, hv, Option.mem_toList, Option.mem_def] at he
      exact visitEv_walk _ s hw e he
    | true =>
      simp only [climbLog, hv, List.mem_append, Option.mem_toList, Option.mem_def] at he
      rcases he with he | he
      · exact visitEv_walk _ s hw e he
      · obtain ⟨H0, hp, hd⟩ := hgo rfl
        exact climbLog_walk fs (f.fill s') (walk_up f fs s' H0 hp hb hd) e he

/-! ## Where the walk stops after a rotation -/

theorem climbLog_stop : ∀ (path : List (Frame T F)) (s r : Shape T F),
    climb path s = some r → ∀ e ∈ climbLog path s, e.newHeight = e.highTemp →
    ∃ p' sub, r = plug p' sub ∧ sub.ptr = e.localRoot ∧ sub.hgt = e.newHeight
  | path, nil, r, hc, e, he, _ => by
    cases path <;> simp [climb, visit] at hc
  | [], node a l k v h r0, r, hc, e, he, hs => by
    simp only [climbLog, Option.mem_toList, Option.mem_def] at he
    by_cases hbal : -1 ≤ l.hgt - r0.hgt ∧ l.hgt - r0.hgt ≤ 1
    · rw [visitEv_balanced a l r0 k v h hbal] at he
      cases he
    · cases hreb : rebalance (node a l k v h r0) with
      | none => simp [visitEv, hbal, hreb] at he
      | some s' =>
        rw [visitEv_rot a l r0 s' k v h hbal hreb, Option.some.injEq] at he
        subst he
        simp only [climb, visit_rot a l r0 s' k v h hbal hreb, Option.map_some',
          Option.some.injEq] at hc
        subst hc
        exact ⟨[], s', rfl, rfl, rfl⟩
  | f :: fs, node a l k v h r0, r, hc, e, he, hs => by
    by_cases hbal : -1 ≤ l.hgt - r0.hgt ∧ l.hgt - r0.hgt ≤ 1
    · simp only [climbLog, visit_bal a l r0 k v h hbal, visitEv_balanced a l r0 k v h hbal,
        Option.toList, List.nil_append] at he
      simp only [climb, visit_bal a l r0 k v h hbal] at hc
      exact climbLog_stop fs _ r hc e he hs
    · cases hreb : rebalance (node a l k v h r0) with
      | none =>
        have hvn : visit (node a l k v h r0) = none := by
          simp only [visit]
          rw [if_neg hbal, hreb]
        simp only [climb, hvn] at hc
        cases hc
      | some s' =>
        have hv := visit_rot a l r0 s' k v h hbal hreb
        have hev := visitEv_rot a l r0 s' k v h hbal hreb
        by_cases hh : s'.hgt = h
        · simp only [hh, ne_eq, not_true_eq_false, decide_False] at hv
          simp only [climb, hv, Option.some.injEq] at hc
          simp only [climbLog, hv, hev, Option.toList, List.mem_singleton] at he
          subst he
          subst hc
          exact ⟨f :: fs, s', rfl, rfl, rfl⟩
        · simp only [hh, ne_eq, not_false_eq_true, decide_True] at hv
          simp only [climb, hv] at hc
          simp only [climbLog, hv, hev, Option.toList, List.singleton_append,
            List.mem_cons] at he
          rcases he with rfl | he
          · exact absurd hs hh
          · exact climbLog_stop fs _ r hc e he hs

/-! ## The rotations of `addNode` and of `removeNode` -/

theorem finishLog_walk (path : List (Frame T F)) (s1 : Shape T F)
    (hw : ∀ f fs, path = f :: fs → Walk fs (f.fill s1)) :
    ∀ e ∈ finishLog (path, s1),
      (e.BF = 2 ∧ (e.kind = Rotation.LL ∨ e.kind = Rotation.LR)) ∨
        (e.BF = -2 ∧ (e.kind = Rotation.RL ∨ e.kind = Rotation.RR)) := by
  cases path with
  | nil => simp [finishLog]
  | cons f fs =>
    simp only [finishLog]
    exact climbLog_walk fs _ (hw f fs rfl)

theorem finishLog_stop (path : List (Frame T F)) (s1 r : Shape T F)
    (hf : finish (path, s1) = some r) :
    ∀ e ∈ finishLog (path, s1), e.newHeight = e.highTemp →
      ∃ p' sub, r = plug p' sub ∧ sub.ptr = e.localRoot ∧ sub.hgt = e.newHeight := by
  cases path with
  | nil => simp [finishLog]
  | cons f fs =>
    simp only [finishLog]
    simp only [finish] at hf
    exact climbLog_stop fs _ r hf

section Ordered

variable [LinearOrder T]

theorem addNodeLogP_walk (nx : Nat) (key : T) (value : F) (s : Shape T F)
    (hb : s.Balanced) :
    ∀ e ∈ addNodeLogP nx key value s,
      (e.BF = 2 ∧ (e.kind = Rotation.LL ∨ e.kind = Rotation.LR)) ∨
        (e.BF = -2 ∧ (e.kind = Rotation.RL ∨ e.kind = Rotation.RR)) := by
  cases s with
  | nil => simp [addNodeLogP]
  | node a0 l0 k0 v0 h0 r0 =>
    obtain ⟨a, l, k, v, h, r, hd, hpl, _, hstop⟩ :=
      descend_spec key (node a0 l0 k0 v0 h0 r0) [] (by simp) trivial
    rcases hq : descend key (node a0 l0 k0 v0 h0 r0) [] with ⟨path, s0⟩
    rw [hq] at hd hpl
    simp only at hd hpl
    subst hd
    rw [plug_nil] at hpl
    rw [← hpl] at hb
    obtain ⟨hb0, hp⟩ := (balanced_plug _ _).1 hb
    obtain ⟨hb1, hd1⟩ := attach_balanced nx key value a l r k v h hb0 hstop
    simp only [addNodeLogP, hq]
    apply finishLog_walk
    rintro f fs rfl
    exact walk_up f fs _ h hp hb1 hd1

theorem addNodeLogP_stop (nx : Nat) (key : T) (value : F) (s s' : Shape T F)
    (hp : addNodeP nx key value s = some s') :
    ∀ e ∈ addNodeLogP nx key value s, e.newHeight = e.highTemp →
      ∃ p' sub, s' = plug p' sub ∧ sub.ptr = e.localRoot ∧ sub.hgt = e.newHeight := by
  cases s with
  | nil => simp [addNodeLogP]
  | node a0 l0 k0 v0 h0 r0 =>
    simp only [addNodeP] at hp
    simp only [addNodeLogP]
    rcases hq : descend key (node a0 l0 k0 v0 h0 r0) [] with ⟨path, s0⟩
    rw [hq] at hp
    exact finishLog_stop path _ s' hp

theorem removeLogP_walk (key : T) (s : Shape T F) (hb : s.Balanced) :
    ∀ e ∈ removeLogP key s,
      (e.BF = 2 ∧ (e.kind = Rotation.LL ∨ e.kind = Rotation.LR)) ∨
        (e.BF = -2 ∧ (e.kind = Rotation.RL ∨ e.kind = Rotation.RR)) := by
  cases s with
  | nil => simp [removeLogP, descend]
  | node a0 l0 k0 v0 h0 r0 =>
    obtain ⟨a, l, k, v, h, r, hd, hpl, _, _⟩ :=
      descend_spec key (node a0 l0 k0 v0 h0 r0) [] (by simp) trivial
    rcases hq : descend key (node a0 l0 k0 v0 h0 r0) [] with ⟨path, s0⟩
    rw [hq] at hd hpl
    simp only at hd hpl
    subst hd
    rw [plug_nil] at hpl
    rw [← hpl] at hb
    obtain ⟨hb0, hp⟩ := (balanced_plug _ _).1 hb
    obtain ⟨path', s1, hdt, _, hcons⟩ := detach_walk path a l r k v h hb0 hp
    simp only [removeLogP, hq, hdt]
    exact finishLog_walk path' s1 hcons

theorem removeLogP_stop (key : T) (s s' : Shape T F) (hp : removeP key s = some s') :
    ∀ e ∈ removeLogP key s, e.newHeight = e.highTemp →
      ∃ p' sub, s' = plug p' sub ∧ sub.ptr = e.localRoot ∧ sub.hgt = e.newHeight := by
  simp only [removeP] at hp
  simp only [removeLogP]
  rcases hq : descend key s [] with ⟨path, s0⟩
  rw [hq] at hp
  cases s0 with
  | nil => simp
  | node a l k v h r =>
    simp only at hp ⊢
    split at hp
    · cases hp
    · cases hdt : detach path (node a l k v h r) with
      | none => simp
      | some z =>
        obtain ⟨path', s1⟩ := z
        rw [hdt] at hp
        exact finishLog_stop path' s1 s' hp

/-- The method `addNode` on a tree in balance, with the record of its rotations. -/
theorem addNodeLog_full (t : AVLtree T F) (s : Shape T F) (key : T) (value : F)
    (hm : Models t s) (hb : s.Balanced) :
    ∃ t' s', addNodeLog t key value =
        .ok (t', some ((hit key s).getD t.next), addNodeLogP t.next key value s) ∧
      addNode t key value = .ok (t', some ((hit key s).getD t.next)) ∧
      Models t' s' ∧ s'.Balanced ∧ addNodeP t.next key value s = some s' := by
  obtain ⟨s', hp, hb'⟩ := addNodeP_balanced t.next key value s hb
  obtain ⟨t', h1, h2, _, _⟩ := addNodeLog_sim t s s' key value hm hp
  refine ⟨t', s', h1, ?_, h2, hb', hp⟩
  rw [← addNodeLog_fst, h1]
  rfl

/-- The method `removeNode` on a tree in balance with the key, with the record of its
rotations. -/
theorem removeNodeLog_full (t : AVLtree T F) (s : Shape T F) (key : T)
    (hm : Models t s) (hb : s.Balanced) (hh : hit key s ≠ none) :
    ∃ t' s', removeNodeLog t key = .ok (t', removeLogP key s) ∧
      removeNode t key = .ok t' ∧ Models t' s' ∧ s'.Balanced ∧
      removeP key s = some s' := by
  obtain ⟨s', hp, hb'⟩ := removeP_balanced key s hb hh
  obtain ⟨t', h1, h2, _, _⟩ := removeNodeLog_sim t s s' key hm hp
  refine ⟨t', s', h1, ?_, h2, hb', hp⟩
  rw [← removeNodeLog_fst, h1]
  rfl

end Ordered

/-! ## The place of a subtree -/

theorem ModelsAt.atPlace {t : AVLtree T F} {path : List (Frame T F)} {s : Shape T F}
    (hm : ModelsAt t path s) : AtPlace t path s.ptr := by
  cases path with
  | nil => exact hm.root
  | cons f fs =>
    have hc := hm.ctx
    cases f with
    | L a k v h r =>
      simp only [holdsCtx_L] at hc
      simp [AtPlace, getSonLeft, deref, hc.1, Except.map]
    | R a l k v h =>
      simp only [holdsCtx_R] at hc
      simp [AtPlace, getSonRight, deref, hc.1, Except.map]

theorem ModelsAt.parent {t : AVLtree T F} {path : List (Frame T F)} {s : Shape T F}
    (hm : ModelsAt t path s) (hne : s ≠ nil) :
    NodeMapTree.getParent t.mem s.ptr = .ok (ctxPtr path none) := by
  cases s with
  | nil => exact absurd rfl hne
  | node a l k v h r => exact hm.getParent

theorem rot_cells (k : Rotation) (s s' : Shape T F) (h : rot k s = some s') :
    s'.cells = s.cells := by
  cases k
  · exact rotLL_cells s s' h
  · exact rotLR_cells s s' h
  · exact rotRL_cells s s' h
  · exact rotRR_cells s s' h

theorem rot_ne_nil (k : Rotation) (s s' : Shape T F) (h : rot k s = some s') :
    s ≠ nil ∧ s' ≠ nil := by
  have hc := rot_cells k s s' h
  have hs : s ≠ nil := by
    rintro rfl
    cases k <;> simp [rot, rotLL, rotLR, rotRL, rotRR] at h
  refine ⟨hs, ?_⟩
  rintro rfl
  cases s with
  | nil => exact hs rfl
  | node a l k v h r => simp at hc

/-- Each rotation method does on the memory what the rotation does on the tree. -/
theorem reBalance_sim (k : Rotation) (t : AVLtree T F) (path : List (Frame T F))
    (s s' : Shape T F) (hm : ModelsAt t path s) (hr : rot k s = some s') :
    ∃ t', reBalance k t s.ptr = .ok (t', s'.ptr) ∧ ModelsAt t' path s' ∧ RelinkedOK k s' := by
  cases k with
  | LL =>
    simp only [rot] at hr
    unfold rotLL at hr
    split at hr
    · rename_i b a al ak av ah ar bk bv bh br
      simp only [Option.some.injEq] at hr
      subst hr
      obtain ⟨t', h1, h2, _, _⟩ := reBalanceLL_sim t path a b al ar br ak bk av bv ah bh hm
      exact ⟨t', h1, h2, by simp [RelinkedOK, Shape.rootOK, Shape.right]⟩
    · cases hr
  | LR =>
    simp only [rot] at hr
    unfold rotLR at hr
    split at hr
    · rename_i c a al ak av ah b bl bk bv bh br ck cv ch cr
      simp only [Option.some.injEq] at hr
      subst hr
      obtain ⟨t', h1, h2, _, _⟩ :=
        reBalanceLR_sim t path a b c al bl br cr ak bk ck av bv cv ah bh ch hm
      exact ⟨t', h1, h2, by simp [RelinkedOK, Shape.rootOK, Shape.right, Shape.left]⟩
    · cases hr
  | RL =>
    simp only [rot] at hr
    unfold rotRL at hr
    split at hr
    · rename_i c cl ck cv ch a b bl bk bv bh br ak av ah ar
      simp only [Option.some.injEq] at hr
      subst hr
      obtain ⟨t', h1, h2, _, _⟩ :=
        reBalanceRL_sim t path a b c cl bl br ar ak bk ck av bv cv ah bh ch hm
      exact ⟨t', h1, h2, by simp [RelinkedOK, Shape.rootOK, Shape.right, Shape.left]⟩
    · cases hr
  | RR =>
    simp only [rot] at hr
    unfold rotRR at hr
    split at hr
    · rename_i b bl bk bv bh a al ak av ah ar
      simp only [Option.some.injEq] at hr
      subst hr
      obtain ⟨t', h1, h2, _, _⟩ := reBalanceRR_sim t path a b al ar bl ak bk av bv ah bh hm
      exact ⟨t', h1, h2, by simp [RelinkedOK, Shape.rootOK, Shape.left]⟩
    · cases hr

/-! ## Consistent links -/

theorem holds_linked : ∀ (s : Shape T F) (m : Memory T F) (par : Ptr), Holds m par s →
    ∀ a ∈ s.addrs, ∃ n, m a = some n ∧
      (∀ c, n.sonLeft = some c →
        c ∈ s.addrs ∧ ∃ nc, m c = some nc ∧ nc.parent = some a) ∧
      (∀ c, n.sonRight = some c →
        c ∈ s.addrs ∧ ∃ nc, m c = some nc ∧ nc.parent = some a)
  | nil, _, _, _, a, ha => by simp at ha
  | node a0 l k v h r, m, par, hh, a, ha => by
    simp only [holds_node] at hh
    obtain ⟨h0, hl, hr⟩ := hh
    simp only [addrs_node, List.mem_cons, List.mem_append] at ha
    rcases ha with rfl | ha | ha
    · refine ⟨_, h0, ?_, ?_⟩
      · intro c hc
        simp only at hc
        cases l with
        | nil => simp at hc
        | node la ll lk lv lh lr =>
          simp only [ptr_node, Option.some.injEq] at hc
          subst hc
          simp only [holds_node] at hl
          exact ⟨by simp, _, hl.1, rfl⟩
      · intro c hc
        simp only at hc
        cases r with
        | nil => simp at hc
        | node ra rl rk rv rh rr =>
          simp only [ptr_node, Option.some.injEq] at hc
          subst hc
          simp only [holds_node] at hr
          exact ⟨by simp, _, hr.1, rfl⟩
    · obtain ⟨n, hn, h1, h2⟩ := holds_linked l m _ hl a ha
      refine ⟨n, hn, fun c hc => ?_, fun c hc => ?_⟩
      · obtain ⟨g1, g2⟩ := h1 c hc
        exact ⟨by simp [g1], g2⟩
      · obtain ⟨g1, g2⟩ := h2 c hc
        exact ⟨by simp [g1], g2⟩
    · obtain ⟨n, hn, h1, h2⟩ := holds_linked r m _ hr a ha
      refine ⟨n, hn, fun c hc => ?_, fun c hc => ?_⟩
      · obtain ⟨g1, g2⟩ := h1 c hc
        exact ⟨by simp [g1], g2⟩
      · obtain ⟨g1, g2⟩ := h2 c hc
        exact ⟨by simp [g1], g2⟩

/-- The links of a tree in the memory are consistent. -/
theorem Models.linked {t : AVLtree T F} {s : Shape T F} (hm : Models t s) :
    Linked t s.addrs := by
  have hroot : ∀ r, t.root = some r → r ∈ s.addrs ∧ ∃ n, t.mem r = some n ∧ n.parent = none := by
    intro r hr
    have h1 := hm.root
    have h2 := hm.sub
    simp only [ctxRoot_nil] at h1
    rw [hr] at h1
    cases s with
    | nil => simp at h1
    | node a l k v h r0 =>
      simp only [ptr_node, Option.some.injEq] at h1
      subst h1
      simp only [holds_node, ctxPtr_nil] at h2
      exact ⟨by simp, _, h2.1, rfl⟩
  refine ⟨hroot, ?_⟩
  intro a ha
  obtain ⟨n, hn, h1, h2⟩ := holds_linked s t.mem _ hm.sub a ha
  refine ⟨n, hn, fun c hc => ?_, fun c hc => ?_⟩
  · obtain ⟨g1, nc, g2, g3⟩ := h1 c hc
    refine ⟨g1, ?_, nc, g2, g3⟩
    intro e
    obtain ⟨_, n', q1, q2⟩ := hroot c e.symm
    rw [g2, Option.some.injEq] at q1
    subst q1
    rw [g3] at q2
    cases q2
  · obtain ⟨g1, nc, g2, g3⟩ := h2 c hc
    refine ⟨g1, ?_, nc, g2, g3⟩
    intro e
    obtain ⟨_, n', q1, q2⟩ := hroot c e.symm
    rw [g2, Option.some.injEq] at q1
    subst q1
    rw [g3] at q2
    cases q2

/-! ## The loop of `checkBalance` where a son is missing -/

theorem visit_fail (t : AVLtree T F) (path : List (Frame T F)) (s : Shape T F)
    (hm : ModelsAt t path s) (hne : s ≠ nil) (hv : visit s = none) (fuel : Nat) :
    checkBalanceLoop (fuel + 1) t s.ptr = .error .NullDereference := by
  cases s with
  | nil => exact absurd rfl hne
  | node a l k v h r =>
    have hbf := getBalanceFactor_node _ _ a l r k v h hm.sub
    have hsub := hm.sub
    simp only [holds_node] at hsub
    by_cases hbal : -1 ≤ l.hgt - r.hgt ∧ l.hgt - r.hgt ≤ 1
    · simp [visit, hbal] at hv
    · simp only [visit, hbal, if_false] at hv
      have hnb : checkBalanceLoop (fuel + 1) t (some a) =
          (do
            let (t1, localRoot) ←
              if l.hgt - r.hgt = 2 then do
                let leftSon ← getSonLeft t.mem (some a)
                if (← getBalanceFactor t.mem leftSon) ≥ 0 then reBalanceLL t (some a)
                else reBalanceLR t (some a)
              else do
                let rightSon ← getSonRight t.mem (some a)
                if (← getBalanceFactor t.mem rightSon) = 1 then reBalanceRL t (some a)
                else reBalanceRR t (some a)
            if (← getHeight t1.mem localRoot) = h then pure t1
            else checkBalanceLoop fuel t1 (← getParent t1.mem localRoot)) := by
        simp only [checkBalanceLoop, isBalanced, hbf, bind, Except.bind, pure, Except.pure, hbal,
          decide_False, Bool.false_eq_true, if_false, getHeight, deref, hsub.1, Except.map]
      rw [ptr_node, hnb]
      by_cases h2 : l.hgt - r.hgt = 2
      · rw [if_pos h2]
        cases l with
        | nil =>
          simp [getSonLeft, deref, hsub.1, Except.map, bind, Except.bind, getBalanceFactor]
        | node la ll lk lv lh lr =>
          have hbl := getBalanceFactor_node _ _ la ll lr lk lv lh hsub.2.1
          have hl := hsub.2.1
          simp only [holds_node] at hl
          by_cases hf : ll.hgt - lr.hgt ≥ 0
          · simp only [rebalance, h2, if_true, Shape.bf, hf, rotLL] at hv
            cases hv
          · cases lr with
            | nil =>
              simp only [getSonLeft, deref, hsub.1, Except.map, bind, Except.bind, ptr_node,
                hbl, hf, if_false]
              simp [reBalanceLR, getSonLeft, getSonRight, deref, hsub.1, hl.1, Except.map, bind,
                Except.bind]
            | node lra lrl lrk lrv lrh lrr =>
              simp only [rebalance, h2, if_true, Shape.bf, hf, if_false, rotLR] at hv
              cases hv
      · rw [if_neg h2]
        cases r with
        | nil =>
          simp [getSonRight, deref, hsub.1, Except.map, bind, Except.bind, getBalanceFactor]
        | node ra rl rk rv rh rr =>
          have hbr := getBalanceFactor_node _ _ ra rl rr rk rv rh hsub.2.2
          have hr := hsub.2.2
          simp only [holds_node] at hr
          by_cases hf : rl.hgt - rr.hgt = 1
          · cases rl with
            | nil =>
              simp only [getSonRight, deref, hsub.1, Except.map, bind, Except.bind, ptr_node,
                hbr, hf, if_true]
              simp [reBalanceRL, getSonLeft, getSonRight, deref, hsub.1, hr.1, Except.map, bind,
                Except.bind]
            | node rla rll rlk rlv rlh rlr =>
              simp only [rebalance, h2, if_false, Shape.bf, hf, if_true, rotRL] at hv
              cases hv
          · simp only [rebalance, h2, if_false, Shape.bf, hf, rotRR] at hv
            cases hv

theorem climb_fail : ∀ (path : List (Frame T F)) (t : AVLtree T F) (s : Shape T F)
    (fuel : Nat), ModelsAt t path s → s ≠ nil → climb path s = none →
    ∃ e, checkBalanceLoop fuel t s.ptr = .error e
  | path, t, s, 0, _, hne, _ => by
    cases s with
    | nil => exact absurd rfl hne
    | node a l k v h r => exact ⟨_, rfl⟩
  | [], t, s, fuel + 1, hm, hne, hc => by
    simp only [climb, Option.map_eq_none'] at hc
    exact ⟨_, visit_fail t [] s hm hne hc fuel⟩
  | f :: fs, t, s, fuel + 1, hm, hne, hc => by
    simp only [climb] at hc
    cases hv : visit s with
    | none => exact ⟨_, visit_fail t (f :: fs) s hm hne hv fuel⟩
    | some cs =>
      obtain ⟨c, s'⟩ := cs
      obtain ⟨t', hm', _, _, heq⟩ := visit_sim t (f :: fs) s s' c hm hv fuel
      cases c with
      | true =>
        simp only [hv] at hc
        rw [heq]
        simp only [if_true, ctxPtr_cons]
        have := climb_fail fs t' (f.fill s') fuel hm'.up (by cases f <;> simp [Frame.fill]) hc
        cases f <;> simpa using this
      | false => simp [hv] at hc

theorem finish_fail (t : AVLtree T F) (path : List (Frame T F)) (s1 : Shape T F)
    (hm : ModelsAt t path s1) (hf : finish (path, s1) = none) :
    (ctxPtr path none).isSome = true ∧
      ∃ e, checkBalance t (ctxPtr path none) = .error e := by
  cases path with
  | nil => simp [finish] at hf
  | cons f fs =>
    simp only [finish] at hf
    obtain ⟨e, he⟩ := climb_fail fs t (f.fill s1) (t.next + 1) hm.up
      (by cases f <;> simp [Frame.fill]) hf
    refine ⟨by simp, e, ?_⟩
    simp only [checkBalance, ctxPtr_cons]
    cases f <;> simpa using he

section Ordered

variable [LinearOrder T]

theorem addNode_fail (t : AVLtree T F) (s : Shape T F) (key : T) (value : F)
    (hm : Models t s) (hp : addNodeP t.next key value s = none) :
    ∃ e, addNode t key value = .error e := by
  cases s with
  | nil => simp [addNodeP] at hp
  | node a l k v h r =>
    obtain ⟨hfind, hm0, hne⟩ := findNode_sim key t (node a l k v h r) hm (by simp)
    have hr := hm.root
    simp only [ctxRoot_nil, ptr_node] at hr
    simp only [addNodeP] at hp
    have hhit : hit key (node a l k v h r) =
        match (descend key (node a l k v h r) []).2 with
        | nil => none
        | node a _ k _ _ _ => if k = key then some a else none := rfl
    rcases hd : descend key (node a l k v h r) [] with ⟨path, s0⟩
    rw [hd] at hfind hm0 hne hp hhit
    simp only at hfind hm0 hne hp hhit
    cases s0 with
    | nil => exact absurd rfl hne
    | node a0 l0 k0 v0 h0 r0 =>
      have hm00 := hm0
      obtain ⟨hroot, hctx, hsub, hnd, hfr⟩ := hm0
      simp only [holds_node] at hsub
      obtain ⟨ha0, hl0, hr0⟩ := hsub
      have dl0 := hl0.down
      have dr0 := hr0.down
      have hsk := hctx.skel
      have hnx : t.next ∉ (node a0 l0 k0 v0 h0 r0).addrs ++ ctxAddrs path :=
        fun hx => Nat.lt_irrefl _ (hfr _ hx)
      simp only [addrs_node, List.nodup_cons, List.nodup_append, List.mem_cons, List.mem_append,
        not_or, List.disjoint_cons_left, List.disjoint_cons_right, List.disjoint_append_left,
        List.disjoint_append_right, List.cons_append, List.append_assoc] at hnd hnx
      simp only [ptr_node] at hctx hroot hfind
      have hra : some a = ctxRoot path (some a0) := hr.symm.trans hroot
      rcases lt_trichotomy key k0 with hlt | heq | hgt
      · have hne' : ¬ key = k0 := ne_of_lt hlt
        have hne'' : ¬ k0 = key := fun e => hne' e.symm
        have hng : ¬ k0 < key := not_lt.mpr (le_of_lt hlt)
        simp only [hne'', if_false, Option.isSome_none, Option.getD_none] at hhit
        simp [addNode, hr, hfind, bind, Except.bind, getKey, deref, ha0, Except.map,
          NodeMapTree.modify, withMem, updateHeight, dl0, dr0, hnd, hnx, getParent, pure,
          Except.pure, hhit, hne', hlt, hng, newNode, updateLeftSon, getHeight]
        generalize ht4 : AVLtree.mk _ (t.next + 1) (some a) (wrapInt (t.size + 1)) = t4
        have hm4 : ModelsAt t4 path (attach t.next key value (node a0 l0 k0 v0 h0 r0)) := by
          subst ht4
          refine hm00.transfer_alloc (fun x => ?_) (Nat.le_refl _) ?_
          · simp only [attach, hne', hng, gt_iff_lt, if_false, leaf, addrs_node, addrs_nil,
              List.count_cons, List.count_append, List.count_nil]
            omega
          · simp [attach, hne', hng, leaf, hnd, hnx, hr0, hctx, hra]
        obtain ⟨hpar, e, he⟩ := finish_fail t4 path _ hm4 hp
        exact ⟨e, by simp [hpar, he]⟩
      · subst heq
        simp only [if_true, Option.isSome_some, Option.getD_some] at hhit
        simp [addNode, hr, hfind, bind, Except.bind, getKey, deref, ha0, Except.map, updateValue,
          NodeMapTree.modify, withMem, updateHeight, dl0, dr0, hnd, getParent, pure, Except.pure,
          hhit]
        generalize ht4 : AVLtree.mk _ t.next (some a) t.size = t4
        have hm4 : ModelsAt t4 path (attach t.next key value (node a0 l0 key v0 h0 r0)) := by
          subst ht4
          refine hm00.transfer (fun x => ?_) (Nat.le_refl _) ?_
          · simp [attach]
          · simp [attach, hnd, hl0, hr0, hctx, hra]
        obtain ⟨hpar, e, he⟩ := finish_fail t4 path _ hm4 hp
        exact ⟨e, by simp [hpar, he]⟩
      · have hne' : ¬ key = k0 := ne_of_gt hgt
        have hne'' : ¬ k0 = key := fun e => hne' e.symm
        have hnl : ¬ key < k0 := not_lt.mpr (le_of_lt hgt)
        simp only [hne'', if_false, Option.isSome_none, Option.getD_none] at hhit
        simp [addNode, hr, hfind, bind, Except.bind, getKey, deref, ha0, Except.map,
          NodeMapTree.modify, withMem, updateHeight, dl0, dr0, hnd, hnx, getParent, pure,
          Except.pure, hhit, hne', hgt, hnl, newNode, updateRightSon, getHeight]
        generalize ht4 : AVLtree.mk _ (t.next + 1) (some a) (wrapInt (t.size + 1)) = t4
        have hm4 : ModelsAt t4 path (attach t.next key value (node a0 l0 k0 v0 h0 r0)) := by
          subst ht4
          refine hm00.transfer_alloc (fun x => ?_) (Nat.le_refl _) ?_
          · simp only [attach, hne', hgt, if_false, if_true, leaf, addrs_node, addrs_nil,
              List.count_cons, List.count_append, List.count_nil]
            omega
          · simp [attach, hne', hgt, leaf, hnd, hnx, hl0, hctx, hra]
        obtain ⟨hpar, e, he⟩ := finish_fail t4 path _ hm4 hp
        exact ⟨e, by simp [hpar, he]⟩

end Ordered

theorem detach_some (path : List (Frame T F)) (a : Nat) (l r : Shape T F) (k : T) (v : F)
    (h : Int) : ∃ z, detach path (node a l k v h r) = some z := by
  rw [← Option.isSome_iff_exists]
  cases l with
  | nil =>
    cases r with
    | nil => simp [detach]
    | node rn rl rk rv rh rr => simp [detach]
  | node ln ll lk lv lh lr =>
    cases r with
    | nil => simp [detach]
    | node rn rl rk rv rh rr =>
      by_cases hrl : rl.ptr = none
      · simp [detach, detachMiddle, hrl]
      · obtain ⟨n2, k2, v2, h2, r2, he⟩ :=
          leftmost_node (node rn rl rk rv rh rr) ([] : List (Frame T F)) (by simp)
        rcases hq : leftmost (node rn rl rk rv rh rr) ([] : List (Frame T F)) with ⟨p2, s2⟩
        rw [hq] at he
        simp only at he
        subst he
        simp [detach, detachMiddle, hrl, hq]

section Ordered

variable [LinearOrder T]

theorem removeNode_fail (t : AVLtree T F) (s : Shape T F) (key : T)
    (hm : Models t s) (hh : hit key s ≠ none) (hp : removeP key s = none) :
    ∃ e, removeNode t key = .error e := by
  cases s with
  | nil => exact absurd (hit_nil key) hh
  | node a l k v h r =>
    obtain ⟨hfind, hm0, hne⟩ := findNode_sim key t (node a l k v h r) hm (by simp)
    have hr := hm.root
    simp only [ctxRoot_nil, ptr_node] at hr
    simp only [removeP] at hp
    simp only [hit] at hh
    rcases hd : descend key (node a l k v h r) [] with ⟨path, s0⟩
    rw [hd] at hfind hm0 hne hp hh
    simp only at hfind hm0 hne hp hh
    cases s0 with
    | nil => exact absurd rfl hne
    | node a0 l0 k0 v0 h0 r0 =>
      simp only at hp hh
      by_cases hk : k0 = key
      · simp only [hk, ne_eq, not_true_eq_false, if_false] at hp
        obtain ⟨z, hdt⟩ := detach_some path a0 l0 r0 key v0 h0
        obtain ⟨path', s1⟩ := z
        subst hk
        simp only [hdt] at hp
        obtain ⟨t1, h1, hm1, _, _⟩ := detach_sim t path path' a0 k0 v0 h0 l0 r0 s1 hm0 hdt
        obtain ⟨hpar, e, he⟩ := finish_fail t1 path' s1 hm1 hp
        refine ⟨e, ?_⟩
        have hkey : getKey t.mem (some a0) = .ok k0 := by
          have := hm0.sub
          simp only [holds_node] at this
          simp [getKey, deref, this.1, Except.map]
        simp only [removeNode, hr, hfind, ptr_node, bind, Except.bind, hkey, ne_eq,
          not_true_eq_false, if_false]
        simp only [bind, Except.bind] at h1
        rw [h1]
        simp [hpar, he]
      · simp [hk] at hh

/-- Whenever `addNode` returns on a tree with consistent links, it has done what
`addNodeP` does on the shape. -/
theorem addNode_ok_models (t t' : AVLtree T F) (s : Shape T F) (key : T) (value : F)
    (p : Ptr) (hm : Models t s) (h : addNode t key value = .ok (t', p)) :
    ∃ s', addNodeP t.next key value s = some s' ∧ Models t' s' := by
  cases hp : addNodeP t.next key value s with
  | none =>
    obtain ⟨e, he⟩ := addNode_fail t s key value hm hp
    rw [he] at h
    cases h
  | some s' =>
    obtain ⟨t'', h1, h2, _⟩ := addNode_sim t s s' key value hm hp
    rw [h] at h1
    simp only [Except.ok.injEq, Prod.mk.injEq] at h1
    obtain ⟨rfl, _⟩ := h1
    exact ⟨s', rfl, h2⟩

/-- Whenever `removeNode` returns on a tree with consistent links, it has done what
`removeP` does on the shape. -/
theorem removeNode_ok_models (t t' : AVLtree T F) (s : Shape T F) (key : T)
    (hm : Models t s) (h : removeNode t key = .ok t') :
    ∃ s', removeP key s = some s' ∧ Models t' s' := by
  obtain ⟨a, ha⟩ := removeNode_ok_mem t t' s key hm h
  cases hp : removeP key s with
  | none =>
    obtain ⟨e, he⟩ := removeNode_fail t s key hm (by rw [ha]; simp) hp
    rw [he] at h
    cases h
  | some s' =>
    obtain ⟨t'', h1, h2, _⟩ := removeNode_sim t s s' key hm hp
    rw [h] at h1
    simp only [Except.ok.injEq] at h1
    subst h1
    exact ⟨s', rfl, h2⟩

end Ordered

/-! ## The example of height 3 -/

theorem tenTree_models : Models tenTree tenShape := by
  refine ⟨rfl, trivial,
    ⟨rfl, ⟨rfl, ⟨rfl, trivial, trivial⟩,
        ⟨rfl, ⟨rfl, trivial, trivial⟩, ⟨rfl, trivial, trivial⟩⟩⟩,
      ⟨rfl, ⟨rfl, trivial, trivial⟩, ⟨rfl, trivial, ⟨rfl, trivial, trivial⟩⟩⟩⟩, ?_, ?_⟩
  · simp [tenShape, Shape.addrs, ctxAddrs]
  · intro x hx
    have hx10 : x < 10 := by
      simp [tenShape, Shape.addrs, ctxAddrs] at hx
      omega
    exact hx10

theorem tenShape_bst : tenShape.BST := by
  simp [tenShape, Shape.BST, Shape.keys, Shape.toList]

theorem tenShape_balanced : tenShape.Balanced := by
  simp [tenShape, Shape.Balanced]

section Ordered

variable [LinearOrder T]

theorem removeByPointerOutcome_result (t : AVLtree T F) (node : Ptr) :
    (removeByPointerOutcome t node).result = removeByPointer t node := by
  unfold removeByPointerOutcome removeByPointer
  cases node with
  | none => rfl
  | some a =>
    simp only [Option.isNone_some, Bool.false_eq_true, if_false, bind, Except.bind]
    cases getKey t.mem (some a) with
    | error e => rfl
    | ok k => exact removeNodeOutcome_result t k

end Ordered

/-! ## The properties of the handle, the search, the rotations and the walk -/

/-- C13: the calls of `addNode` with the keys 10, 20, 30 into the empty tree: the first
two make no rotation, the third makes one, the rotation RR at the node of the key 10
(address 0, balance factor -2).  Afterwards the root is the node of 20 with the height
1, its left son is the node of 10 and its right son the node of 30, both with the
height 0, and the size is 3. -/
theorem insert_10_20_30_one_RR (v1 v2 v3 : F) :
    ∃ t1 t2 t3 p1 p2 p3,
      addNodeLog (AVLtree.empty : AVLtree Nat F) 10 v1 = .ok (t1, p1, []) ∧
      addNodeLog t1 20 v2 = .ok (t2, p2, []) ∧
      addNodeLog t2 30 v3 = .ok (t3, p3,
        [{ kind := Rotation.RR, node := some 0, BF := -2, highTemp := 1,
           localRoot := some 1, newHeight := 1 }]) ∧
      getKey t2.mem (some 0) = .ok 10 ∧
      addAll AVLtree.empty [(10, v1), (20, v2), (30, v3)] = .ok t3 ∧
      Models t3 (node 1 (node 0 nil 10 v1 0 nil) 20 v2 1 (node 2 nil 30 v3 0 nil)) ∧
      t3.getSize = 3 := by
  refine ⟨_, _, _, _, _, _, rfl, rfl, rfl, rfl, rfl, ?_, rfl⟩
  refine ⟨rfl, trivial, ⟨rfl, ⟨rfl, trivial, trivial⟩, ⟨rfl, trivial, trivial⟩⟩, ?_, ?_⟩
  · simp [Shape.addrs, ctxAddrs]
  · intro x hx
    have hx3 : x < 3 := by
      simp [Shape.addrs, ctxAddrs] at hx
      omega
    exact hx3

/-- C14: after the calls of `addNode` with the keys 4, 2, 6, 1, 3, 5, 7 into the empty
tree, `removeNode` of 4 returns; the tree left is in balance with the right heights
and in BST order, its size is 6, its keys are 1, 2, 3, 5, 6, 7, and its root is the
node of 5. -/
theorem remove_root_of_seven (v : Nat → F) :
    ∃ t t',
      addAll (AVLtree.empty : AVLtree Nat F)
        [(4, v 4), (2, v 2), (6, v 6), (1, v 1), (3, v 3), (5, v 5), (7, v 7)] = .ok t ∧
      removeNode t 4 = .ok t' ∧ Models t' (sevenLessRoot v) ∧
      (sevenLessRoot v).Balanced ∧ (sevenLessRoot v).BST ∧
      (sevenLessRoot v).keys = [1, 2, 3, 5, 6, 7] ∧
      t'.getSize = 6 ∧ getKey t'.mem t'.getRoot = .ok 5 := by
  refine ⟨_, _, rfl, rfl, ?_, ?_, ?_, rfl, rfl, rfl⟩
  · refine ⟨rfl, trivial, ⟨rfl, ⟨rfl, ⟨rfl, trivial, trivial⟩, ⟨rfl, trivial, trivial⟩⟩,
      ⟨rfl, trivial, ⟨rfl, trivial, trivial⟩⟩⟩, ?_, ?_⟩
    · simp [sevenLessRoot, Shape.addrs, ctxAddrs]
    · intro x hx
      have hx3 : x < 7 := by
        simp [sevenLessRoot, Shape.addrs, ctxAddrs] at hx
        omega
      exact hx3
  · simp [sevenLessRoot, Shape.Balanced]
  · simp [sevenLessRoot, Shape.BST, Shape.keys, Shape.toList]

/-- C16: there is a valid tree and a key in it for which one call of `removeNode` makes
two rotations at two ancestors of the node taken out, and leaves a tree in BST order,
in balance and with the right heights: in the tree of the twelve keys 5, 3, 8, 2, 4,
6, 10, 1, 7, 9, 11, 12, `removeNode` of 4 makes the rotation LL at the node of 3, the
parent of the node of 4, and then the rotation RR at the node of 5, the parent of the
node of 3 and the root. -/
theorem removeNode_two_rotations_example :
    ∃ (t t' : AVLtree Nat Nat) (s s' : Shape Nat Nat) (e1 e2 : RotEvent) (p4 : Ptr),
      addAll AVLtree.empty cascadeKeys = .ok t ∧
      t.getSize = 12 ∧ getHeight t.mem t.getRoot = .ok 4 ∧
      Models t s ∧ s.BST ∧ s.Balanced ∧ 4 ∈ s.keys ∧
      removeNodeLog t 4 = .ok (t', [e1, e2]) ∧ removeNode t 4 = .ok t' ∧
      e1.kind = Rotation.LL ∧ getKey t.mem e1.node = .ok 3 ∧
      e2.kind = Rotation.RR ∧ getKey t.mem e2.node = .ok 5 ∧ e1.node ≠ e2.node ∧
      findNode t 4 = .ok p4 ∧ getParent t.mem p4 = .ok e1.node ∧
      getParent t.mem e1.node = .ok e2.node ∧ t.getRoot = e2.node ∧
      Models t' s' ∧ s'.BST ∧ s'.Balanced := by
  obtain ⟨t0, s, h0, hm, hs, hb, hperm⟩ := addAll_perm cascadeKeys
    (AVLtree.empty : AVLtree Nat Nat) nil models_empty trivial trivial (by decide)
    (by simp [Shape.keys, Shape.toList])
  have hk : 4 ∈ s.keys := by
    simp only [Shape.keys, List.mem_map]
    exact ⟨(4, 0), hperm.symm.subset (by simp [cascadeKeys]), rfl⟩
  have ht : addAll (AVLtree.empty : AVLtree Nat Nat) cascadeKeys =
      .ok (okOr (addAll AVLtree.empty cascadeKeys)) := rfl
  rw [ht, Except.ok.injEq] at h0
  subst h0
  obtain ⟨t'', s', g1, g2, g3, g4, _⟩ := removeNode_full _ s 4 hm hs hb hk
  have hr : removeNode (okOr (addAll (AVLtree.empty : AVLtree Nat Nat) cascadeKeys)) 4 =
      .ok (okOr (removeNode (okOr (addAll AVLtree.empty cascadeKeys)) 4)) := rfl
  rw [hr, Except.ok.injEq] at g1
  subst g1
  exact ⟨_, _, s, s', _, _, _, rfl, rfl, rfl, hm, hs, hb, hk, rfl, rfl, rfl, rfl, rfl, rfl,
    by decide, rfl, rfl, rfl, rfl, g2, g3, g4⟩

/-- C17: each of the four rotation methods, at a node `X` with the sons the rotation
needs, returns the node at the top of the rotated subtree; that node is where `X` was,
the root of the tree or the son on the same side of the parent of `X`, and its parent
is the parent `X` had; the in-order sequence of the keys of the subtree is the same;
and the nodes with new sons store 1 + max of the heights of their sons. -/
theorem rotation_keeps_place_order_heights (k : Rotation) (t : AVLtree T F)
    (path : List (Frame T F)) (s s' : Shape T F) (hm : ModelsAt t path s)
    (hr : rot k s = some s') :
    AtPlace t path s.ptr ∧ getParent t.mem s.ptr = .ok (ctxPtr path none) ∧
      ∃ t', reBalance k t s.ptr = .ok (t', s'.ptr) ∧ ModelsAt t' path s' ∧
        AtPlace t' path s'.ptr ∧ getParent t'.mem s'.ptr = .ok (ctxPtr path none) ∧
        s'.keys = s.keys ∧ RelinkedOK k s' := by
  obtain ⟨hn, hn'⟩ := rot_ne_nil k s s' hr
  obtain ⟨t', h1, h2, h3⟩ := reBalance_sim k t path s s' hm hr
  refine ⟨hm.atPlace, hm.parent hn, t', h1, h2, h2.atPlace, h2.parent hn', ?_, h3⟩
  rw [keys_cells, keys_cells, rot_cells k s s' hr]

section Ordered

variable [LinearOrder T]

/-- C11: `removeByPointer` of the null pointer fails with `InvalidInput` and leaves the
tree as it was: the `throw` is the first statement of the method, and the tree at that
statement is the tree before the call.  `removeByPointer` of a pointer to a node is
`removeNode` of the key of that node: the same tree afterwards, or the same exception
with the same tree left behind.  On a valid tree and a pointer to one of its nodes the
call returns, and the node it has taken out by the key is the node of the pointer. -/
theorem removeByPointer_resolves_by_key (t : AVLtree T F) (a : Nat) (n : NodeMapTree T F)
    (h : t.mem a = some n) :
    removeByPointerOutcome t none = .threw .InvalidInput t ∧
      removeByPointer t none = .error .InvalidInput ∧
      removeByPointerOutcome t (some a) = removeNodeOutcome t n.key ∧
      removeByPointer t (some a) = removeNode t n.key ∧
      (∀ s v, Models t s → s.BST → s.Balanced → (a, n.key, v) ∈ s.cells →
        ∃ t' s' pre post, removeByPointerOutcome t (some a) = .returned t' ∧
          removeByPointer t (some a) = .ok t' ∧ Models t' s' ∧
          s.cells = pre ++ (a, n.key, v) :: post ∧ s'.cells = pre ++ post) := by
  have ho : removeByPointerOutcome t (some a) = removeNodeOutcome t n.key := by
    simp [removeByPointerOutcome, getKey, deref, h, Except.map]
  have hx : removeByPointer t (some a) = removeNode t n.key := by
    simp [removeByPointer, getKey, deref, h, Except.map, bind, Except.bind]
  refine ⟨rfl, rfl, ho, hx, ?_⟩
  intro s v hm hs hb hc
  have hk : n.key ∈ s.keys := (mem_keys s n.key).2 ⟨_, hc, rfl⟩
  obtain ⟨t', s', h1, h2, _, _, h5, _⟩ := removeNode_full t s n.key hm hs hb hk
  obtain ⟨a0, v0, pre, post, e0, e1, e2⟩ := removeP_cells n.key s s' h5
  have hav := mem_hit n.key s hs a v hc
  have hc0 : (a0, n.key, v0) ∈ s.cells := by
    rw [e1]
    simp
  have hav0 := mem_hit n.key s hs a0 v0 hc0
  have ea : a0 = a := by
    have := hav0.1.symm.trans hav.1
    simpa using this
  have ev : v0 = v := by
    have := hav0.2.symm.trans hav.2
    simpa using this
  subst ea ev
  refine ⟨t', s', pre, post, ?_, hx.trans h1, h2, e1, e2⟩
  rw [ho]
  have hres := removeNodeOutcome_result t n.key
  rw [h1] at hres
  cases hq : removeNodeOutcome t n.key with
  | returned t'' =>
    rw [hq] at hres
    simp only [Outcome.result, Except.ok.injEq] at hres
    rw [hres]
  | threw e t'' =>
    rw [hq] at hres
    cases hres
  | fault e =>
    rw [hq] at hres
    cases hres

/-- C12: `findNode` returns the null pointer on the empty tree.  On a tree in BST order
that is not empty it returns a node of the tree at the end of the search path for the
key: the node with the key when the key is in the tree, and else a node without a son
on the side of the key, no left son when the key is smaller and no right son when it
is larger.  The method returns a pointer only and writes nothing. -/
theorem findNode_result (t : AVLtree T F) (s : Shape T F) (key : T)
    (hm : Models t s) (hs : s.BST) :
    (t.root = none → findNode t key = .ok none) ∧
      (t.root ≠ none →
        ∃ path a l k v h r, s = plug path (node a l k v h r) ∧ PathKeys key path ∧
          findNode t key = .ok (some a) ∧ getKey t.mem (some a) = .ok k ∧
          getSonLeft t.mem (some a) = .ok l.ptr ∧ getSonRight t.mem (some a) = .ok r.ptr ∧
          (key ∈ s.keys → k = key) ∧
          (key ∉ s.keys → (key < k ∧ l.ptr = none) ∨ (k < key ∧ r.ptr = none))) := by
  constructor
  · intro hr
    simp [findNode, hr, pure, Except.pure]
  · intro hr
    have hne : s ≠ nil := by
      rintro rfl
      exact hr hm.root
    obtain ⟨hf, hma, _⟩ := findNode_sim key t s hm hne
    obtain ⟨a, l, k, v, h, r, hd, hpl, hpk, hstop⟩ := descend_spec key s [] hne trivial
    rw [hd] at hf hma
    rw [plug_nil] at hpl
    have hsub := hma.sub
    simp only [holds_node] at hsub
    refine ⟨_, a, l, k, v, h, r, hpl.symm, hpk, hf,
      by simp [getKey, deref, hsub.1, Except.map],
      by simp [getSonLeft, deref, hsub.1, Except.map],
      by simp [getSonRight, deref, hsub.1, Except.map], ?_, ?_⟩
    · intro hk
      rw [mem_keys] at hk
      obtain ⟨⟨a', k', v'⟩, hc, rfl⟩ := hk
      have hh := (mem_hit _ s hs a' v' hc).1
      simp only [hit, hd] at hh
      by_contra hne'
      simp [hne'] at hh
    · intro hk
      rcases hstop with e | ⟨e, rfl⟩ | ⟨e, rfl⟩
      · exfalso
        apply hk
        rw [mem_keys, ← hpl, cells_plug]
        exact ⟨(a, k, v), by simp, e⟩
      · exact Or.inl ⟨e, rfl⟩
      · exact Or.inr ⟨e, rfl⟩

/-- C15: on a tree in balance with the right heights, `addNode` returns and its call of
`checkBalance` makes at most one rotation; after that rotation the node at the top of
the rotated subtree has the height that the node out of balance stored, so the loop
stops. -/
theorem addNode_at_most_one_rotation (t : AVLtree T F) (s : Shape T F) (key : T)
    (value : F) (hm : Models t s) (hb : s.Balanced) :
    ∃ t' p log, addNodeLog t key value = .ok (t', p, log) ∧
      addNode t key value = .ok (t', p) ∧ log.length ≤ 1 ∧
      ∀ e ∈ log, e.newHeight = e.highTemp := by
  obtain ⟨t', s', h1, h2, _, _, _⟩ := addNodeLog_full t s key value hm hb
  obtain ⟨g1, g2⟩ := addNodeLogP_ins t.next key value s hb
  exact ⟨t', _, _, h1, h2, g1, g2⟩

/-- C18: in `addNode` and in `removeNode` on a valid tree, whenever the loop of
`checkBalance` stops after a rotation because the node at the top of the rotated
subtree has the height that the node out of balance stored, that node is a node of the
tree that is left, and every ancestor of it is in balance and stores the right height;
the case of a successor that has taken the place of its parent with its old height is
one of the cases of `removeNode`. -/
theorem early_stop_ancestors_valid (t : AVLtree T F) (s : Shape T F) (key : T) (value : F)
    (key' : T) (hm : Models t s) (hs : s.BST) (hb : s.Balanced) :
    (∃ t' p log s', addNodeLog t key value = .ok (t', p, log) ∧
        addNode t key value = .ok (t', p) ∧ Models t' s' ∧
        ∀ e ∈ log, e.newHeight = e.highTemp →
          ∃ path sub, s' = plug path sub ∧ sub.ptr = e.localRoot ∧ PathOK path sub.hgt) ∧
      (key' ∈ s.keys → ∃ t' log s', removeNodeLog t key' = .ok (t', log) ∧
        removeNode t key' = .ok t' ∧ Models t' s' ∧
        ∀ e ∈ log, e.newHeight = e.highTemp →
          ∃ path sub, s' = plug path sub ∧ sub.ptr = e.localRoot ∧ PathOK path sub.hgt) := by
  constructor
  · obtain ⟨t', s', h1, h2, h3, h4, h5⟩ := addNodeLog_full t s key value hm hb
    refine ⟨t', _, _, s', h1, h2, h3, fun e he hst => ?_⟩
    obtain ⟨p', sub, e1, e2, _⟩ := addNodeLogP_stop t.next key value s s' h5 e he hst
    rw [e1] at h4
    exact ⟨p', sub, e1, e2, ((balanced_plug _ _).1 h4).2⟩
  · intro hk
    have hh : hit key' s ≠ none := fun e => (hit_none_iff key' s hs).1 e hk
    obtain ⟨t', s', h1, h2, h3, h4, h5⟩ := removeNodeLog_full t s key' hm hb hh
    refine ⟨t', _, s', h1, h2, h3, fun e he hst => ?_⟩
    obtain ⟨p', sub, e1, e2, _⟩ := removeLogP_stop key' s s' h5 e he hst
    rw [e1] at h4
    exact ⟨p', sub, e1, e2, ((balanced_plug _ _).1 h4).2⟩

/-- C19, for the calls that return: on a tree with consistent links, after every call
of `addNode` that returns and after every call of `removeNode` that returns, the links
are consistent again: the root has no parent, and every son of a node has that node as
its parent and is not the root.  On a tree that is also in balance with the right
heights `addNode` returns; on a tree out of balance it can read a son that is
absent. -/
theorem links_consistent_after_calls (t : AVLtree T F) (s : Shape T F) (key : T)
    (value : F) (key' : T) (hm : Models t s) :
    (∀ t' p, addNode t key value = .ok (t', p) → ∃ s', Models t' s' ∧ Linked t' s'.addrs) ∧
      (∀ t', removeNode t key' = .ok t' → ∃ s', Models t' s' ∧ Linked t' s'.addrs) ∧
      (s.Balanced → ∃ t' p, addNode t key value = .ok (t', p)) := by
  refine ⟨fun t' p h => ?_, fun t' h => ?_, fun hb => ?_⟩
  · obtain ⟨s', _, h2⟩ := addNode_ok_models t t' s key value p hm h
    exact ⟨s', h2, h2.linked⟩
  · obtain ⟨s', _, h2⟩ := removeNode_ok_models t t' s key' hm h
    exact ⟨s', h2, h2.linked⟩
  · obtain ⟨t', s', _, h2, _⟩ := addNodeLog_full t s key value hm hb
    exact ⟨t', _, h2⟩

/-- C20: in `addNode` and in `removeNode` on a valid tree, every node the loop of
`checkBalance` finds out of balance has the balance factor 2, and is rotated by
`reBalanceLL` or `reBalanceLR`, or the balance factor -2, and is rotated by
`reBalanceRL` or `reBalanceRR`; and the call returns, so that no absent node is
dereferenced, which in the memory is the failure `NullDereference`. -/
theorem unbalanced_nodes_have_factor_two (t : AVLtree T F) (s : Shape T F) (key : T)
    (value : F) (key' : T) (hm : Models t s) (hs : s.BST) (hb : s.Balanced) :
    (∃ t' p log, addNodeLog t key value = .ok (t', p, log) ∧
        addNode t key value = .ok (t', p) ∧
        ∀ e ∈ log, (e.BF = 2 ∧ (e.kind = Rotation.LL ∨ e.kind = Rotation.LR)) ∨
          (e.BF = -2 ∧ (e.kind = Rotation.RL ∨ e.kind = Rotation.RR))) ∧
      (key' ∈ s.keys → ∃ t' log, removeNodeLog t key' = .ok (t', log) ∧
        removeNode t key' = .ok t' ∧
        ∀ e ∈ log, (e.BF = 2 ∧ (e.kind = Rotation.LL ∨ e.kind = Rotation.LR)) ∨
          (e.BF = -2 ∧ (e.kind = Rotation.RL ∨ e.kind = Rotation.RR))) := by
  constructor
  · obtain ⟨t', s', h1, h2, _, _, _⟩ := addNodeLog_full t s key value hm hb
    exact ⟨t', _, _, h1, h2, addNodeLogP_walk t.next key value s hb⟩
  · intro hk
    have hh : hit key' s ≠ none := fun e => (hit_none_iff key' s hs).1 e hk
    obtain ⟨t', s', h1, h2, _, _, _⟩ := removeNodeLog_full t s key' hm hb hh
    exact ⟨t', _, h1, h2, removeLogP_walk key' s hb⟩

end Ordered

/-! ## The example out of balance -/

theorem skewTree_models : Models skewTree skewShape := by
  refine ⟨rfl, trivial, ?_, by decide, by decide⟩
  simp [skewShape, skewTree, skewMem]

/-- C19 as stated, for every tree with consistent links, fails on `skewTree`: the tree
has consistent links, is in BST order and stores the right heights, but its root is
out of balance; `addNode` of the key 1 makes the balance factor of the root 3, the
loop of `checkBalance` takes the branch for -2, and reads the right son of the root,
which is absent. -/
theorem links_alone_addNode_fails :
    Models skewTree skewShape ∧ Linked skewTree skewShape.addrs ∧ skewShape.BST ∧
      ¬ skewShape.Balanced ∧ addNode skewTree 1 0 = .error .NullDereference :=
  ⟨skewTree_models, skewTree_models.linked,
    by simp [skewShape, Shape.BST, Shape.keys, Shape.toList],
    by simp [skewShape, Shape.Balanced, Shape.hgt], rfl⟩

/-! ## The properties on the example tree, continued -/

theorem removeByPointer_resolves_by_key_witness :
    exTree.mem 0 =
        some { key := 2, value := 20, height := 1, sonLeft := some 1, sonRight := some 2,
               parent := none } ∧
      (0, 2, 20) ∈ exShape.cells ∧
      removeByPointerOutcome exTree none = .threw .InvalidInput exTree ∧
      removeByPointer exTree none = .error .InvalidInput ∧
      removeByPointerOutcome exTree (some 0) = removeNodeOutcome exTree 2 ∧
      removeByPointer exTree (some 0) = removeNode exTree 2 ∧
      ∃ t' s' pre post, removeByPointerOutcome exTree (some 0) = .returned t' ∧
        removeByPointer exTree (some 0) = .ok t' ∧ Models t' s' ∧
        exShape.cells = pre ++ (0, 2, 20) :: post ∧ s'.cells = pre ++ post :=
  have h := removeByPointer_resolves_by_key exTree 0 _ rfl
  ⟨rfl, by simp [exShape], h.1, h.2.1, h.2.2.1, h.2.2.2.1,
    h.2.2.2.2 exShape 20 exTree_models exShape_bst exShape_balanced (by simp [exShape])⟩

theorem findNode_result_witness :
    (exTree.root = none → findNode exTree 5 = .ok none) ∧
      (exTree.root ≠ none →
        ∃ path a l k v h r, exShape = plug path (node a l k v h r) ∧ PathKeys 5 path ∧
          findNode exTree 5 = .ok (some a) ∧ getKey exTree.mem (some a) = .ok k ∧
          getSonLeft exTree.mem (some a) = .ok l.ptr ∧
          getSonRight exTree.mem (some a) = .ok r.ptr ∧
          (5 ∈ exShape.keys → k = 5) ∧
          (5 ∉ exShape.keys → (5 < k ∧ l.ptr = none) ∨ (k < 5 ∧ r.ptr = none))) :=
  findNode_result exTree exShape 5 exTree_models exShape_bst

theorem addNode_at_most_one_rotation_witness :
    addAll AVLtree.empty tenKeys = .ok tenTree ∧
      (∃ t' p, addNodeLog tenTree 40 0 = .ok (t', p,
        [{ kind := Rotation.RR, node := some 1, BF := -2, highTemp := 2,
           localRoot := some 4, newHeight := 2 }])) ∧
      ∃ t' p log, addNodeLog tenTree 40 0 = .ok (t', p, log) ∧
        addNode tenTree 40 0 = .ok (t', p) ∧ log.length ≤ 1 ∧
        ∀ e ∈ log, e.newHeight = e.highTemp :=
  ⟨rfl, ⟨_, _, rfl⟩,
    addNode_at_most_one_rotation tenTree tenShape 40 0 tenTree_models tenShape_balanced⟩

theorem rotation_keeps_place_order_heights_witness :
    rot Rotation.LL exShape =
        some (node 1 nil 1 10 2 (node 0 nil 2 20 1 (node 2 nil 3 30 0 nil))) ∧
      AtPlace exTree [] exShape.ptr ∧
      getParent exTree.mem exShape.ptr = .ok (ctxPtr ([] : List (Frame Nat Nat)) none) ∧
      ∃ t', reBalance Rotation.LL exTree exShape.ptr = .ok (t', some 1) ∧
        ModelsAt t' [] (node 1 nil 1 10 2 (node 0 nil 2 20 1 (node 2 nil 3 30 0 nil))) ∧
        AtPlace t' [] (some 1) ∧
        getParent t'.mem (some 1) = .ok (ctxPtr ([] : List (Frame Nat Nat)) none) ∧
        (node 1 nil 1 10 2 (node 0 nil 2 20 1 (node 2 nil 3 30 0 nil)) :
          Shape Nat Nat).keys = exShape.keys ∧
        RelinkedOK Rotation.LL
          (node 1 nil 1 10 2 (node 0 nil 2 20 1 (node 2 nil 3 30 0 nil)) : Shape Nat Nat) :=
  ⟨rfl, rotation_keeps_place_order_heights Rotation.LL exTree [] exShape _ exTree_models rfl⟩

theorem early_stop_ancestors_valid_witness :
    addAll AVLtree.empty tenKeys = .ok tenTree ∧ 10 ∈ tenShape.keys ∧
      (∃ t' p e, addNodeLog tenTree 40 0 = .ok (t', p, [e]) ∧ e.newHeight = e.highTemp ∧
        e.localRoot = some 4 ∧ getParent t'.mem (some 4) = .ok (some 0)) ∧
      (∃ t' e, removeNodeLog tenTree 10 = .ok (t', [e]) ∧ e.newHeight = e.highTemp ∧
        e.localRoot = some 4 ∧ getParent t'.mem (some 4) = .ok (some 0)) ∧
      (∃ t' p log s', addNodeLog tenTree 40 0 = .ok (t', p, log) ∧
        addNode tenTree 40 0 = .ok (t', p) ∧ Models t' s' ∧
        ∀ e ∈ log, e.newHeight = e.highTemp →
          ∃ path sub, s' = plug path sub ∧ sub.ptr = e.localRoot ∧ PathOK path sub.hgt) ∧
      (10 ∈ tenShape.keys → ∃ t' log s', removeNodeLog tenTree 10 = .ok (t', log) ∧
        removeNode tenTree 10 = .ok t' ∧ Models t' s' ∧
        ∀ e ∈ log, e.newHeight = e.highTemp →
          ∃ path sub, s' = plug path sub ∧ sub.ptr = e.localRoot ∧ PathOK path sub.hgt) :=
  ⟨rfl, by decide, ⟨_, _, _, rfl, rfl, rfl, rfl⟩, ⟨_, _, rfl, rfl, rfl, rfl⟩,
    early_stop_ancestors_valid tenTree tenShape 40 0 10 tenTree_models tenShape_bst
      tenShape_balanced⟩

theorem links_consistent_after_calls_witness :
    addAll AVLtree.empty tenKeys = .ok tenTree ∧ tenShape.Balanced ∧
      (∃ t' p, addNode tenTree 40 0 = .ok (t', p)) ∧
      (∃ t', removeNode tenTree 10 = .ok t') ∧
      (∀ t' p, addNode tenTree 40 0 = .ok (t', p) →
        ∃ s', Models t' s' ∧ Linked t' s'.addrs) ∧
      (∀ t', removeNode tenTree 10 = .ok t' → ∃ s', Models t' s' ∧ Linked t' s'.addrs) ∧
      (tenShape.Balanced → ∃ t' p, addNode tenTree 40 0 = .ok (t', p)) :=
  ⟨rfl, tenShape_balanced, ⟨_, _, rfl⟩, ⟨_, rfl⟩,
    links_consistent_after_calls tenTree tenShape 40 0 10 tenTree_models⟩

theorem unbalanced_nodes_have_factor_two_witness :
    addAll AVLtree.empty tenKeys = .ok tenTree ∧ 10 ∈ tenShape.keys ∧
      (∃ t' p, addNodeLog tenTree 40 0 = .ok (t', p,
        [{ kind := Rotation.RR, node := some 1, BF := -2, highTemp := 2,
           localRoot := some 4, newHeight := 2 }])) ∧
      (∃ t', removeNodeLog tenTree 10 = .ok (t',
        [{ kind := Rotation.RR, node := some 1, BF := -2, highTemp := 2,
           localRoot := some 4, newHeight := 2 }])) ∧
      (∃ t' p log, addNodeLog tenTree 40 0 = .ok (t', p, log) ∧
        addNode tenTree 40 0 = .ok (t', p) ∧
        ∀ e ∈ log, (e.BF = 2 ∧ (e.kind = Rotation.LL ∨ e.kind = Rotation.LR)) ∨
          (e.BF = -2 ∧ (e.kind = Rotation.RL ∨ e.kind = Rotation.RR))) ∧
      (10 ∈ tenShape.keys → ∃ t' log, removeNodeLog tenTree 10 = .ok (t', log) ∧
        removeNode tenTree 10 = .ok t' ∧
        ∀ e ∈ log, (e.BF = 2 ∧ (e.kind = Rotation.LL ∨ e.kind = Rotation.LR)) ∨
          (e.BF = -2 ∧ (e.kind = Rotation.RL ∨ e.kind = Rotation.RR))) :=
  ⟨rfl, by decide, ⟨_, _, rfl⟩, ⟨_, rfl⟩,
    unbalanced_nodes_have_factor_two tenTree tenShape 40 0 10 tenTree_models tenShape_bst
      tenShape_balanced⟩
